import Mathlib

/-!
# Request signing of the JuiceFS cloud client (`internal/juicefs/sign.go`)

A shallow embedding of `Client.sign` and of the Go library functions it calls,
followed by theorems about the string to sign and the signature.

Modelling conventions

* A Go `string` and a Go `[]byte` are byte sequences: `List UInt8`.  String
  constants of the source are written `str "..."` (their UTF-8 bytes).
* A Go `map[string][]string` is an association list; the binding of a key is
  its first entry, so every list denotes a map.  A `nil` map and a `nil` slice
  are `none`.
* `int64` is `Int`: `sign` only prints the timestamp in decimal.
* `sign` sorts the value slices of the caller's query map in place.  The query
  map is therefore kept in memory (`QueryMap`): a store of string cells and, for
  every name, the slice of cells it is bound to.  Slices of different names may
  overlap, as Go slices that share a backing array do.  The embedding returns
  the map as the call leaves it next to the two results of the Go function.
* `sign` reads the header map before it writes anything and never writes the
  body or the client, so `headers` is the content of the header map at the
  call, and the result of `sign` carries the body and the client as it leaves
  them.  A header value list that lives in the cells of the store is read after
  the call with `Slice.load`.
* An `error` is `Option GoString`: `none` is the nil error, `some msg` an error
  with that message.
* `Client.request` runs in a world `Env` that gives the clock, the answer of
  `http.NewRequest` and the answer of the HTTP client.  `NewRequest` embeds the
  library function itself (`url.Parse` of Go 1.22 and the checks of `net/http`)
  for the statements about paths and URLs; its errors are kept by cause.
* `Configure` of the provider reads three `types.String` values, each null,
  unknown or a known string.
-/

deriving instance DecidableEq for Except

namespace juicefs

/-- A Go string: an immutable sequence of bytes. -/
abbrev GoString := List UInt8

/-- The bytes of a string constant (UTF-8, as the Go compiler stores it). -/
def str (s : String) : GoString := s.toList.flatMap String.utf8EncodeChar

/-! ## Go library functions used by `sign` -/

/-- Go `strings.Join(elems, sep)`. -/
def Join : List GoString → GoString → GoString
  | [], _ => []
  | [a], _ => a
  | a :: b :: rest, sep => a ++ sep ++ Join (b :: rest) sep

/-- Go `strings.ToLower` on ASCII input: `A`..`Z` become `a`..`z`. -/
def ToLower (s : GoString) : GoString :=
  s.map (fun c => if 65 ≤ c.toNat ∧ c.toNat ≤ 90 then UInt8.ofNat (c.toNat + 32) else c)

/-- Decimal digits of `n`, most significant first; `fuel` bounds the number of digits. -/
def decimal : Nat → Nat → GoString
  | 0, _ => []
  | fuel + 1, n =>
    if n < 10 then [UInt8.ofNat (48 + n)]
    else decimal fuel (n / 10) ++ [UInt8.ofNat (48 + n % 10)]

/-- Go `fmt.Sprintf("%d", n)` for a signed integer. -/
def formatInt : Int → GoString
  | Int.ofNat n => decimal (n + 1) n
  | Int.negSucc n => 45 :: decimal (n + 2) (n + 1)

/-- Go string comparison `a <= b`: lexicographic on the bytes, a proper prefix first. -/
def strLe : GoString → GoString → Bool
  | [], _ => true
  | _ :: _, [] => false
  | a :: as, b :: bs =>
    if a.toNat < b.toNat then true
    else if b.toNat < a.toNat then false
    else strLe as bs

/-- The order `sort.Strings` sorts by. -/
def StrLE (a b : GoString) : Prop := strLe a b = true

instance : DecidableRel StrLE := fun a b => inferInstanceAs (Decidable (strLe a b = true))

/-- Go `sort.Strings`: the slice in ascending byte-wise order.  Strings that compare
equal are equal, so the result does not depend on the sorting algorithm
(`sortStrings_unique`). -/
def sortStrings (l : List GoString) : List GoString := List.insertionSort StrLE l

/-- Go `net/url.shouldEscape(c, encodeQueryComponent)`: everything but the unreserved
characters (letters, digits, `-`, `_`, `.`, `~`) is escaped. -/
def shouldEscape (c : UInt8) : Bool :=
  if (97 ≤ c.toNat ∧ c.toNat ≤ 122) ∨ (65 ≤ c.toNat ∧ c.toNat ≤ 90)
      ∨ (48 ≤ c.toNat ∧ c.toNat ≤ 57) then false
  else if c = 45 ∨ c = 95 ∨ c = 46 ∨ c = 126 then false
  else true

/-- The table `upperhex` of `net/url`. -/
def upperhex : GoString := str "0123456789ABCDEF"

/-- What `net/url.escape` in mode `encodeQueryComponent` writes for one byte: `+` for a
space, `%XX` for any other byte that `shouldEscape`, the byte itself otherwise. -/
def escapeByte (c : UInt8) : GoString :=
  if c = 32 then [43]
  else if shouldEscape c then
    [37, upperhex.getD (c.toNat / 16) 0, upperhex.getD (c.toNat % 16) 0]
  else [c]

/-- Go `url.QueryEscape`. -/
def QueryEscape (s : GoString) : GoString := s.flatMap escapeByte

/-- The table `hextable` of `encoding/hex`. -/
def hextable : GoString := str "0123456789abcdef"

/-- Go `hex.EncodeToString`. -/
def hexEncode (bs : List UInt8) : GoString :=
  bs.flatMap (fun b => [hextable.getD (b.toNat / 16) 0, hextable.getD (b.toNat % 16) 0])

/-! ### SHA-256 (`crypto/sha256`, FIPS 180-4) and HMAC (`crypto/hmac`, RFC 2104)

Words are natural numbers below `2 ^ 32`; every addition is reduced by `u32`. -/

namespace sha256

/-- The round constants. -/
def K : List Nat := [
  0x428A2F98, 0x71374491, 0xB5C0FBCF, 0xE9B5DBA5, 0x3956C25B, 0x59F111F1, 0x923F82A4, 0xAB1C5ED5,
  0xD807AA98, 0x12835B01, 0x243185BE, 0x550C7DC3, 0x72BE5D74, 0x80DEB1FE, 0x9BDC06A7, 0xC19BF174,
  0xE49B69C1, 0xEFBE4786, 0x0FC19DC6, 0x240CA1CC, 0x2DE92C6F, 0x4A7484AA, 0x5CB0A9DC, 0x76F988DA,
  0x983E5152, 0xA831C66D, 0xB00327C8, 0xBF597FC7, 0xC6E00BF3, 0xD5A79147, 0x06CA6351, 0x14292967,
  0x27B70A85, 0x2E1B2138, 0x4D2C6DFC, 0x53380D13, 0x650A7354, 0x766A0ABB, 0x81C2C92E, 0x92722C85,
  0xA2BFE8A1, 0xA81A664B, 0xC24B8B70, 0xC76C51A3, 0xD192E819, 0xD6990624, 0xF40E3585, 0x106AA070,
  0x19A4C116, 0x1E376C08, 0x2748774C, 0x34B0BCB5, 0x391C0CB3, 0x4ED8AA4A, 0x5B9CCA4F, 0x682E6FF3,
  0x748F82EE, 0x78A5636F, 0x84C87814, 0x8CC70208, 0x90BEFFFA, 0xA4506CEB, 0xBEF9A3F7, 0xC67178F2]

/-- The eight chaining words. -/
structure Digest where
  h0 : Nat
  h1 : Nat
  h2 : Nat
  h3 : Nat
  h4 : Nat
  h5 : Nat
  h6 : Nat
  h7 : Nat

/-- The initial chaining value. -/
def init : Digest :=
  ⟨0x6A09E667, 0xBB67AE85, 0x3C6EF372, 0xA54FF53A, 0x510E527F, 0x9B05688C, 0x1F83D9AB, 0x5BE0CD19⟩

/-- Reduction to 32 bits. -/
def u32 (x : Nat) : Nat := x % 4294967296

/-- Rotation of a 32-bit word to the right. -/
def rotr (n x : Nat) : Nat := u32 ((x >>> n) ||| (x <<< (32 - n)))

def ch (x y z : Nat) : Nat := (x &&& y) ^^^ ((x ^^^ 0xffffffff) &&& z)

def maj (x y z : Nat) : Nat := (x &&& y) ^^^ (x &&& z) ^^^ (y &&& z)

def bsig0 (x : Nat) : Nat := rotr 2 x ^^^ rotr 13 x ^^^ rotr 22 x

def bsig1 (x : Nat) : Nat := rotr 6 x ^^^ rotr 11 x ^^^ rotr 25 x

def ssig0 (x : Nat) : Nat := rotr 7 x ^^^ rotr 18 x ^^^ (x >>> 3)

def ssig1 (x : Nat) : Nat := rotr 17 x ^^^ rotr 19 x ^^^ (x >>> 10)

/-- The message schedule, most recent word first: `n` more words are added. -/
def extend : Nat → List Nat → List Nat
  | 0, ws => ws
  | n + 1, ws =>
    extend n (u32 (ssig1 (ws.getD 1 0) + ws.getD 6 0 + ssig0 (ws.getD 14 0) + ws.getD 15 0) :: ws)

/-- One round of the compression function, for the constant and schedule word `kw`. -/
def round (s : Digest) (kw : Nat × Nat) : Digest :=
  let t1 := u32 (s.h7 + bsig1 s.h4 + ch s.h4 s.h5 s.h6 + kw.1 + kw.2)
  let t2 := u32 (bsig0 s.h0 + maj s.h0 s.h1 s.h2)
  ⟨u32 (t1 + t2), s.h0, s.h1, s.h2, u32 (s.h3 + t1), s.h4, s.h5, s.h6⟩

/-- Big-endian 32-bit words of a byte sequence. -/
def toWords : List UInt8 → List Nat
  | a :: b :: c :: d :: rest =>
    (a.toNat * 16777216 + b.toNat * 65536 + c.toNat * 256 + d.toNat) :: toWords rest
  | _ => []

/-- The compression function on one 64-byte block `p`. -/
def block (s : Digest) (p : List UInt8) : Digest :=
  let w := (extend 48 (toWords p).reverse).reverse
  let t := (K.zip w).foldl round s
  ⟨u32 (s.h0 + t.h0), u32 (s.h1 + t.h1), u32 (s.h2 + t.h2), u32 (s.h3 + t.h3),
   u32 (s.h4 + t.h4), u32 (s.h5 + t.h5), u32 (s.h6 + t.h6), u32 (s.h7 + t.h7)⟩

/-- The first `n` 64-byte blocks of `bs`. -/
def chunks : Nat → List UInt8 → List (List UInt8)
  | 0, _ => []
  | n + 1, bs => bs.take 64 :: chunks n (bs.drop 64)

/-- The `n` low bytes of `x`, big-endian. -/
def be (n : Nat) (x : Nat) : List UInt8 :=
  (List.range n).reverse.map (fun i => UInt8.ofNat (x >>> (8 * i)))

/-- The padded message: a `0x80` byte, zeros up to 56 modulo 64, the bit length on 8 bytes. -/
def pad (msg : List UInt8) : List UInt8 :=
  msg ++ [0x80] ++ List.replicate ((119 - msg.length % 64) % 64) 0 ++ be 8 (8 * msg.length)

/-- Go `sha256.Sum256` (equally `h := sha256.New(); h.Write(msg); h.Sum(nil)`). -/
def Sum256 (msg : List UInt8) : List UInt8 :=
  let p := pad msg
  let d := (chunks (p.length / 64) p).foldl block init
  be 4 d.h0 ++ be 4 d.h1 ++ be 4 d.h2 ++ be 4 d.h3 ++ be 4 d.h4 ++ be 4 d.h5 ++ be 4 d.h6
    ++ be 4 d.h7

end sha256

/-- Go `h := hmac.New(sha256.New, key); h.Write(msg); h.Sum(nil)`. -/
def hmacSha256 (key msg : List UInt8) : List UInt8 :=
  let k := if key.length > 64 then sha256.Sum256 key else key
  let k := k ++ List.replicate (64 - k.length) 0
  sha256.Sum256 (k.map (· ^^^ 0x5c) ++ sha256.Sum256 (k.map (· ^^^ 0x36) ++ msg))

/-! ## Maps -/

/-- A Go `map[string][]string` by its content: every name with its list of values. -/
abbrev Values := List (GoString × List GoString)

/-- Go `http.Header`, `map[string][]string`. -/
abbrev Header := List (GoString × List GoString)

/-- Go `m[k]`: the slice bound to `k`, the nil slice when `k` is not a key. -/
def Values.get : Values → GoString → List GoString
  | [], _ => []
  | (k', vs) :: rest, k => if k' = k then vs else Values.get rest k

/-- The keys `for k := range m` visits: each key once. -/
def Values.keys (m : Values) : List GoString := (m.map Prod.fst).dedup

/-- A Go slice of strings, as a window on the string cells of memory: the index of its
first cell and its length. -/
structure Slice where
  off : Nat
  len : Nat
deriving DecidableEq

/-- The strings a slice holds: the cells `off`, ..., `off + len - 1` of the store (a
slice that reaches past the last cell is cut there). -/
def Slice.load (s : Slice) (store : List GoString) : List GoString :=
  (store.drop s.off).take s.len

/-- Go `sort.Strings(x)`: the cells of the slice hold the same strings in ascending
order, every other cell is left as it is. -/
def Slice.sort (s : Slice) (store : List GoString) : List GoString :=
  store.take s.off ++ sortStrings (s.load store)
    ++ store.drop (s.off + (s.load store).length)

/-- A `url.Values` in memory: the string cells of the backing arrays, laid out one after
the other, and the slice each name is bound to.  The binding of a name is its first
entry.  Slices of two names may share cells. -/
structure QueryMap where
  store : List GoString
  slices : List (GoString × Slice)
deriving DecidableEq

/-- The names of the map, each once. -/
def QueryMap.keys (q : QueryMap) : List GoString := (q.slices.map Prod.fst).dedup

/-- The slice bound to a name, the nil slice for a name the map does not hold. -/
def QueryMap.slice (q : QueryMap) (k : GoString) : Slice :=
  match q.slices.find? (fun e => e.1 = k) with
  | some e => e.2
  | none => ⟨0, 0⟩

/-- Go `queryParams[k]`: the strings of the slice bound to `k`. -/
def QueryMap.get (q : QueryMap) (k : GoString) : List GoString :=
  (q.slice k).load q.store

/-- Go `sort.Strings(queryParams[k])`. -/
def QueryMap.sort (q : QueryMap) (k : GoString) : QueryMap :=
  ⟨(q.slice k).sort q.store, q.slices⟩

/-- Whether a byte is a token character (`textproto.validHeaderFieldByte`). -/
def validHeaderFieldByte (c : UInt8) : Bool :=
  (97 ≤ c.toNat ∧ c.toNat ≤ 122) ∨ (65 ≤ c.toNat ∧ c.toNat ≤ 90) ∨ (48 ≤ c.toNat ∧ c.toNat ≤ 57)
    ∨ c ∈ str "!#$%&*+-.^_|~" ∨ c = 39 ∨ c = 96

/-- The canonical casing of a header key whose bytes are all token characters: upper case
at the start and after each `-`, lower case elsewhere.  `upper` says whether the next
byte starts a word. -/
def canonicalCase : Bool → GoString → GoString
  | _, [] => []
  | upper, c :: cs =>
    let c' :=
      if upper ∧ 97 ≤ c.toNat ∧ c.toNat ≤ 122 then UInt8.ofNat (c.toNat - 32)
      else if ¬ upper ∧ 65 ≤ c.toNat ∧ c.toNat ≤ 90 then UInt8.ofNat (c.toNat + 32)
      else c
    c' :: canonicalCase (c' = 45) cs

/-- Go `textproto.CanonicalMIMEHeaderKey`: a key holding a byte that is not a token
character is returned unchanged. -/
def CanonicalMIMEHeaderKey (s : GoString) : GoString :=
  if s.all validHeaderFieldByte then canonicalCase true s else s

/-- Go `http.Header.Get`: the first value bound to the canonical form of `key`, the empty
string when there is none. -/
def Header.Get (h : Header) (key : GoString) : GoString :=
  match Values.get h (CanonicalMIMEHeaderKey key) with
  | [] => []
  | v :: _ => v

/-! ## `Client.sign` -/

/-- The credentials of a client (`type Client struct`). -/
structure Client where
  Endpoint : GoString
  AccessKey : GoString
  SecretKey : GoString

/-- Step 1 of `sign`, the loop over the required header names: `acc` is `sortedHeaders`
so far; a missing or empty header ends the call with an error. -/
def sortedHeaders (headers : Header) : List GoString → List GoString → Except GoString (List GoString)
  | [], acc => Except.ok acc
  | h :: hs, acc =>
    let v := Header.Get headers h
    if v = [] then Except.error (str "header " ++ h ++ str " is required")
    else sortedHeaders headers hs (acc ++ [ToLower h ++ str ":" ++ v])

/-- Step 2 of `sign`, the loop over `sortedKeys`: the slice of each key is sorted in
place and one `name=value` entry per string of the sorted slice is appended to
`sortedQueryParams`. -/
def sortedQueryParams : List GoString → QueryMap → List GoString → QueryMap × List GoString
  | [], m, acc => (m, acc)
  | k :: ks, m, acc =>
    sortedQueryParams ks (QueryMap.sort m k)
      (acc ++ (QueryMap.get (QueryMap.sort m k) k).map
        (fun value => QueryEscape k ++ str "=" ++ QueryEscape value))

/-- Step 2 of `sign`: `sortedQueryString`, with the query map as the step leaves it. -/
def sortedQueryString : Option QueryMap → GoString × Option QueryMap
  | none => ([], none)
  | some queryParams =>
    let sortedKeys := sortStrings (QueryMap.keys queryParams)
    let r := sortedQueryParams sortedKeys queryParams []
    (Join r.2 (str "&"), some r.1)

/-- Step 3 of `sign`: `payloadHash`. -/
def payloadHash : Option (List UInt8) → GoString
  | none => []
  | some body => hexEncode (sha256.Sum256 body)

/-- Steps 1 to 4 of `sign`: the string `data` that is signed, with the query map as the
steps leave it, or the error of step 1. -/
def stringToSign (timestamp : Int) (method path : GoString) (headers : Header)
    (queryParams : Option QueryMap) (body : Option (List UInt8)) :
    Except GoString (GoString × Option QueryMap) :=
  match sortedHeaders headers [str "Host"] [] with
  | Except.error e => Except.error e
  | Except.ok hs =>
    let sortedHeadersString := Join hs (str "\n")
    let q := sortedQueryString queryParams
    let parts := [formatInt timestamp, method, path, sortedHeadersString, q.1, payloadHash body]
    Except.ok (Join parts (str "\n"), q.2)

/-- What a call of `sign` leaves behind: its two results, the caller's query map in
memory, the body and the client. -/
structure SignResult where
  signature : GoString
  err : Option GoString
  queryParams : Option QueryMap
  body : Option (List UInt8)
  client : Client

/-- The method `Client.sign`. -/
def sign (c : Client) (timestamp : Int) (method path : GoString) (headers : Header)
    (queryParams : Option QueryMap) (body : Option (List UInt8)) : SignResult :=
  match stringToSign timestamp method path headers queryParams body with
  | Except.error e => ⟨[], some e, queryParams, body, c⟩
  | Except.ok (data, q) => ⟨hexEncode (hmacSha256 c.SecretKey data), none, q, body, c⟩

/-! ## Go library functions used by `request` -/

/-- Go map assignment `m[k] = vs`. -/
def Values.assign : Values → GoString → List GoString → Values
  | [], k, vs => [(k, vs)]
  | (k₁, vs₁) :: rest, k, vs =>
    if k₁ = k then (k₁, vs) :: rest else (k₁, vs₁) :: Values.assign rest k vs

/-- Go `http.Header.Set`: the canonical form of `key` is bound to the single `value`. -/
def Header.Set (h : Header) (key value : GoString) : Header :=
  Values.assign h (CanonicalMIMEHeaderKey key) [value]

/-- Go `url.QueryMap.Encode`: the names in ascending order, the values of each name in the
order the map holds them; `&` is written before every entry but the first. -/
def QueryMap.Encode : Option QueryMap → GoString
  | none => []
  | some v =>
    (sortStrings (QueryMap.keys v)).foldl
      (fun buf k =>
        (QueryMap.get v k).foldl
          (fun buf value =>
            (if buf.length > 0 then buf ++ str "&" else buf)
              ++ QueryEscape k ++ str "=" ++ QueryEscape value)
          buf)
      []

/-- The alphabet of `base64.StdEncoding`. -/
def encodeStd : GoString :=
  str "ABCDEFGHIJKLMNOPQRSTUVWXYZabcdefghijklmnopqrstuvwxyz0123456789+/"

/-- Go `base64.StdEncoding.EncodeToString`: three bytes give four characters, the last
group is padded with `=`. -/
def base64Encode : List UInt8 → GoString
  | a :: b :: c :: rest =>
    [encodeStd.getD (a.toNat / 4) 0, encodeStd.getD (a.toNat % 4 * 16 + b.toNat / 16) 0,
      encodeStd.getD (b.toNat % 16 * 4 + c.toNat / 64) 0, encodeStd.getD (c.toNat % 64) 0]
      ++ base64Encode rest
  | [a, b] =>
    [encodeStd.getD (a.toNat / 4) 0, encodeStd.getD (a.toNat % 4 * 16 + b.toNat / 16) 0,
      encodeStd.getD (b.toNat % 16 * 4) 0, 61]
  | [a] => [encodeStd.getD (a.toNat / 4) 0, encodeStd.getD (a.toNat % 4 * 16) 0, 61, 61]
  | [] => []

/-- Go `utf8.RuneError`, the replacement character U+FFFD. -/
def RuneError : Nat := 65533

/-- Go `utf8.DecodeRune`: the code point at the start of `s` and the number of bytes of
its encoding; `(RuneError, 1)` when `s` does not start with a well-formed encoding. -/
def DecodeRune : List UInt8 → Nat × Nat
  | [] => (RuneError, 0)
  | s0 :: rest =>
    if s0.toNat < 128 then (s0.toNat, 1)
    else if s0.toNat < 194 ∨ 244 < s0.toNat then (RuneError, 1)
    else
      let lo := if s0.toNat = 224 then 160 else if s0.toNat = 240 then 144 else 128
      let hi := if s0.toNat = 237 then 159 else if s0.toNat = 244 then 143 else 191
      match rest with
      | [] => (RuneError, 1)
      | s1 :: rest1 =>
        if s1.toNat < lo ∨ hi < s1.toNat then (RuneError, 1)
        else if s0.toNat < 224 then (s0.toNat % 32 * 64 + s1.toNat % 64, 2)
        else
          match rest1 with
          | [] => (RuneError, 1)
          | s2 :: rest2 =>
            if s2.toNat < 128 ∨ 191 < s2.toNat then (RuneError, 1)
            else if s0.toNat < 240 then
              (s0.toNat % 16 * 4096 + s1.toNat % 64 * 64 + s2.toNat % 64, 3)
            else
              match rest2 with
              | [] => (RuneError, 1)
              | s3 :: _ =>
                if s3.toNat < 128 ∨ 191 < s3.toNat then (RuneError, 1)
                else
                  (s0.toNat % 8 * 262144 + s1.toNat % 64 * 4096 + s2.toNat % 64 * 64
                    + s3.toNat % 64, 4)

/-- The table `htmlSafeSet` of `encoding/json`: the ASCII bytes written as they are, all
from the space on but `"`, `&`, `<`, `>` and the backslash. -/
def htmlSafe (b : UInt8) : Bool :=
  32 ≤ b.toNat ∧ b.toNat < 128 ∧ b ≠ 34 ∧ b ≠ 38 ∧ b ≠ 60 ∧ b ≠ 62 ∧ b ≠ 92

/-- What `encoding/json` writes for an ASCII byte outside `htmlSafeSet`. -/
def escapeASCII (b : UInt8) : GoString :=
  if b = 92 ∨ b = 34 then [92, b]
  else if b = 8 then str "\\b"
  else if b = 12 then str "\\f"
  else if b = 10 then str "\\n"
  else if b = 13 then str "\\r"
  else if b = 9 then str "\\t"
  else str "\\u00" ++ [hextable.getD (b.toNat / 16) 0, hextable.getD (b.toNat % 16) 0]

/-- The loop of `appendString` of `encoding/json` with HTML escaping on, as `json.Marshal`
runs it: safe ASCII bytes and well-formed encodings are copied, the other ASCII bytes are
escaped, U+2028 and U+2029 are written as escapes and a byte that starts no well-formed
encoding as `�`.  `fuel` bounds the number of steps. -/
def appendStringBody : Nat → List UInt8 → GoString
  | 0, _ => []
  | _ + 1, [] => []
  | fuel + 1, b :: rest =>
    if b.toNat < 128 then
      if htmlSafe b then b :: appendStringBody fuel rest
      else escapeASCII b ++ appendStringBody fuel rest
    else
      let r := DecodeRune (b :: rest)
      if r.1 = RuneError ∧ r.2 = 1 then str "\\ufffd" ++ appendStringBody fuel rest
      else if r.1 = 8232 ∨ r.1 = 8233 then
        str "\\u202" ++ [hextable.getD (r.1 % 16) 0]
          ++ appendStringBody fuel ((b :: rest).drop r.2)
      else (b :: rest).take r.2 ++ appendStringBody fuel ((b :: rest).drop r.2)

/-- A Go string as `json.Marshal` writes it. -/
def jsonString (s : GoString) : GoString := [34] ++ appendStringBody s.length s ++ [34]

/-- Go `json.Marshal` of the map `auth` of `request`: the four keys in ascending order. -/
def marshalAuth (accessKey : GoString) (timestamp : Int) (signature : GoString) : GoString :=
  str "\x7b\"access_key\":" ++ jsonString accessKey ++ str ",\"signature\":"
    ++ jsonString signature ++ str ",\"timestamp\":" ++ formatInt timestamp
    ++ str ",\"version\":1\x7d"

/-- Go `json.Marshal` of a header map: the keys in ascending order, each bound to the
array of its values. -/
def marshalHeader (h : Header) : GoString :=
  str "\x7b"
    ++ Join ((sortStrings (Values.keys h)).map fun k =>
        jsonString k ++ str ":[" ++ Join ((Values.get h k).map jsonString) (str ",") ++ str "]")
      (str ",")
    ++ str "\x7d"

/-! ## `Client.request` -/

/-- The fields of a parsed `url.URL` that `request` reads. -/
structure URL where
  Path : GoString
  Host : GoString
  RawQuery : GoString
deriving DecidableEq

/-- The `http.Request` that `request` builds: `Body` holds the bytes of the buffer made
from the marshalled payload. -/
structure Request where
  Method : GoString
  URL : URL
  Header : Header
  Body : List UInt8
deriving DecidableEq

/-- An `http.Response` as `request` uses it: `Body` is what `io.ReadAll(resp.Body)`
gives. -/
structure Response where
  StatusCode : Int
  Body : Except GoString (List UInt8)

/-- The world `request` runs in: the clock `time.Now().Unix()`, how `http.NewRequest`
answers a method and a URL string (the parsed URL, or its error), and how the HTTP client
answers a request (`client.Do`). -/
structure Env where
  now : Int
  NewRequest : GoString → GoString → Except GoString URL
  Do : Request → Except GoString Response

/-- The arguments of a call of `sign`. -/
structure SigningInput where
  timestamp : Int
  method : GoString
  path : GoString
  headers : Header
  queryParams : Option QueryMap
  body : Option (List UInt8)
deriving DecidableEq

/-- How a call of `request` ends: it returns its three results, or it stops with a
run-time panic. -/
inductive Outcome where
  | returned (statusCode : Int) (body : Option (List UInt8)) (err : Option GoString)
  | panicked
deriving DecidableEq

/-- What a call of `request` does: how it ends, the texts it prints in order, the
arguments of its call of `sign` when it makes one, the requests it hands to the HTTP
client in order, and the caller's query map as the call leaves it. -/
structure RequestResult where
  outcome : Outcome
  printed : List GoString
  signed : Option SigningInput
  sent : List Request
  queryParams : Option QueryMap
deriving DecidableEq

/-- The method `Client.request`.  The payload `data interface` is `none` when nil, and
otherwise what `json.Marshal` makes of it: its JSON encoding or an error.  Marshalling
the header map and the map `auth` cannot fail. -/
def request (c : Client) (env : Env) (method path : GoString) (queryParams : Option QueryMap)
    (data : Option (Except GoString (List UInt8))) : RequestResult :=
  let timestamp := env.now
  let reqUrlWithParam := path ++ str "?" ++ QueryMap.Encode queryParams
  match data with
  | some (Except.error err) => ⟨Outcome.returned 0 none (some err), [], none, [], queryParams⟩
  | data =>
    let body : Option (List UInt8) :=
      match data with
      | some (Except.ok b) => some b
      | _ => none
    match env.NewRequest method reqUrlWithParam with
    | Except.error err => ⟨Outcome.returned 0 none (some err), [], none, [], queryParams⟩
    | Except.ok url =>
      let header₁ := Header.Set (Header.Set [] (str "Content-Type") (str "application/json"))
        (str "Host") url.Host
      if c.SecretKey.length < 10 then ⟨Outcome.panicked, [], none, [], queryParams⟩
      else
        let printed₁ :=
          [str "secret_key: " ++ c.SecretKey.take 10 ++ str "..."
              ++ c.SecretKey.drop (c.SecretKey.length - 10) ++ str "\n",
            str "timestamp: " ++ formatInt timestamp ++ str "\n",
            str "method: " ++ method ++ str "\n",
            str "path: " ++ url.Path ++ str "\n",
            str "headers: " ++ marshalHeader header₁ ++ str "\n",
            str "query_params: " ++ url.RawQuery ++ str "\n",
            str "body: " ++ body.getD [] ++ str "\n"]
        let input : SigningInput := ⟨timestamp, method, url.Path, header₁, queryParams, body⟩
        let r := sign c timestamp method url.Path header₁ queryParams body
        match r.err with
        | some err => ⟨Outcome.returned 0 none (some err), printed₁, some input, [], r.queryParams⟩
        | none =>
          let token := base64Encode (marshalAuth c.AccessKey timestamp r.signature)
          let printed₂ := printed₁ ++
            [str "signature: " ++ r.signature ++ str "\n", str "token: " ++ token ++ str "\n"]
          let req : Request :=
            ⟨if method = [] then str "GET" else method, url,
              Header.Set header₁ (str "Authorization") token, body.getD []⟩
          match env.Do req with
          | Except.error err =>
            ⟨Outcome.returned 0 none (some err), printed₂, some input, [req], r.queryParams⟩
          | Except.ok resp =>
            match resp.Body with
            | Except.error err =>
              ⟨Outcome.returned 0 none (some err), printed₂, some input, [req], r.queryParams⟩
            | Except.ok respBody =>
              ⟨Outcome.returned resp.StatusCode (some respBody) none,
                printed₂ ++ [str "response: \n" ++ respBody ++ str "\n"], some input, [req],
                r.queryParams⟩

/-! ## Vocabulary of the statements -/

/-- The `name=value` entries of one name, for its values in the order given. -/
def entries (k : GoString) (vs : List GoString) : List GoString :=
  vs.map (fun value => QueryEscape k ++ str "=" ++ QueryEscape value)

/-- A lower-case hexadecimal digit, `0`..`9` or `a`..`f`. -/
def isLowerHex (c : UInt8) : Bool :=
  (48 ≤ c.toNat ∧ c.toNat ≤ 57) ∨ (97 ≤ c.toNat ∧ c.toNat ≤ 102)

/-- An unreserved character: an ASCII letter, a digit, `-`, `_`, `.` or `~`. -/
def unreserved (c : UInt8) : Bool :=
  (97 ≤ c.toNat ∧ c.toNat ≤ 122) ∨ (65 ≤ c.toNat ∧ c.toNat ≤ 90) ∨ (48 ≤ c.toNat ∧ c.toNat ≤ 57)
    ∨ c = 45 ∨ c = 95 ∨ c = 46 ∨ c = 126

/-- The layout of the string to sign as the specification words it: the decimal
timestamp, the method, the path, the header block `host:` followed by the Host value,
the query block and the payload hash, a newline between each two. -/
def canonical (timestamp : Int) (method path host query hash : GoString) : GoString :=
  formatInt timestamp ++ str "\n" ++ method ++ str "\n" ++ path ++ str "\n"
    ++ (str "host:" ++ host) ++ str "\n" ++ query ++ str "\n" ++ hash

/-- The number a sequence of decimal digits writes. -/
def parseNat (s : GoString) : Nat := s.foldl (fun acc d => acc * 10 + (d.toNat - 48)) 0

/-- The integer a decimal numeral with an optional leading `-` writes. -/
def parseInt : GoString → Int
  | [] => 0
  | c :: ds => if c = 45 then -(parseNat ds : Int) else (parseNat (c :: ds) : Int)

/-- The value of a hexadecimal digit, `0` for any other byte. -/
def hexValue (c : UInt8) : Nat :=
  if 48 ≤ c.toNat ∧ c.toNat ≤ 57 then c.toNat - 48
  else if 65 ≤ c.toNat ∧ c.toNat ≤ 70 then c.toNat - 55
  else if 97 ≤ c.toNat ∧ c.toNat ≤ 102 then c.toNat - 87
  else 0

/-- Two slices share no cell. -/
def Slice.Disjoint (s t : Slice) : Prop :=
  s.len = 0 ∨ t.len = 0 ∨ s.off + s.len ≤ t.off ∨ t.off + t.len ≤ s.off

instance (s t : Slice) : Decidable (Slice.Disjoint s t) :=
  inferInstanceAs
    (Decidable (s.len = 0 ∨ t.len = 0 ∨ s.off + s.len ≤ t.off ∨ t.off + t.len ≤ s.off))

/-- The value slices of different names share no cell. -/
def QueryMap.Separate (q : QueryMap) : Prop :=
  ∀ k₁ ∈ q.keys, ∀ k₂ ∈ q.keys, k₁ ≠ k₂ → Slice.Disjoint (q.slice k₁) (q.slice k₂)

instance (q : QueryMap) : Decidable q.Separate :=
  inferInstanceAs (Decidable (∀ k₁ ∈ q.keys, ∀ k₂ ∈ q.keys, k₁ ≠ k₂ →
    Slice.Disjoint (q.slice k₁) (q.slice k₂)))

/-- The values the loop of `sign` finds under each key when it comes to it, sorted. -/
def emitted : List GoString → QueryMap → List (GoString × List GoString)
  | [], _ => []
  | k :: ks, m => (k, QueryMap.get (QueryMap.sort m k) k) :: emitted ks (QueryMap.sort m k)

/-- The layout of a map given by its contents, every value list in cells of its own,
from the cell `off` on. -/
def layout : Nat → Values → List (GoString × Slice)
  | _, [] => []
  | off, (k, vs) :: rest => (k, ⟨off, vs.length⟩) :: layout (off + vs.length) rest

/-- The map a Go literal `url.Values` builds: the value list of every entry in a backing
array of its own. -/
def QueryMap.ofValues (m : Values) : QueryMap := ⟨m.flatMap Prod.snd, layout 0 m⟩

/-- The (name, value) pairs a map holds: each value of each name, as often as it is
listed. -/
def QueryMap.pairs (m : QueryMap) : List (GoString × GoString) :=
  (QueryMap.keys m).flatMap fun k => (QueryMap.get m k).map fun v => (k, v)

/-- The pairs of a map in the order of the query block: names ascending, the values of
each name ascending. -/
def QueryMap.sortedPairs (m : QueryMap) : List (GoString × GoString) :=
  (sortStrings (QueryMap.keys m)).flatMap fun k =>
    (sortStrings (QueryMap.get m k)).map fun v => (k, v)

/-- The order of the pairs in the query block: by name, then by value. -/
def PairLE (p q : GoString × GoString) : Prop :=
  StrLE p.1 q.1 ∧ (p.1 = q.1 → StrLE p.2 q.2)

/-- The entry `name=value` of a pair. -/
def entry (p : GoString × GoString) : GoString :=
  QueryEscape p.1 ++ str "=" ++ QueryEscape p.2

/-- The loop of Go `utf8.ValidString`: every step finds a well-formed encoding. -/
def validBody : Nat → List UInt8 → Bool
  | _, [] => true
  | 0, _ :: _ => false
  | fuel + 1, b :: rest =>
    let r := DecodeRune (b :: rest)
    if r.1 = RuneError ∧ r.2 = 1 then false else validBody fuel ((b :: rest).drop r.2)

/-- Go `utf8.ValidString`: the string is well-formed UTF-8. -/
def ValidString (s : GoString) : Bool := validBody s.length s

/-- The place of a character in the alphabet of `base64.StdEncoding`. -/
def base64Index (c : UInt8) : Option Nat :=
  if 65 ≤ c.toNat ∧ c.toNat ≤ 90 then some (c.toNat - 65)
  else if 97 ≤ c.toNat ∧ c.toNat ≤ 122 then some (c.toNat - 71)
  else if 48 ≤ c.toNat ∧ c.toNat ≤ 57 then some (c.toNat + 4)
  else if c = 43 then some 62
  else if c = 47 then some 63
  else none

/-- Decoding of standard padded base64 (RFC 4648): four characters give three bytes, a
last group ending in `=` or `==` gives two bytes or one. -/
def base64Decode : List UInt8 → Option (List UInt8)
  | [] => some []
  | a :: b :: c :: d :: rest =>
    match base64Index a, base64Index b with
    | some i, some j =>
      if rest = [] ∧ d = 61 then
        if c = 61 then some [UInt8.ofNat (i * 4 + j / 16)]
        else
          match base64Index c with
          | some k => some [UInt8.ofNat (i * 4 + j / 16), UInt8.ofNat (j % 16 * 16 + k / 4)]
          | none => none
      else
        match base64Index c, base64Index d, base64Decode rest with
        | some k, some l, some bs =>
          some (UInt8.ofNat (i * 4 + j / 16) :: UInt8.ofNat (j % 16 * 16 + k / 4)
            :: UInt8.ofNat (k % 4 * 64 + l) :: bs)
        | _, _, _ => none
    | _, _ => none
  | _ => none

/-- A hexadecimal digit of either case. -/
def isHexDigit (c : UInt8) : Bool :=
  (48 ≤ c.toNat ∧ c.toNat ≤ 57) ∨ (65 ≤ c.toNat ∧ c.toNat ≤ 70) ∨ (97 ≤ c.toNat ∧ c.toNat ≤ 102)

/-- The UTF-8 encoding of a code point below `0x10000`. -/
def EncodeRune (c : Nat) : List UInt8 :=
  if c < 128 then [UInt8.ofNat c]
  else if c < 2048 then [UInt8.ofNat (192 + c / 64), UInt8.ofNat (128 + c % 64)]
  else
    [UInt8.ofNat (224 + c / 4096), UInt8.ofNat (128 + c / 64 % 64), UInt8.ofNat (128 + c % 64)]

/-- The byte a two-character JSON escape stands for (RFC 8259). -/
def unescape (e : UInt8) : Option UInt8 :=
  if e = 34 ∨ e = 92 ∨ e = 47 then some e
  else if e = 98 then some 8
  else if e = 102 then some 12
  else if e = 110 then some 10
  else if e = 114 then some 13
  else if e = 116 then some 9
  else none

/-- Decoding of a JSON string after its opening quote (RFC 8259): the bytes it stands for
and the text after its closing quote.  A `\u` escape gives the UTF-8 encoding of its code
point; an escape of a surrogate and a raw control character are refused. -/
def unquoteBody : List UInt8 → Option (GoString × List UInt8)
  | [] => none
  | b :: rest =>
    if b = 34 then some ([], rest)
    else if b = 92 then
      match rest with
      | [] => none
      | e :: rest₁ =>
        if e = 117 then
          match rest₁ with
          | h₁ :: h₂ :: h₃ :: h₄ :: rest₂ =>
            let c := hexValue h₁ * 4096 + hexValue h₂ * 256 + hexValue h₃ * 16 + hexValue h₄
            if isHexDigit h₁ ∧ isHexDigit h₂ ∧ isHexDigit h₃ ∧ isHexDigit h₄
                ∧ (c < 55296 ∨ 57343 < c) then
              (unquoteBody rest₂).map fun r => (EncodeRune c ++ r.1, r.2)
            else none
          | _ => none
        else
          match unescape e with
          | some c => (unquoteBody rest₁).map fun r => (c :: r.1, r.2)
          | none => none
    else if b.toNat < 32 then none
    else (unquoteBody rest).map fun r => (b :: r.1, r.2)

/-- The values the token holds: strings and integers. -/
inductive JSONValue where
  | string (s : GoString)
  | number (n : Int)
deriving DecidableEq

/-- A decimal digit. -/
def isDigit (c : UInt8) : Bool := 48 ≤ c.toNat ∧ c.toNat ≤ 57

/-- Decoding of a JSON integer: an optional `-` and the longest run of digits; the integer
and the text after it. -/
def decodeNumber (s : List UInt8) : Option (Int × List UInt8) :=
  let digits := if s.head? = some 45 then s.tail else s
  if digits.takeWhile isDigit = [] then none
  else
    some (if s.head? = some 45 then -(parseNat (digits.takeWhile isDigit) : Int)
      else (parseNat (digits.takeWhile isDigit) : Int), digits.dropWhile isDigit)

/-- Decoding of a JSON string or integer; the value and the text after it. -/
def decodeValue : List UInt8 → Option (JSONValue × List UInt8)
  | [] => none
  | c :: s =>
    if c = 34 then (unquoteBody s).map fun r => (JSONValue.string r.1, r.2)
    else (decodeNumber (c :: s)).map fun r => (JSONValue.number r.1, r.2)

/-- Decoding of the members `"name":value` of a JSON object up to its closing brace, at
most `fuel` of them. -/
def decodeMembers : Nat → List UInt8 → Option (List (GoString × JSONValue))
  | 0, _ => none
  | _ + 1, [] => none
  | fuel + 1, q :: s =>
    if q = 34 then
      match unquoteBody s with
      | some (name, colon :: s₁) =>
        if colon = 58 then
          match decodeValue s₁ with
          | some (v, sep :: s₂) =>
            if sep = 125 ∧ s₂ = [] then some [(name, v)]
            else if sep = 44 then (decodeMembers fuel s₂).map fun ms => (name, v) :: ms
            else none
          | _ => none
        else none
      | _ => none
    else none

/-- Decoding of a JSON object without white space whose values are strings and integers:
its members in the order of the text. -/
def jsonDecodeObject : List UInt8 → Option (List (GoString × JSONValue))
  | [] => none
  | c :: s =>
    if c = 123 then (if s = [125] then some [] else decodeMembers s.length s) else none

/-- A world for the examples: the clock reads 1700000000, the URL
`https://juicefs.com/api/v1/regions?` is parsed into its path, host and empty query (any
other URL is refused), and the server answers every request with status 200 and the
body `[]`. -/
def exampleEnv : Env where
  now := 1700000000
  NewRequest := fun _ url =>
    if url = str "https://juicefs.com/api/v1/regions?" then
      Except.ok ⟨str "/api/v1/regions", str "juicefs.com", []⟩
    else Except.error (str "parse error")
  Do := fun _ => Except.ok ⟨200, Except.ok (str "[]")⟩

/-- A client for the examples, with a secret key of 30 bytes. -/
def exampleClient : Client := ⟨str "https://juicefs.com/api/v1", str "AK1",
  str "0123456789abcdefghijKLMNOPQRST"⟩

/-- The value of the variable `body` of `request` once the payload is marshalled: nil
when there is no payload. -/
def payloadBody : Option (Except GoString (List UInt8)) → Option (List UInt8)
  | some (Except.ok b) => some b
  | _ => none

/-- The header map of the request at the call of `sign`: `Content-Type` and `Host`. -/
def signedHeader (host : GoString) : Header :=
  Header.Set (Header.Set [] (str "Content-Type") (str "application/json")) (str "Host") host

/-- The token `request` puts into the header `Authorization`. -/
def authToken (c : Client) (timestamp : Int) (signature : GoString) : GoString :=
  base64Encode (marshalAuth c.AccessKey timestamp signature)

/-- The fields a token stands for: its base64 decoding, read as a JSON object. -/
def decodeToken (token : GoString) : Option (List (GoString × JSONValue)) :=
  (base64Decode token).bind jsonDecodeObject

/-! ## `url.Parse` and `http.NewRequest` -/

/-- The errors of `http.NewRequest`, by their cause.  (The message of such an error quotes
its operand with the verb `%q`; the embedding keeps the operand.) -/
inductive RequestError where
  /-- Message `net/http: invalid method %q`. -/
  | invalidMethod (method : GoString)
  /-- Message `net/url: invalid control character in URL`. -/
  | invalidControlCharacter
  /-- Message `missing protocol scheme`. -/
  | missingProtocolScheme
  /-- Message `first path segment in URL cannot contain colon`. -/
  | colonInFirstPathSegment
  /-- Type `url.EscapeError`, message `invalid URL escape %q`. -/
  | EscapeError (s : GoString)
  /-- Type `url.InvalidHostError`, message `invalid character %q in host name`. -/
  | InvalidHostError (s : GoString)
  /-- Message `missing ] in host`, the bracket quoted. -/
  | missingBracket
  /-- Message `invalid port %q after host`. -/
  | invalidPort (colonPort : GoString)
  /-- Message `net/url: invalid userinfo`. -/
  | invalidUserinfo
deriving DecidableEq

/-- The parts of a URL that `unescape` tells apart (`type encoding int` of `net/url`). -/
inductive encoding where
  | encodePath
  | encodePathSegment
  | encodeHost
  | encodeZone
  | encodeUserPassword
  | encodeQueryComponent
  | encodeFragment
deriving DecidableEq

/-- An ASCII letter or digit. -/
def isAlnum (c : UInt8) : Bool :=
  (97 ≤ c.toNat ∧ c.toNat ≤ 122) ∨ (65 ≤ c.toNat ∧ c.toNat ≤ 90) ∨ (48 ≤ c.toNat ∧ c.toNat ≤ 57)

/-- Go `ishex` of `net/url`. -/
def ishex (c : UInt8) : Bool :=
  (48 ≤ c.toNat ∧ c.toNat ≤ 57) ∨ (97 ≤ c.toNat ∧ c.toNat ≤ 102) ∨ (65 ≤ c.toNat ∧ c.toNat ≤ 70)

/-- Go `unhex` of `net/url`. -/
def unhex (c : UInt8) : Nat :=
  if 48 ≤ c.toNat ∧ c.toNat ≤ 57 then c.toNat - 48
  else if 97 ≤ c.toNat ∧ c.toNat ≤ 102 then c.toNat - 97 + 10
  else if 65 ≤ c.toNat ∧ c.toNat ≤ 70 then c.toNat - 65 + 10
  else 0

/-- Go `shouldEscape(c, encodeHost)`: letters and digits, the bytes
`!$&'()*+,;=:[]<>"` and the marks `-_.~` may stand in a host as they are. -/
def shouldEscapeHost (c : UInt8) : Bool :=
  if isAlnum c then false
  else if c ∈ ([33, 36, 38, 39, 40, 41, 42, 43, 44, 59, 61, 58, 91, 93, 60, 62, 34] : List UInt8)
    then false
  else if c ∈ ([45, 95, 46, 126] : List UInt8) then false
  else true

/-- Go `unescape(s, mode)` of `net/url` for the modes other than `encodeQueryComponent`.
The source checks the escapes in a first loop and decodes in a second; the embedding does
both in one pass over the string, which yields the error of the first ill-formed position
or else the decoded bytes. -/
def url.unescape (mode : encoding) : GoString → Except RequestError GoString
  | [] => Except.ok []
  | c :: rest =>
    if c = 37 then
      match rest with
      | h₁ :: h₂ :: rest₂ =>
        if ¬ (ishex h₁ = true ∧ ishex h₂ = true) then
          Except.error (RequestError.EscapeError [c, h₁, h₂])
        else if mode = encoding.encodeHost ∧ unhex h₁ < 8 ∧ [c, h₁, h₂] ≠ str "%25" then
          Except.error (RequestError.EscapeError [c, h₁, h₂])
        else if mode = encoding.encodeZone ∧ [c, h₁, h₂] ≠ str "%25"
            ∧ unhex h₁ * 16 + unhex h₂ ≠ 32
            ∧ shouldEscapeHost (UInt8.ofNat (unhex h₁ * 16 + unhex h₂)) = true then
          Except.error (RequestError.EscapeError [c, h₁, h₂])
        else
          match url.unescape mode rest₂ with
          | Except.error e => Except.error e
          | Except.ok t => Except.ok (UInt8.ofNat (unhex h₁ * 16 + unhex h₂) :: t)
      | _ => Except.error (RequestError.EscapeError (c :: rest))
    else if c = 43 then
      match url.unescape mode rest with
      | Except.error e => Except.error e
      | Except.ok t => Except.ok (c :: t)
    else if (mode = encoding.encodeHost ∨ mode = encoding.encodeZone) ∧ c.toNat < 128
        ∧ shouldEscapeHost c = true then
      Except.error (RequestError.InvalidHostError [c])
    else
      match url.unescape mode rest with
      | Except.error e => Except.error e
      | Except.ok t => Except.ok (c :: t)

/-- Go `strings.Cut(s, sep)` for a separator of one byte: the text before the first
separator and the text after it (all of `s` and nothing when there is none). -/
def Cut (s : GoString) (sep : UInt8) : GoString × GoString :=
  (s.takeWhile (fun c => c != sep), (s.dropWhile (fun c => c != sep)).tail)

/-- Go `strings.LastIndex(s, sep)` for a separator of one byte, `-1` when there is
none. -/
def LastIndex (s : GoString) (sep : UInt8) : Int :=
  if sep ∈ s then ((s.length - 1 - s.reverse.indexOf sep : Nat) : Int) else -1

/-- Go `strings.Index(s, substr)`: `i` counts the bytes already passed. -/
def Index (substr : GoString) : GoString → Nat → Int
  | [], i => if substr = [] then (i : Int) else -1
  | c :: rest, i => if substr.isPrefixOf (c :: rest) then (i : Int) else Index substr rest (i + 1)

/-- Go `stringContainsCTLByte`. -/
def stringContainsCTLByte (s : GoString) : Bool :=
  s.any fun b => b.toNat < 32 ∨ b = 127

/-- The loop of Go `getScheme`: `i` is the index of the first byte of the text still to
read. -/
def getSchemeLoop (rawURL : GoString) : Nat → GoString → Except RequestError (GoString × GoString)
  | _, [] => Except.ok ([], rawURL)
  | i, c :: rest =>
    if (97 ≤ c.toNat ∧ c.toNat ≤ 122) ∨ (65 ≤ c.toNat ∧ c.toNat ≤ 90) then
      getSchemeLoop rawURL (i + 1) rest
    else if (48 ≤ c.toNat ∧ c.toNat ≤ 57) ∨ c = 43 ∨ c = 45 ∨ c = 46 then
      if i = 0 then Except.ok ([], rawURL) else getSchemeLoop rawURL (i + 1) rest
    else if c = 58 then
      if i = 0 then Except.error RequestError.missingProtocolScheme
      else Except.ok (rawURL.take i, rawURL.drop (i + 1))
    else Except.ok ([], rawURL)

/-- Go `getScheme`: the scheme before the first `:` and the text after it, or no scheme
and the whole text. -/
def getScheme (rawURL : GoString) : Except RequestError (GoString × GoString) :=
  getSchemeLoop rawURL 0 rawURL

/-- Go `validOptionalPort`: nothing, or `:` and digits. -/
def validOptionalPort : GoString → Bool
  | [] => true
  | c :: rest => c = 58 ∧ rest.all (fun b => 48 ≤ b.toNat ∧ b.toNat ≤ 57)

/-- Go `parseHost` (Go 1.22). -/
def parseHost (host : GoString) : Except RequestError GoString :=
  if host.head? = some 91 then
    let i := LastIndex host 93
    if i < 0 then Except.error RequestError.missingBracket
    else
      let colonPort := host.drop (i.toNat + 1)
      if validOptionalPort colonPort = false then
        Except.error (RequestError.invalidPort colonPort)
      else
        let zone := Index (str "%25") (host.take i.toNat) 0
        if zone ≥ 0 then
          match url.unescape encoding.encodeHost (host.take zone.toNat) with
          | Except.error e => Except.error e
          | Except.ok host1 =>
            match url.unescape encoding.encodeZone ((host.take i.toNat).drop zone.toNat) with
            | Except.error e => Except.error e
            | Except.ok host2 =>
              match url.unescape encoding.encodeHost (host.drop i.toNat) with
              | Except.error e => Except.error e
              | Except.ok host3 => Except.ok (host1 ++ host2 ++ host3)
        else url.unescape encoding.encodeHost host
  else
    let i := LastIndex host 58
    if i ≠ -1 ∧ validOptionalPort (host.drop i.toNat) = false then
      Except.error (RequestError.invalidPort (host.drop i.toNat))
    else url.unescape encoding.encodeHost host

/-- Go `validUserinfo`. -/
def validUserinfo (s : GoString) : Bool :=
  s.all fun r => isAlnum r
    ∨ r ∈ ([45, 46, 95, 58, 126, 33, 36, 38, 39, 40, 41, 42, 43, 44, 59, 61, 37, 64] : List UInt8)

/-- Go `parseAuthority`: the host of `[userinfo@]host`; the user information is checked
and dropped. -/
def parseAuthority (authority : GoString) : Except RequestError GoString :=
  let i := LastIndex authority 64
  match (if i < 0 then parseHost authority else parseHost (authority.drop (i.toNat + 1))) with
  | Except.error e => Except.error e
  | Except.ok host =>
    if i < 0 then Except.ok host
    else
      let userinfo := authority.take i.toNat
      if validUserinfo userinfo = false then Except.error RequestError.invalidUserinfo
      else if (58 : UInt8) ∉ userinfo then
        match url.unescape encoding.encodeUserPassword userinfo with
        | Except.error e => Except.error e
        | Except.ok _ => Except.ok host
      else
        match url.unescape encoding.encodeUserPassword (Cut userinfo 58).1 with
        | Except.error e => Except.error e
        | Except.ok _ =>
          match url.unescape encoding.encodeUserPassword (Cut userinfo 58).2 with
          | Except.error e => Except.error e
          | Except.ok _ => Except.ok host

/-- The query split of Go `parse`: a lone `?` at the end is dropped (`ForceQuery`),
otherwise the text is cut at its first `?`; the second part is `RawQuery`. -/
def splitQuery (rest : GoString) : GoString × GoString :=
  if rest.getLast? = some 63 ∧ rest.count 63 = 1 then (rest.dropLast, []) else Cut rest 63

/-- The end of Go `parse`, after the scheme and the query are split off: the path and the
host of what is left. -/
def parseHierarchy (scheme rest : GoString) : Except RequestError (GoString × GoString) :=
  if rest.head? ≠ some 47 ∧ scheme ≠ [] then Except.ok ([], [])
  else if rest.head? ≠ some 47 ∧ (58 : UInt8) ∈ (Cut rest 47).1 then
    Except.error RequestError.colonInFirstPathSegment
  else if (scheme ≠ [] ∨ ¬ (str "///").isPrefixOf rest = true) ∧ (str "//").isPrefixOf rest = true then
    match parseAuthority ((rest.drop 2).takeWhile (fun c => c != 47)) with
    | Except.error e => Except.error e
    | Except.ok host =>
      match url.unescape encoding.encodePath ((rest.drop 2).dropWhile (fun c => c != 47)) with
      | Except.error e => Except.error e
      | Except.ok path => Except.ok (path, host)
  else
    match url.unescape encoding.encodePath rest with
    | Except.error e => Except.error e
    | Except.ok path => Except.ok (path, [])

/-- Go `parse(rawURL, false)` of `net/url`, as `url.Parse` calls it: the path, the host
and the raw query of the URL.  A URL with a scheme and a rootless path is opaque: its
path and host are empty. -/
def parse (rawURL : GoString) : Except RequestError URL :=
  if stringContainsCTLByte rawURL then Except.error RequestError.invalidControlCharacter
  else if rawURL = str "*" then Except.ok ⟨str "*", [], []⟩
  else
    match getScheme rawURL with
    | Except.error e => Except.error e
    | Except.ok (scheme, rest) =>
      match parseHierarchy (ToLower scheme) (splitQuery rest).1 with
      | Except.error e => Except.error e
      | Except.ok (path, host) => Except.ok ⟨path, host, (splitQuery rest).2⟩

/-- Go `url.Parse`: the fragment after the first `#` is cut off and checked. -/
def Parse (rawURL : GoString) : Except RequestError URL :=
  match parse (Cut rawURL 35).1 with
  | Except.error e => Except.error e
  | Except.ok u =>
    if (Cut rawURL 35).2 = [] then Except.ok u
    else
      match url.unescape encoding.encodeFragment (Cut rawURL 35).2 with
      | Except.error e => Except.error e
      | Except.ok _ => Except.ok u

/-- Go `removeEmptyPort` of `net/http`: a `:` at the end of a host is dropped. -/
def removeEmptyPort (host : GoString) : GoString :=
  if LastIndex host 58 > LastIndex host 93 then
    (if host.getLast? = some 58 then host.dropLast else host)
  else host

/-- Go `validMethod` of `net/http`: a non-empty token. -/
def validMethod (method : GoString) : Bool :=
  method ≠ [] ∧ method.all fun c => isAlnum c
    ∨ c ∈ ([33, 35, 36, 37, 38, 39, 42, 43, 45, 46, 94, 95, 96, 124, 126] : List UInt8)

/-- Go `http.NewRequest(method, url, body)`, as far as `request` reads its result: the
parsed URL of the request, or the error. -/
def NewRequest (method rawURL : GoString) : Except RequestError URL :=
  if validMethod (if method = [] then str "GET" else method) = false then
    Except.error (RequestError.invalidMethod (if method = [] then str "GET" else method))
  else
    match Parse rawURL with
    | Except.error e => Except.error e
    | Except.ok u => Except.ok ⟨u.Path, removeEmptyPort u.Host, u.RawQuery⟩

/-- The world in which `http.NewRequest` is the library function: `message` renders
its errors, `now` is the clock and `Do` the HTTP client. -/
def goEnv (now : Int) (message : RequestError → GoString)
    (Do : Request → Except GoString Response) : Env where
  now := now
  NewRequest := fun method rawURL =>
    match NewRequest method rawURL with
    | Except.error e => Except.error (message e)
    | Except.ok u => Except.ok u
  Do := Do

/-! ## The provider: `GetRegions` and `Configure` -/

/-- How the call `client.GetRegions()` of `Configure` ends: with a run-time panic
(`none`), or with the error it returns (`some none` is the nil error).  `Unmarshal` gives
the error of `json.Unmarshal(body, &regions)`. -/
def GetRegions (c : Client) (env : Env) (Unmarshal : List UInt8 → Option GoString) :
    Option (Option GoString) :=
  match (request c env (str "GET") (c.Endpoint ++ str "/regions") none none).outcome with
  | Outcome.panicked => none
  | Outcome.returned statusCode body err =>
    match err with
    | some e => some (some e)
    | none =>
      if statusCode ≠ 200 then
        some (some (str "get regions failed, status code: " ++ formatInt statusCode
          ++ str ", body: " ++ body.getD []))
      else some (Unmarshal (body.getD []))

/-- A `types.String` of the plugin framework: null, unknown, or a known string. -/
inductive StringValue where
  | null
  | unknown
  | known (value : GoString)
deriving DecidableEq

/-- Go `types.String.IsNull`. -/
def StringValue.IsNull : StringValue → Bool
  | StringValue.null => true
  | _ => false

/-- Go `types.String.ValueString`: the known string, the empty string for a null or
unknown value. -/
def StringValue.ValueString : StringValue → GoString
  | StringValue.known value => value
  | _ => []

/-- The provider data model (`type juicefsCloudProviderModel struct`). -/
structure juicefsCloudProviderModel where
  Endpoint : StringValue
  AccessKey : StringValue
  SecretKey : StringValue

/-- What a call of `Configure` does: the client it builds, if it gets that far, the two
fields of the response it sets, and whether the call stops with a run-time panic. -/
structure ConfigureResponse where
  client : Option Client
  DataSourceData : Option Client
  ResourceData : Option Client
  panicked : Bool

/-- The method `juicefsCloudProvider.Configure`.  `data` is the configuration as
`req.Config.Get` reads it and `hasError` says whether reading it reported an error. -/
def Configure (env : Env) (Unmarshal : List UInt8 → Option GoString) (hasError : Bool)
    (data : juicefsCloudProviderModel) : ConfigureResponse :=
  if hasError then ⟨none, none, none, false⟩
  else
    let endpoint :=
      if !data.Endpoint.IsNull then data.Endpoint.ValueString
      else str "https://juicefs.com/api/v1"
    let accessKey := data.AccessKey.ValueString
    let secretKey := data.SecretKey.ValueString
    let client : Client := ⟨endpoint, accessKey, secretKey⟩
    match GetRegions client env Unmarshal with
    | none => ⟨some client, none, none, true⟩
    | some (some _) => ⟨some client, none, none, false⟩
    | some none => ⟨some client, some client, some client, false⟩

/-! ## More vocabulary of the statements -/

/-- A server-relative path: it begins with `/` but not with `//`, so it carries no scheme
and no authority. -/
def serverRelative (path : GoString) : Bool :=
  path.head? = some 47 ∧ path.tail.head? ≠ some 47

/-- The errors of `http.NewRequest` rendered by their kind, for the examples. -/
def exampleMessage : RequestError → GoString
  | RequestError.invalidMethod _ => str "net/http: invalid method"
  | RequestError.invalidControlCharacter => str "net/url: invalid control character in URL"
  | RequestError.missingProtocolScheme => str "missing protocol scheme"
  | RequestError.colonInFirstPathSegment => str "first path segment in URL cannot contain colon"
  | RequestError.EscapeError _ => str "invalid URL escape"
  | RequestError.InvalidHostError _ => str "invalid character in host name"
  | RequestError.missingBracket => str "missing ] in host"
  | RequestError.invalidPort _ => str "invalid port after host"
  | RequestError.invalidUserinfo => str "net/url: invalid userinfo"

/-- A world for the examples in which `http.NewRequest` is the library function: the
clock reads 1700000000 and the server answers every request with status 200 and the body
`[]`. -/
def exampleGoEnv : Env :=
  goEnv 1700000000 exampleMessage (fun _ => Except.ok ⟨200, Except.ok (str "[]")⟩)

/-! ## The order of `sort.Strings` -/

theorem strLe_total (a b : GoString) : strLe a b = true ∨ strLe b a = true := by
  induction a generalizing b with
  | nil => left; cases b <;> rfl
  | cons x xs ih =>
    cases b with
    | nil => right; rfl
    | cons y ys =>
      simp only [strLe]
      rcases Nat.lt_trichotomy x.toNat y.toNat with h | h | h
      · left; simp [h]
      · simp only [h, lt_self_iff_false, if_false]; exact ih ys
      · right; simp [h]

theorem strLe_trans {a b c : GoString} (hab : strLe a b = true) (hbc : strLe b c = true) :
    strLe a c = true := by
  induction a generalizing b c with
  | nil => cases c <;> rfl
  | cons x xs ih =>
    cases b with
    | nil => simp [strLe] at hab
    | cons y ys =>
      cases c with
      | nil => simp [strLe] at hbc
      | cons z zs =>
        simp only [strLe] at hab hbc ⊢
        split_ifs at hab hbc ⊢ <;> first | rfl | omega | exact ih hab hbc

theorem strLe_antisymm {a b : GoString} (hab : strLe a b = true) (hba : strLe b a = true) :
    a = b := by
  induction a generalizing b with
  | nil => cases b with
    | nil => rfl
    | cons y ys => simp [strLe] at hba
  | cons x xs ih =>
    cases b with
    | nil => simp [strLe] at hab
    | cons y ys =>
      simp only [strLe] at hab hba
      split_ifs at hab hba <;> first | omega | simp at hab | simp at hba | skip
      have hxy : x = y := UInt8.eq_of_val_eq (Fin.ext (by
        show x.toNat = y.toNat
        omega))
      rw [hxy, ih hab hba]

instance : IsTotal GoString StrLE := ⟨strLe_total⟩

instance : IsTrans GoString StrLE := ⟨fun _ _ _ => strLe_trans⟩

instance : IsAntisymm GoString StrLE := ⟨fun _ _ => strLe_antisymm⟩

theorem sortStrings_sorted (l : List GoString) : (sortStrings l).Sorted StrLE :=
  List.sorted_insertionSort StrLE l

theorem sortStrings_perm (l : List GoString) : (sortStrings l).Perm l :=
  List.perm_insertionSort StrLE l

/-- The result of `sort.Strings` is the only ascending arrangement of the slice. -/
theorem sortStrings_unique {l s : List GoString} (hp : s.Perm l) (hs : s.Sorted StrLE) :
    sortStrings l = s :=
  List.eq_of_perm_of_sorted ((sortStrings_perm l).trans hp.symm) (sortStrings_sorted l) hs

theorem sortStrings_congr {l₁ l₂ : List GoString} (hp : l₁.Perm l₂) :
    sortStrings l₁ = sortStrings l₂ :=
  sortStrings_unique ((sortStrings_perm l₂).trans hp.symm) (sortStrings_sorted l₂)

theorem sortStrings_idem (l : List GoString) : sortStrings (sortStrings l) = sortStrings l :=
  sortStrings_unique (List.Perm.refl _) (sortStrings_sorted l)

theorem mem_sortStrings {l : List GoString} {a : GoString} : a ∈ sortStrings l ↔ a ∈ l :=
  (sortStrings_perm l).mem_iff

/-! ## Maps: reading a binding -/

theorem Values.get_of_not_mem (m : Values) {k : GoString} (h : k ∉ m.map Prod.fst) :
    Values.get m k = [] := by
  induction m with
  | nil => rfl
  | cons e rest ih =>
    obtain ⟨k₂, vs₂⟩ := e
    have h₂ : ¬ k₂ = k := fun h₂ => h (by simp [h₂])
    have h₃ : k ∉ List.map Prod.fst rest := fun h₃ => h (List.mem_cons_of_mem _ h₃)
    simp [Values.get, h₂, ih h₃]

theorem Values.mem_keys {m : Values} {k : GoString} : k ∈ Values.keys m ↔ k ∈ m.map Prod.fst :=
  List.mem_dedup

theorem Values.nodup_keys (m : Values) : (Values.keys m).Nodup := List.nodup_dedup _

theorem Values.get_eq_of_mem {m : Values} (hnd : (m.map Prod.fst).Nodup) {k : GoString}
    {vs : List GoString} (h : (k, vs) ∈ m) : Values.get m k = vs := by
  induction m with
  | nil => simp at h
  | cons e rest ih =>
    obtain ⟨k₂, vs₂⟩ := e
    rw [List.map_cons, List.nodup_cons] at hnd
    rcases List.mem_cons.mp h with h₁ | h₁
    · injection h₁ with hk hvs
      simp [Values.get, hk, hvs]
    · have hmem : k ∈ rest.map Prod.fst := List.mem_map_of_mem Prod.fst h₁
      have hne : ¬ k₂ = k := fun hk => hnd.1 (hk ▸ hmem)
      simp [Values.get, hne, ih hnd.2 h₁]

theorem Values.mem_of_mem_keys {m : Values} {k : GoString} (h : k ∈ m.map Prod.fst) :
    (k, Values.get m k) ∈ m := by
  induction m with
  | nil => simp at h
  | cons e rest ih =>
    obtain ⟨k₂, vs₂⟩ := e
    by_cases hk : k₂ = k
    · simp [Values.get, hk]
    · have hmem : k ∈ rest.map Prod.fst := by
        rcases List.mem_cons.mp h with h₁ | h₁
        · exact absurd h₁.symm hk
        · exact h₁
      simp only [Values.get, hk, if_false]
      exact List.mem_cons_of_mem _ (ih hmem)

/-- A map read through a rearrangement of its entries gives the same bindings. -/
theorem Values.get_perm {m₁ m₂ : Values} (hnd : (m₁.map Prod.fst).Nodup) (hp : m₁.Perm m₂)
    (k : GoString) : Values.get m₁ k = Values.get m₂ k := by
  have hnd₂ : (m₂.map Prod.fst).Nodup := (hp.map Prod.fst).nodup_iff.mp hnd
  by_cases hk : k ∈ m₁.map Prod.fst
  · exact (Values.get_eq_of_mem hnd₂ (hp.mem_iff.mp (Values.mem_of_mem_keys hk))).symm
  · have hk₂ : k ∉ m₂.map Prod.fst := fun h => hk ((hp.map Prod.fst).mem_iff.mpr h)
    rw [Values.get_of_not_mem m₁ hk, Values.get_of_not_mem m₂ hk₂]

/-! ## Slices -/

theorem Slice.load_length (s : Slice) (store : List GoString) :
    (s.load store).length = min s.len (store.length - s.off) := by
  simp [Slice.load]

theorem Slice.store_split (s : Slice) (store : List GoString) :
    store = store.take s.off ++ s.load store ++ store.drop (s.off + (s.load store).length) := by
  have h : store.drop (s.off + (s.load store).length) = (store.drop s.off).drop s.len := by
    rw [List.drop_drop, Slice.load_length]
    by_cases hl : s.len ≤ store.length - s.off
    · rw [Nat.min_eq_left hl, Nat.add_comm]
    · have h₁ : store.length ≤ s.off + (store.length - s.off) := by omega
      have h₂ : store.length ≤ s.off + s.len := by omega
      rw [Nat.min_eq_right (by omega), List.drop_of_length_le h₁, List.drop_of_length_le h₂]
  rw [h, Slice.load, List.append_assoc, List.take_append_drop, List.take_append_drop]

theorem Slice.sort_length (s : Slice) (store : List GoString) :
    (s.sort store).length = store.length := by
  conv_rhs => rw [Slice.store_split s store]
  simp only [Slice.sort, List.length_append, (sortStrings_perm _).length_eq]

theorem Slice.sort_perm (s : Slice) (store : List GoString) : (s.sort store).Perm store := by
  conv_rhs => rw [Slice.store_split s store]
  exact ((List.Perm.refl _).append (sortStrings_perm _)).append (List.Perm.refl _)

theorem Slice.sort_of_sorted (s : Slice) (store : List GoString)
    (h : (s.load store).Sorted StrLE) : s.sort store = store := by
  conv_rhs => rw [Slice.store_split s store]
  rw [Slice.sort, sortStrings, List.Sorted.insertionSort_eq h]

theorem Slice.sort_of_length_le (s : Slice) (store : List GoString)
    (h : store.length ≤ s.off) : s.sort store = store := by
  apply Slice.sort_of_sorted
  have : s.load store = [] := by
    simp [Slice.load, List.drop_of_length_le h]
  rw [this]
  exact List.sorted_nil

theorem Slice.getElem?_load (s : Slice) (store : List GoString) (j : Nat) :
    (s.load store)[j]? = if j < s.len then store[s.off + j]? else none := by
  simp only [Slice.load, List.getElem?_take, List.getElem?_drop]

theorem Slice.getElem?_sort_of_lt (s : Slice) (store : List GoString) {i : Nat}
    (h : i < s.off) : (s.sort store)[i]? = store[i]? := by
  by_cases hoff : store.length ≤ s.off
  · rw [Slice.sort_of_length_le s store hoff]
  · have hlen : (store.take s.off).length = s.off := by
      rw [List.length_take]; omega
    rw [Slice.sort, List.append_assoc, List.getElem?_append_left (by omega),
      List.getElem?_take]
    simp [h]

theorem Slice.getElem?_sort_of_ge (s : Slice) (store : List GoString) {i : Nat}
    (h : s.off + s.len ≤ i) : (s.sort store)[i]? = store[i]? := by
  by_cases hoff : store.length ≤ s.off
  · rw [Slice.sort_of_length_le s store hoff]
  · have hlen : (store.take s.off ++ sortStrings (s.load store)).length
        = s.off + (s.load store).length := by
      rw [List.length_append, List.length_take, (sortStrings_perm _).length_eq]; omega
    have hle : (s.load store).length ≤ s.len := by
      rw [Slice.load_length]; omega
    rw [Slice.sort, List.getElem?_append_right (by omega), hlen, List.getElem?_drop]
    congr 1
    omega

theorem Slice.load_sort_of_disjoint (s t : Slice) (store : List GoString)
    (h : Slice.Disjoint t s) : t.load (s.sort store) = t.load store := by
  apply List.ext_getElem?
  intro j
  rw [Slice.getElem?_load, Slice.getElem?_load]
  by_cases hj : j < t.len
  · rw [if_pos hj, if_pos hj]
    rcases h with h | h | h | h
    · omega
    · apply congrArg (fun l : List GoString => l[t.off + j]?)
      apply Slice.sort_of_sorted
      have : s.load store = [] := by simp [Slice.load, h]
      rw [this]
      exact List.sorted_nil
    · exact Slice.getElem?_sort_of_lt s store (by omega)
    · exact Slice.getElem?_sort_of_ge s store (by omega)
  · rw [if_neg hj, if_neg hj]

theorem Slice.load_sort_self (s : Slice) (store : List GoString) :
    s.load (s.sort store) = sortStrings (s.load store) := by
  by_cases hoff : store.length ≤ s.off
  · rw [Slice.sort_of_length_le s store hoff]
    have : s.load store = [] := by simp [Slice.load, List.drop_of_length_le hoff]
    rw [this]
    rfl
  · have hlen : (store.take s.off).length = s.off := by
      rw [List.length_take]; omega
    have hsl : (sortStrings (s.load store)).length = (s.load store).length :=
      (sortStrings_perm _).length_eq
    rw [Slice.load, Slice.sort, List.append_assoc, List.drop_append_eq_append_drop, hlen,
      Nat.sub_self, List.drop_zero, List.drop_of_length_le (by omega), List.nil_append]
    by_cases hl : s.len ≤ store.length - s.off
    · have h₁ : (s.load store).length = s.len := by
        rw [Slice.load_length]; omega
      rw [List.take_append_of_le_length (by omega), List.take_of_length_le (by omega)]
    · have h₁ : (s.load store).length = store.length - s.off := by
        rw [Slice.load_length]; omega
      have h₂ : store.drop (s.off + (s.load store).length) = [] :=
        List.drop_of_length_le (by omega)
      rw [h₂, List.append_nil, List.take_of_length_le (by omega)]

/-! ## The query map in memory -/

theorem QueryMap.mem_keys_iff {q : QueryMap} {k : GoString} :
    k ∈ q.keys ↔ k ∈ q.slices.map Prod.fst := List.mem_dedup

theorem QueryMap.keys_nodup (q : QueryMap) : q.keys.Nodup := List.nodup_dedup _

theorem QueryMap.slice_of_not_mem (q : QueryMap) {k : GoString}
    (h : k ∉ q.slices.map Prod.fst) : q.slice k = ⟨0, 0⟩ := by
  have hf : q.slices.find? (fun e => e.1 = k) = none := by
    rw [List.find?_eq_none]
    intro e he hk
    exact h (List.mem_map.mpr ⟨e, he, by simpa using hk⟩)
  rw [QueryMap.slice, hf]

theorem QueryMap.get_of_absent (q : QueryMap) {k : GoString}
    (h : k ∉ q.slices.map Prod.fst) : q.get k = [] := by
  rw [QueryMap.get, QueryMap.slice_of_not_mem q h]
  simp [Slice.load]

theorem QueryMap.slice_sort (q : QueryMap) (k k₁ : GoString) :
    (q.sort k).slice k₁ = q.slice k₁ := rfl

theorem QueryMap.keys_sort (q : QueryMap) (k : GoString) : (q.sort k).keys = q.keys := rfl

theorem QueryMap.get_sort_self (q : QueryMap) (k : GoString) :
    (q.sort k).get k = sortStrings (q.get k) :=
  Slice.load_sort_self _ _

theorem QueryMap.get_sort_of_disjoint (q : QueryMap) (k k₁ : GoString)
    (h : Slice.Disjoint (q.slice k₁) (q.slice k)) : (q.sort k).get k₁ = q.get k₁ :=
  Slice.load_sort_of_disjoint _ _ _ h

theorem QueryMap.sort_eq_self (q : QueryMap) (k : GoString)
    (h : (q.get k).Sorted StrLE) : q.sort k = q := by
  rw [QueryMap.sort, Slice.sort_of_sorted _ _ h]

/-- In a map whose slices are separate, the slices of any two different names share no
cell. -/
theorem QueryMap.Separate.disjoint {q : QueryMap} (h : q.Separate) {k₁ k₂ : GoString}
    (hne : k₁ ≠ k₂) : Slice.Disjoint (q.slice k₁) (q.slice k₂) := by
  by_cases h₁ : k₁ ∈ q.slices.map Prod.fst
  · by_cases h₂ : k₂ ∈ q.slices.map Prod.fst
    · exact h k₁ (QueryMap.mem_keys_iff.mpr h₁) k₂ (QueryMap.mem_keys_iff.mpr h₂) hne
    · rw [QueryMap.slice_of_not_mem q h₂]
      exact Or.inr (Or.inl rfl)
  · rw [QueryMap.slice_of_not_mem q h₁]
    exact Or.inl rfl

theorem QueryMap.Separate.sort {q : QueryMap} (h : q.Separate) (k : GoString) :
    (q.sort k).Separate := h

/-! ## The query loop -/

/-- The entries the loop appends: those of each key in turn, for the values it finds
under the key, sorted, when it comes to it. -/
theorem sortedQueryParams_snd (ks : List GoString) (m : QueryMap) (acc : List GoString) :
    (sortedQueryParams ks m acc).2
      = acc ++ (emitted ks m).flatMap (fun e => entries e.1 e.2) := by
  induction ks generalizing m acc with
  | nil => simp [sortedQueryParams, emitted]
  | cons k ks ih =>
    simp only [sortedQueryParams, emitted, List.flatMap_cons]
    rw [ih, List.append_assoc]
    rfl

theorem emitted_fst (ks : List GoString) (m : QueryMap) : (emitted ks m).map Prod.fst = ks := by
  induction ks generalizing m with
  | nil => rfl
  | cons k ks ih => simp only [emitted, List.map_cons, ih]

/-- Every list of values the loop emits is in ascending order. -/
theorem emitted_sorted (ks : List GoString) (m : QueryMap) :
    ∀ e ∈ emitted ks m, e.2.Sorted StrLE := by
  induction ks generalizing m with
  | nil => intro e he; simp [emitted] at he
  | cons k ks ih =>
    intro e he
    simp only [emitted, List.mem_cons] at he
    rcases he with rfl | he
    · simp only [QueryMap.get_sort_self]
      exact sortStrings_sorted _
    · exact ih _ e he

/-- The loop leaves every name bound to the slice it was bound to. -/
theorem sortedQueryParams_fst_slices (ks : List GoString) (m : QueryMap)
    (acc : List GoString) : (sortedQueryParams ks m acc).1.slices = m.slices := by
  induction ks generalizing m acc with
  | nil => rfl
  | cons k ks ih =>
    simp only [sortedQueryParams]
    rw [ih]
    rfl

/-- The loop moves strings among cells: the cells as a whole hold the same strings. -/
theorem sortedQueryParams_fst_perm (ks : List GoString) (m : QueryMap) (acc : List GoString) :
    (sortedQueryParams ks m acc).1.store.Perm m.store := by
  induction ks generalizing m acc with
  | nil => exact List.Perm.refl _
  | cons k ks ih =>
    simp only [sortedQueryParams]
    exact (ih _ _).trans (Slice.sort_perm _ _)

/-- The loop writes no cell outside the slices of the keys it visits. -/
theorem sortedQueryParams_fst_load (ks : List GoString) (m : QueryMap) (acc : List GoString)
    (t : Slice) (h : ∀ k ∈ ks, Slice.Disjoint t (m.slice k)) :
    t.load (sortedQueryParams ks m acc).1.store = t.load m.store := by
  induction ks generalizing m acc with
  | nil => rfl
  | cons k ks ih =>
    simp only [sortedQueryParams]
    rw [ih (m.sort k) _ (fun k₁ hk₁ => h k₁ (List.mem_cons_of_mem _ hk₁))]
    exact Slice.load_sort_of_disjoint _ _ _ (h k (List.mem_cons_self _ _))

/-- In a map whose slices are separate, the values the loop emits under a key are the
values of the key, sorted. -/
theorem emitted_of_separate (ks : List GoString) (hnd : ks.Nodup) (m : QueryMap)
    (hsep : m.Separate) :
    emitted ks m = ks.map fun k => (k, sortStrings (m.get k)) := by
  induction ks generalizing m with
  | nil => rfl
  | cons k ks ih =>
    obtain ⟨hk, hks⟩ := List.nodup_cons.mp hnd
    simp only [emitted, List.map_cons, QueryMap.get_sort_self]
    rw [ih hks _ (hsep.sort k)]
    congr 1
    apply List.map_congr_left
    intro k₁ hk₁
    have hne : k₁ ≠ k := fun h => hk (h ▸ hk₁)
    rw [QueryMap.get_sort_of_disjoint _ _ _ (hsep.disjoint hne)]

/-- In a map whose slices are separate, the loop leaves every visited key bound to its
values in ascending order and every other key as it was. -/
theorem sortedQueryParams_fst_get (ks : List GoString) (m : QueryMap) (acc : List GoString)
    (hsep : m.Separate) (k : GoString) :
    (sortedQueryParams ks m acc).1.get k
      = if k ∈ ks then sortStrings (m.get k) else m.get k := by
  induction ks generalizing m acc with
  | nil => simp [sortedQueryParams]
  | cons k₀ ks ih =>
    simp only [sortedQueryParams]
    rw [ih _ _ (hsep.sort k₀)]
    by_cases hk : k = k₀
    · subst hk
      rw [QueryMap.get_sort_self]
      simp [sortStrings_idem]
    · rw [QueryMap.get_sort_of_disjoint _ _ _ (hsep.disjoint hk)]
      simp [hk]

/-- The loop leaves a map whose value lists are all ascending as it is, and emits the
values as they stand. -/
theorem sortedQueryParams_of_sorted (ks : List GoString) (m : QueryMap) (acc : List GoString)
    (hs : ∀ k ∈ ks, (m.get k).Sorted StrLE) :
    (sortedQueryParams ks m acc).1 = m
    ∧ emitted ks m = ks.map fun k => (k, m.get k) := by
  induction ks generalizing acc with
  | nil => exact ⟨rfl, rfl⟩
  | cons k ks ih =>
    have hk : m.sort k = m := QueryMap.sort_eq_self m k (hs k (List.mem_cons_self _ _))
    have ih₁ := ih (acc ++ (m.get k).map fun value =>
        QueryEscape k ++ str "=" ++ QueryEscape value)
      (fun k₁ hk₁ => hs k₁ (List.mem_cons_of_mem _ hk₁))
    simp only [sortedQueryParams, emitted, hk, List.map_cons]
    exact ⟨ih₁.1, by rw [ih₁.2]⟩

/-! ## Maps with a backing array for every name -/

theorem layout_fst (off : Nat) (m : Values) : (layout off m).map Prod.fst = m.map Prod.fst := by
  induction m generalizing off with
  | nil => rfl
  | cons e rest ih =>
    obtain ⟨k, vs⟩ := e
    simp only [layout, List.map_cons, ih]

theorem QueryMap.keys_ofValues (m : Values) : (QueryMap.ofValues m).keys = Values.keys m := by
  rw [QueryMap.keys, QueryMap.ofValues, layout_fst]
  rfl

theorem layout_get (pre : List GoString) (m : Values) (post : List GoString) (k : GoString) :
    (⟨pre ++ m.flatMap Prod.snd ++ post, layout pre.length m⟩ : QueryMap).get k
      = Values.get m k := by
  induction m generalizing pre with
  | nil => simp [QueryMap.get, QueryMap.slice, layout, Slice.load, Values.get]
  | cons e rest ih =>
    obtain ⟨k₁, vs⟩ := e
    by_cases hk : k₁ = k
    · simp only [QueryMap.get, QueryMap.slice, layout, List.find?_cons, hk, decide_True,
        Slice.load, Values.get, if_true, List.flatMap_cons, List.append_assoc]
      rw [List.drop_left, List.take_left]
    · have h := ih (pre ++ vs)
      simp only [List.length_append, List.append_assoc] at h
      simp only [QueryMap.get, QueryMap.slice, layout, List.find?_cons, hk, decide_False,
        Values.get, if_false, List.flatMap_cons, List.append_assoc] at h ⊢
      exact h

theorem QueryMap.get_ofValues (m : Values) (k : GoString) :
    (QueryMap.ofValues m).get k = Values.get m k := by
  have h := layout_get [] m [] k
  simpa [QueryMap.ofValues] using h

theorem layout_slice_bounds (off : Nat) (m : Values) (store : List GoString) (k : GoString)
    (hk : k ∈ m.map Prod.fst) :
    off ≤ ((⟨store, layout off m⟩ : QueryMap).slice k).off := by
  induction m generalizing off with
  | nil => simp at hk
  | cons e rest ih =>
    obtain ⟨k₁, vs⟩ := e
    by_cases hk₁ : k₁ = k
    · simp [QueryMap.slice, layout, List.find?_cons, hk₁]
    · have hk₂ : k ∈ rest.map Prod.fst := by
        rcases List.mem_cons.mp hk with h | h
        · exact absurd h.symm hk₁
        · exact h
      have h := ih (off + vs.length) hk₂
      simp only [QueryMap.slice, layout, List.find?_cons, hk₁, decide_False] at h ⊢
      omega

theorem layout_separate (off : Nat) (m : Values) (store : List GoString) :
    (⟨store, layout off m⟩ : QueryMap).Separate := by
  induction m generalizing off with
  | nil => intro k₁ h₁; simp [QueryMap.keys, layout] at h₁
  | cons e rest ih =>
    obtain ⟨k, vs⟩ := e
    intro k₁ h₁ k₂ h₂ hne
    rw [QueryMap.mem_keys_iff, layout_fst] at h₁ h₂
    have hrest : ∀ k₃, k₃ ≠ k →
        (⟨store, layout off ((k, vs) :: rest)⟩ : QueryMap).slice k₃
          = (⟨store, layout (off + vs.length) rest⟩ : QueryMap).slice k₃ := by
      intro k₃ h₃
      have h₄ : ¬ k = k₃ := fun h => h₃ h.symm
      simp [QueryMap.slice, layout, List.find?_cons, h₄]
    have hhead : (⟨store, layout off ((k, vs) :: rest)⟩ : QueryMap).slice k
        = ⟨off, vs.length⟩ := by
      simp [QueryMap.slice, layout, List.find?_cons]
    have hmem : ∀ k₃, k₃ ≠ k → k₃ ∈ ((k, vs) :: rest).map Prod.fst → k₃ ∈ rest.map Prod.fst := by
      intro k₃ h₃ h
      rcases List.mem_cons.mp h with h | h
      · exact absurd h h₃
      · exact h
    by_cases hk₁ : k₁ = k
    · subst hk₁
      have hk₂ : k₂ ≠ k₁ := fun h => hne h.symm
      rw [hhead, hrest k₂ hk₂]
      have hb := layout_slice_bounds (off + vs.length) rest store k₂ (hmem k₂ hk₂ h₂)
      exact Or.inr (Or.inr (Or.inl hb))
    · by_cases hk₂ : k₂ = k
      · subst hk₂
        rw [hhead, hrest k₁ hk₁]
        have hb := layout_slice_bounds (off + vs.length) rest store k₁ (hmem k₁ hk₁ h₁)
        exact Or.inr (Or.inr (Or.inr hb))
      · rw [hrest k₁ hk₁, hrest k₂ hk₂]
        refine ih (off + vs.length) k₁ ?_ k₂ ?_ hne
        · rw [QueryMap.mem_keys_iff, layout_fst]
          exact hmem k₁ hk₁ h₁
        · rw [QueryMap.mem_keys_iff, layout_fst]
          exact hmem k₂ hk₂ h₂

theorem QueryMap.separate_ofValues (m : Values) : (QueryMap.ofValues m).Separate :=
  layout_separate 0 m _

/-! ## Lengths and alphabets of the encodings -/

theorem sha256.length_be (n x : Nat) : (sha256.be n x).length = n := by
  simp [sha256.be]

theorem sha256.length_Sum256 (msg : List UInt8) : (sha256.Sum256 msg).length = 32 := by
  simp [sha256.Sum256, sha256.length_be]

theorem length_hmacSha256 (key msg : List UInt8) : (hmacSha256 key msg).length = 32 :=
  sha256.length_Sum256 _

theorem length_hexEncode (bs : List UInt8) : (hexEncode bs).length = 2 * bs.length := by
  induction bs with
  | nil => rfl
  | cons b bs ih =>
    have h : hexEncode (b :: bs)
        = [hextable.getD (b.toNat / 16) 0, hextable.getD (b.toNat % 16) 0] ++ hexEncode bs := by
      simp [hexEncode]
    rw [h, List.length_append, ih, List.length_cons, List.length_cons, List.length_nil,
      List.length_cons]
    omega

theorem hextable_lowerHex (i : Nat) (h : i < 16) : isLowerHex (hextable.getD i 0) = true := by
  interval_cases i <;> decide

theorem upperhex_unreserved (i : Nat) (h : i < 16) : unreserved (upperhex.getD i 0) = true := by
  interval_cases i <;> decide

theorem hexEncode_lowerHex (bs : List UInt8) : ∀ c ∈ hexEncode bs, isLowerHex c = true := by
  intro c hc
  simp only [hexEncode, List.mem_flatMap] at hc
  obtain ⟨b, -, hb⟩ := hc
  have hlt : b.toNat < 256 := UInt8.toNat_lt b
  rcases List.mem_cons.mp hb with h | h
  · rw [h]
    exact hextable_lowerHex _ (by omega)
  · rw [List.mem_singleton.mp h]
    exact hextable_lowerHex _ (Nat.mod_lt _ (by norm_num))

theorem shouldEscape_eq (c : UInt8) : shouldEscape c = !unreserved c := by
  unfold shouldEscape unreserved
  by_cases h₁ : (97 ≤ c.toNat ∧ c.toNat ≤ 122) ∨ (65 ≤ c.toNat ∧ c.toNat ≤ 90)
      ∨ (48 ≤ c.toNat ∧ c.toNat ≤ 57)
  · rw [if_pos h₁]
    rcases h₁ with h | h | h <;> simp [h]
  · rw [if_neg h₁]
    by_cases h₂ : c = 45 ∨ c = 95 ∨ c = 46 ∨ c = 126
    · rw [if_pos h₂]
      rcases h₂ with h | h | h | h <;> simp [h]
    · rw [if_neg h₂]
      simp only [not_or] at h₁ h₂
      simp [h₁, h₂]

/-- The bytes `QueryEscape` writes: unreserved characters, `%` and `+`. -/
theorem mem_QueryEscape (s : GoString) :
    ∀ c ∈ QueryEscape s, unreserved c = true ∨ c = 37 ∨ c = 43 := by
  intro c hc
  simp only [QueryEscape, List.mem_flatMap] at hc
  obtain ⟨b, -, hb⟩ := hc
  have hlt : b.toNat < 256 := UInt8.toNat_lt b
  unfold escapeByte at hb
  split_ifs at hb with h₁ h₂
  · right; right
    exact List.mem_singleton.mp hb
  · simp only [List.mem_cons, List.mem_singleton, List.not_mem_nil, or_false] at hb
    rcases hb with h | h | h
    · exact Or.inr (Or.inl h)
    · rw [h]
      exact Or.inl (upperhex_unreserved _ (by omega))
    · rw [h]
      exact Or.inl (upperhex_unreserved _ (Nat.mod_lt _ (by norm_num)))
  · rw [List.mem_singleton.mp hb]
    rw [shouldEscape_eq] at h₂
    left
    simpa using h₂

theorem mem_Join (l : List GoString) (sep : GoString) :
    ∀ c ∈ Join l sep, c ∈ sep ∨ ∃ s ∈ l, c ∈ s := by
  induction l with
  | nil => intro c hc; simp [Join] at hc
  | cons a rest ih =>
    cases rest with
    | nil => intro c hc; exact Or.inr ⟨a, List.mem_singleton.mpr rfl, by simpa [Join] using hc⟩
    | cons b rest =>
      intro c hc
      simp only [Join, List.mem_append] at hc
      rcases hc with (h | h) | h
      · exact Or.inr ⟨a, List.mem_cons_self _ _, h⟩
      · exact Or.inl h
      · rcases ih c h with h₁ | ⟨s, hs, hcs⟩
        · exact Or.inl h₁
        · exact Or.inr ⟨s, List.mem_cons_of_mem _ hs, hcs⟩

/-! ## `sign` unfolded -/

theorem Header.Get_Host (h : Header) :
    Header.Get h (str "Host")
      = match Values.get h (str "Host") with
        | [] => []
        | v :: _ => v := by
  have hc : CanonicalMIMEHeaderKey (str "Host") = str "Host" := by decide
  rw [Header.Get, hc]

/-- The header lookup yields a non-empty string exactly when the first value bound to the
key `Host` is non-empty. -/
theorem Header.Get_Host_ne_nil (h : Header) :
    Header.Get h (str "Host") ≠ []
      ↔ ∃ v rest, Values.get h (str "Host") = v :: rest ∧ v ≠ [] := by
  rw [Header.Get_Host]
  cases hg : Values.get h (str "Host") with
  | nil => simp
  | cons v rest => simp

theorem stringToSign_eq (timestamp : Int) (method path : GoString) (headers : Header)
    (queryParams : Option QueryMap) (body : Option (List UInt8)) :
    stringToSign timestamp method path headers queryParams body
      = if Header.Get headers (str "Host") = [] then
          Except.error (str "header Host is required")
        else
          Except.ok (canonical timestamp method path (Header.Get headers (str "Host"))
            (sortedQueryString queryParams).1 (payloadHash body),
            (sortedQueryString queryParams).2) := by
  have hmsg : str "header " ++ str "Host" ++ str " is required" = str "header Host is required" := by
    decide
  have hlow : ToLower (str "Host") = str "host" := by decide
  by_cases hv : Header.Get headers (str "Host") = []
  · simp only [stringToSign, sortedHeaders, hv, if_true, hmsg]
  · simp only [stringToSign, sortedHeaders, hv, if_false, hlow, List.nil_append, Join, canonical,
      List.append_assoc]
    rfl

theorem sign_eq (c : Client) (timestamp : Int) (method path : GoString) (headers : Header)
    (queryParams : Option QueryMap) (body : Option (List UInt8)) :
    sign c timestamp method path headers queryParams body
      = if Header.Get headers (str "Host") = [] then
          ⟨[], some (str "header Host is required"), queryParams, body, c⟩
        else
          ⟨hexEncode (hmacSha256 c.SecretKey
            (canonical timestamp method path (Header.Get headers (str "Host"))
              (sortedQueryString queryParams).1 (payloadHash body))), none,
            (sortedQueryString queryParams).2, body, c⟩ := by
  rw [sign, stringToSign_eq]
  by_cases hv : Header.Get headers (str "Host") = []
  · simp only [hv, if_true]
  · simp only [hv, if_false]

theorem sign_err_eq_none_iff (c : Client) (timestamp : Int) (method path : GoString)
    (headers : Header) (queryParams : Option QueryMap) (body : Option (List UInt8)) :
    (sign c timestamp method path headers queryParams body).err = none
      ↔ Header.Get headers (str "Host") ≠ [] := by
  rw [sign_eq]
  by_cases hv : Header.Get headers (str "Host") = []
  · simp [hv]
  · simp [hv]

theorem length_signature (key data : List UInt8) :
    (hexEncode (hmacSha256 key data)).length = 64 := by
  rw [length_hexEncode, length_hmacSha256]

/-! ## The query block -/

/-- The query block: the entries of each key in turn, for the values the loop finds under
the key, sorted, when it comes to it. -/
theorem sortedQueryString_fst_emitted (m : QueryMap) :
    (sortedQueryString (some m)).1
      = Join ((emitted (sortStrings (QueryMap.keys m)) m).flatMap fun e => entries e.1 e.2)
          (str "&") := by
  simp only [sortedQueryString]
  rw [sortedQueryParams_snd]
  rfl

/-- The query block of a map whose slices are separate: the entries of each name, names
ascending, the values of each name ascending. -/
theorem sortedQueryString_fst (m : QueryMap) (hsep : m.Separate) :
    (sortedQueryString (some m)).1
      = Join ((sortStrings (QueryMap.keys m)).flatMap
          fun k => entries k (sortStrings (QueryMap.get m k))) (str "&") := by
  rw [sortedQueryString_fst_emitted,
    emitted_of_separate _ ((sortStrings_perm _).nodup_iff.mpr (QueryMap.keys_nodup m)) m hsep,
    List.flatMap_map]

theorem sortedQueryString_snd (m : QueryMap) :
    (sortedQueryString (some m)).2
      = some (sortedQueryParams (sortStrings (QueryMap.keys m)) m []).1 := rfl

/-- The query block of a map whose value lists are all ascending: the entries of each
name, names ascending, the values as they stand; the map is left as it is. -/
theorem sortedQueryString_of_sorted (m : QueryMap)
    (hs : ∀ k, (QueryMap.get m k).Sorted StrLE) :
    (sortedQueryString (some m)).1
        = Join ((sortStrings (QueryMap.keys m)).flatMap
            fun k => entries k (QueryMap.get m k)) (str "&")
    ∧ (sortedQueryString (some m)).2 = some m := by
  have h := sortedQueryParams_of_sorted (sortStrings (QueryMap.keys m)) m []
    (fun k _ => hs k)
  constructor
  · rw [sortedQueryString_fst_emitted, h.2, List.flatMap_map]
  · rw [sortedQueryString_snd, h.1]

/-- Two maps with separate slices and the same keys, each bound to the same values up to
their order, have the same query block. -/
theorem sortedQueryString_congr {m₁ m₂ : QueryMap} (h₁ : m₁.Separate) (h₂ : m₂.Separate)
    (hk : (QueryMap.keys m₁).Perm (QueryMap.keys m₂))
    (hv : ∀ k, (QueryMap.get m₁ k).Perm (QueryMap.get m₂ k)) :
    (sortedQueryString (some m₁)).1 = (sortedQueryString (some m₂)).1 := by
  rw [sortedQueryString_fst m₁ h₁, sortedQueryString_fst m₂ h₂, sortStrings_congr hk]
  congr 1
  apply List.flatMap_congr
  intro k _
  rw [sortStrings_congr (hv k)]

/-- The query block of a map that holds every value list in cells of its own. -/
theorem sortedQueryString_ofValues (m : Values) :
    (sortedQueryString (some (QueryMap.ofValues m))).1
      = Join ((sortStrings (Values.keys m)).flatMap
          fun k => entries k (sortStrings (Values.get m k))) (str "&") := by
  rw [sortedQueryString_fst _ (QueryMap.separate_ofValues m), QueryMap.keys_ofValues]
  congr 1
  apply List.flatMap_congr
  intro k _
  rw [QueryMap.get_ofValues]

/-- The loop goes by the store and by the slice of every name only. -/
theorem emitted_congr (ks : List GoString) (m₁ m₂ : QueryMap) (hstore : m₁.store = m₂.store)
    (hslice : ∀ k, m₁.slice k = m₂.slice k) : emitted ks m₁ = emitted ks m₂ := by
  induction ks generalizing m₁ m₂ with
  | nil => rfl
  | cons k ks ih =>
    have hsort : (m₁.sort k).store = (m₂.sort k).store := by
      simp only [QueryMap.sort, hstore, hslice k]
    simp only [emitted]
    rw [ih (m₁.sort k) (m₂.sort k) hsort hslice]
    simp only [QueryMap.get, QueryMap.slice_sort, hsort, hslice k]

theorem QueryMap.slice_eq_of_mem {q : QueryMap} (hnd : (q.slices.map Prod.fst).Nodup)
    {k : GoString} {s : Slice} (h : (k, s) ∈ q.slices) : q.slice k = s := by
  obtain ⟨store, slices⟩ := q
  simp only at hnd h
  induction slices with
  | nil => simp at h
  | cons e rest ih =>
    obtain ⟨k₂, s₂⟩ := e
    rw [List.map_cons, List.nodup_cons] at hnd
    rcases List.mem_cons.mp h with h₁ | h₁
    · injection h₁ with hk hs
      simp [QueryMap.slice, List.find?_cons, hk, hs]
    · have hmem : k ∈ rest.map Prod.fst := List.mem_map_of_mem Prod.fst h₁
      have hne : ¬ k₂ = k := fun hk => hnd.1 (hk ▸ hmem)
      have := ih hnd.2 h₁
      simp only [QueryMap.slice, List.find?_cons, hne, decide_False] at this ⊢
      exact this

theorem QueryMap.mem_slices_of_mem_keys {q : QueryMap} {k : GoString}
    (h : k ∈ q.slices.map Prod.fst) : (k, q.slice k) ∈ q.slices := by
  obtain ⟨store, slices⟩ := q
  simp only at h
  induction slices with
  | nil => simp at h
  | cons e rest ih =>
    obtain ⟨k₂, s₂⟩ := e
    by_cases hk : k₂ = k
    · simp [QueryMap.slice, List.find?_cons, hk]
    · have hmem : k ∈ rest.map Prod.fst := by
        rcases List.mem_cons.mp h with h₁ | h₁
        · exact absurd h₁.symm hk
        · exact h₁
      have := ih hmem
      simp only [QueryMap.slice, List.find?_cons, hk, decide_False] at this ⊢
      exact List.mem_cons_of_mem _ this

/-- A map read through a rearrangement of its entries gives the same bindings. -/
theorem QueryMap.slice_perm {q₁ q₂ : QueryMap} (hnd : (q₁.slices.map Prod.fst).Nodup)
    (hp : q₁.slices.Perm q₂.slices) (k : GoString) : q₁.slice k = q₂.slice k := by
  have hnd₂ : (q₂.slices.map Prod.fst).Nodup := (hp.map Prod.fst).nodup_iff.mp hnd
  by_cases hk : k ∈ q₁.slices.map Prod.fst
  · exact (QueryMap.slice_eq_of_mem hnd₂ (hp.mem_iff.mp (QueryMap.mem_slices_of_mem_keys hk))).symm
  · have hk₂ : k ∉ q₂.slices.map Prod.fst := fun h => hk ((hp.map Prod.fst).mem_iff.mpr h)
    rw [QueryMap.slice_of_not_mem q₁ hk, QueryMap.slice_of_not_mem q₂ hk₂]

/-- Signing again with a map of separate slices, as a first call left it, builds the same
query block and leaves the map as the first call left it. -/
theorem sortedQueryString_again (q : Option QueryMap) (hsep : ∀ m, q = some m → m.Separate) :
    (sortedQueryString (sortedQueryString q).2).1 = (sortedQueryString q).1
    ∧ (sortedQueryString (sortedQueryString q).2).2 = (sortedQueryString q).2 := by
  cases q with
  | none => exact ⟨rfl, rfl⟩
  | some m =>
    have hm := hsep m rfl
    have hget : ∀ k, (sortedQueryParams (sortStrings (QueryMap.keys m)) m []).1.get k
        = if k ∈ sortStrings (QueryMap.keys m) then sortStrings (m.get k) else m.get k :=
      sortedQueryParams_fst_get _ m [] hm
    have hkeys : (sortedQueryParams (sortStrings (QueryMap.keys m)) m []).1.keys = m.keys := by
      rw [QueryMap.keys, sortedQueryParams_fst_slices]
      rfl
    have hsorted : ∀ k, ((sortedQueryParams (sortStrings (QueryMap.keys m)) m []).1.get k).Sorted
        StrLE := by
      intro k
      rw [hget]
      split_ifs with hk
      · exact sortStrings_sorted _
      · have hk₁ : k ∉ m.slices.map Prod.fst := fun h =>
          hk (mem_sortStrings.mpr (QueryMap.mem_keys_iff.mpr h))
        rw [QueryMap.get_of_absent m hk₁]
        exact List.sorted_nil
    rw [sortedQueryString_snd]
    obtain ⟨h₁, h₂⟩ := sortedQueryString_of_sorted _ hsorted
    refine ⟨?_, h₂⟩
    rw [h₁, sortedQueryString_fst m hm, hkeys]
    congr 1
    apply List.flatMap_congr
    intro k hk
    rw [hget, if_pos hk]

theorem mem_sortedQueryString (q : Option QueryMap) :
    ∀ c ∈ (sortedQueryString q).1, unreserved c = true ∨ c = 37 ∨ c = 43 ∨ c = 61 ∨ c = 38 := by
  intro c hc
  cases q with
  | none => simp [sortedQueryString] at hc
  | some m =>
    rw [sortedQueryString_fst_emitted] at hc
    have hamp : str "&" = [38] := by decide
    have heq : str "=" = [61] := by decide
    rcases mem_Join _ _ c hc with h | ⟨s, hs, hcs⟩
    · rw [hamp] at h
      simp only [List.mem_singleton] at h
      simp [h]
    · simp only [List.mem_flatMap, entries, List.mem_map] at hs
      obtain ⟨e, -, v, -, rfl⟩ := hs
      simp only [List.mem_append, heq, List.mem_singleton] at hcs
      rcases hcs with (h | h) | h
      · rcases mem_QueryEscape e.1 c h with h₁ | h₁ | h₁ <;> simp [h₁]
      · simp [h]
      · rcases mem_QueryEscape v c h with h₁ | h₁ | h₁ <;> simp [h₁]

/-- SHA-256 of the standard test messages (FIPS 180-4): the empty message, `abc`, and the
two-block message of 56 bytes. -/
theorem sha256.test_vectors :
    hexEncode (sha256.Sum256 [])
      = str "e3b0c44298fc1c149afbf4c8996fb92427ae41e4649b934ca495991b7852b855"
    ∧ hexEncode (sha256.Sum256 (str "abc"))
      = str "ba7816bf8f01cfea414140de5dae2223b00361a396177a9cb410ff61f20015ad"
    ∧ hexEncode (sha256.Sum256 (str "abcdbcdecdefdefgefghfghighijhijkijkljklmklmnlmnomnopnopq"))
      = str "248d6a61d20638b8e5c026930c3e6039a33ce45964ff2167f6ecedd419db06c1" := by
  decide!

/-- HMAC-SHA256 of test case 2 of RFC 4231. -/
theorem hmacSha256_test_vector :
    hexEncode (hmacSha256 (str "Jefe") (str "what do ya want for nothing?"))
      = str "5bdcc146bf60754e6a042426089575c75a003f089d2739839dec58b964ec3843" := by
  decide!

theorem payloadHash_empty :
    payloadHash (some [])
      = str "e3b0c44298fc1c149afbf4c8996fb92427ae41e4649b934ca495991b7852b855" := by
  decide!

theorem length_payloadHash (body : List UInt8) : (payloadHash (some body)).length = 64 := by
  rw [payloadHash, length_hexEncode, sha256.length_Sum256]

/-! ## The string to sign and the signature -/

/-- C1. End-to-end vector: for timestamp 1700000000, method `GET`, path
`/api/v1/regions`, headers `Host: juicefs.com`, a nil query map and a nil body, the
string `sign` builds is `1700000000\nGET\n/api/v1/regions\nhost:juicefs.com\n\n`, and
for the secret key `SK1` the call returns the lower-case hex HMAC-SHA256 of that string
keyed by `SK1` with a nil error; the digest is `889a99cf...50f4`. -/
theorem sign_end_to_end_vector (endpoint accessKey : GoString) :
    stringToSign 1700000000 (str "GET") (str "/api/v1/regions")
        [(str "Host", [str "juicefs.com"])] none none
      = Except.ok (str "1700000000\nGET\n/api/v1/regions\nhost:juicefs.com\n\n", none)
    ∧ sign ⟨endpoint, accessKey, str "SK1"⟩ 1700000000 (str "GET") (str "/api/v1/regions")
        [(str "Host", [str "juicefs.com"])] none none
      = ⟨hexEncode (hmacSha256 (str "SK1")
          (str "1700000000\nGET\n/api/v1/regions\nhost:juicefs.com\n\n")), none, none, none,
          ⟨endpoint, accessKey, str "SK1"⟩⟩
    ∧ hexEncode (hmacSha256 (str "SK1")
          (str "1700000000\nGET\n/api/v1/regions\nhost:juicefs.com\n\n"))
      = str "889a99cfaf44024d6e89b7dfeae2814785eee57dcfa298fbb98460fbd87350f4" := by
  have h₁ : stringToSign 1700000000 (str "GET") (str "/api/v1/regions")
        [(str "Host", [str "juicefs.com"])] none none
      = Except.ok (str "1700000000\nGET\n/api/v1/regions\nhost:juicefs.com\n\n", none) := by
    decide
  refine ⟨h₁, ?_, by decide!⟩
  rw [sign, h₁]

/-- C2. Whenever `sign` succeeds, the string to sign is the decimal timestamp, the method,
the path, the header block, the query block and the payload hash, in this order with one
newline between each two: method and path are copied as they are, the header block is
`host:` followed by the first value bound to `Host`, unchanged, and an empty field keeps
its place, so the length is that of the six fields plus five. -/
theorem stringToSign_layout (c : Client) (timestamp : Int) (method path : GoString)
    (headers : Header) (queryParams : Option QueryMap) (body : Option (List UInt8))
    (hok : (sign c timestamp method path headers queryParams body).err = none) :
    ∃ host rest data q,
      Values.get headers (str "Host") = host :: rest
      ∧ stringToSign timestamp method path headers queryParams body = Except.ok (data, q)
      ∧ data = formatInt timestamp ++ str "\n" ++ method ++ str "\n" ++ path ++ str "\n"
          ++ (str "host:" ++ host) ++ str "\n" ++ (sortedQueryString queryParams).1 ++ str "\n"
          ++ payloadHash body
      ∧ data.length = (formatInt timestamp).length + method.length + path.length
          + ((str "host:").length + host.length) + (sortedQueryString queryParams).1.length
          + (payloadHash body).length + 5 := by
  have hne := (sign_err_eq_none_iff c timestamp method path headers queryParams body).mp hok
  obtain ⟨host, rest, hget, -⟩ := (Header.Get_Host_ne_nil headers).mp hne
  have hhost : Header.Get headers (str "Host") = host := by
    rw [Header.Get_Host, hget]
  have hnl : (str "\n").length = 1 := by decide
  refine ⟨host, rest, _, (sortedQueryString queryParams).2, hget, ?_, rfl, ?_⟩
  · rw [stringToSign_eq, if_neg hne, hhost]
    rfl
  · simp only [List.length_append, hnl]
    omega

/-- The layout at the end-to-end vector, where `sign` succeeds. -/
theorem stringToSign_layout_witness :
    ∃ host rest data q,
      Values.get [(str "Host", [str "juicefs.com"])] (str "Host") = host :: rest
      ∧ stringToSign 1700000000 (str "GET") (str "/api/v1/regions")
          [(str "Host", [str "juicefs.com"])] none none = Except.ok (data, q)
      ∧ data = formatInt 1700000000 ++ str "\n" ++ str "GET" ++ str "\n"
          ++ str "/api/v1/regions" ++ str "\n" ++ (str "host:" ++ host) ++ str "\n"
          ++ (sortedQueryString none).1 ++ str "\n" ++ payloadHash none
      ∧ data.length = (formatInt 1700000000).length + (str "GET").length
          + (str "/api/v1/regions").length + ((str "host:").length + host.length)
          + (sortedQueryString none).1.length + (payloadHash none).length + 5 :=
  stringToSign_layout ⟨[], str "AK1", str "SK1"⟩ 1700000000 (str "GET") (str "/api/v1/regions")
    [(str "Host", [str "juicefs.com"])] none none (by decide)

/-- C3. `sign` fails exactly when the headers hold no non-empty first value under the key
`Host` itself: the key is absent (a key in another casing such as `host` does not count),
or bound to no value, or its first value is the empty string.  A failing call returns the
empty signature and the error `header Host is required`; every other call returns the
64-character signature of the string to sign and a nil error. -/
theorem sign_error_iff_no_host (c : Client) (timestamp : Int) (method path : GoString)
    (headers : Header) (queryParams : Option QueryMap) (body : Option (List UInt8)) :
    ((sign c timestamp method path headers queryParams body).err ≠ none
      ↔ ¬ ∃ v rest, Values.get headers (str "Host") = v :: rest ∧ v ≠ [])
    ∧ (((sign c timestamp method path headers queryParams body).signature = []
        ∧ (sign c timestamp method path headers queryParams body).err
            = some (str "header Host is required"))
      ∨ ((sign c timestamp method path headers queryParams body).err = none
        ∧ (sign c timestamp method path headers queryParams body).signature.length = 64
        ∧ ∃ data q,
            stringToSign timestamp method path headers queryParams body = Except.ok (data, q)
            ∧ (sign c timestamp method path headers queryParams body).signature
                = hexEncode (hmacSha256 c.SecretKey data))) := by
  constructor
  · rw [← Header.Get_Host_ne_nil, not_iff_not]
    exact sign_err_eq_none_iff c timestamp method path headers queryParams body
  · by_cases hv : Header.Get headers (str "Host") = []
    · left
      rw [sign_eq, if_pos hv]
      exact ⟨rfl, rfl⟩
    · right
      rw [sign_eq, stringToSign_eq, if_neg hv, if_neg hv]
      exact ⟨rfl, length_signature _ _, _, _, rfl, rfl⟩

/-- The three ways of holding no `Host` value: no header at all, the key in lower case
only, an empty first value. -/
theorem sign_error_iff_no_host_witness :
    (sign ⟨[], str "AK1", str "SK1"⟩ 1700000000 (str "GET") (str "/api/v1/regions")
        [] none none).err ≠ none
    ∧ (sign ⟨[], str "AK1", str "SK1"⟩ 1700000000 (str "GET") (str "/api/v1/regions")
        [(str "host", [str "juicefs.com"])] none none).err ≠ none
    ∧ (sign ⟨[], str "AK1", str "SK1"⟩ 1700000000 (str "GET") (str "/api/v1/regions")
        [(str "Host", [str "", str "juicefs.com"])] none none).err ≠ none := by
  refine ⟨(sign_error_iff_no_host _ _ _ _ _ _ _).1.mpr ?_,
    (sign_error_iff_no_host _ _ _ _ _ _ _).1.mpr ?_,
    (sign_error_iff_no_host _ _ _ _ _ _ _).1.mpr ?_⟩
  · rintro ⟨v, rest, h, -⟩
    have hget : Values.get [] (str "Host") = [] := rfl
    rw [hget] at h
    exact absurd h (by simp)
  · rintro ⟨v, rest, h, -⟩
    have hget : Values.get [(str "host", [str "juicefs.com"])] (str "Host") = [] := by decide
    rw [hget] at h
    exact absurd h (by simp)
  · rintro ⟨v, rest, h, hv⟩
    have hget : Values.get [(str "Host", [str "", str "juicefs.com"])] (str "Host")
        = [str "", str "juicefs.com"] := by decide
    rw [hget] at h
    injection h with h₁ h₂
    exact hv (h₁ ▸ (by decide))

/-! ## The query block and the payload hash -/

/-- C4. Query canonical ordering: the query block lists the entries of the names in
ascending byte-wise order of the raw names, each name once with the values the loop finds
under it, and does not depend on the order in which the map holds its names; the maps
`b:[2], a:[1]` and `a:[1], b:[2]` both give `a=1&b=2`. -/
theorem query_block_name_order (m₁ m₂ : QueryMap) (hnd : (m₁.slices.map Prod.fst).Nodup)
    (hstore : m₁.store = m₂.store) (hperm : m₁.slices.Perm m₂.slices) :
    (sortedQueryString (some m₁)).1 = (sortedQueryString (some m₂)).1
    ∧ (∃ es : List (GoString × List GoString),
        (es.map Prod.fst).Sorted StrLE ∧ (es.map Prod.fst).Nodup
        ∧ (∀ k, k ∈ es.map Prod.fst ↔ k ∈ m₁.slices.map Prod.fst)
        ∧ (sortedQueryString (some m₁)).1
            = Join (es.flatMap fun e => entries e.1 e.2) (str "&")
        ∧ (∀ e ∈ es, e.2.Sorted StrLE)
        ∧ (m₁.Separate → ∀ e ∈ es, e.2 = sortStrings (QueryMap.get m₁ e.1)))
    ∧ (∀ n₁ n₂ : Values, (n₁.map Prod.fst).Nodup → n₁.Perm n₂ →
        (sortedQueryString (some (QueryMap.ofValues n₁))).1
            = (sortedQueryString (some (QueryMap.ofValues n₂))).1
        ∧ ∃ ks : List GoString, ks.Sorted StrLE ∧ ks.Nodup
            ∧ (∀ k, k ∈ ks ↔ k ∈ n₁.map Prod.fst)
            ∧ (sortedQueryString (some (QueryMap.ofValues n₁))).1
                = Join (ks.flatMap fun k => entries k (sortStrings (Values.get n₁ k)))
                    (str "&"))
    ∧ (sortedQueryString (some (QueryMap.ofValues
        [(str "b", [str "2"]), (str "a", [str "1"])]))).1 = str "a=1&b=2"
    ∧ (sortedQueryString (some (QueryMap.ofValues
        [(str "a", [str "1"]), (str "b", [str "2"])]))).1 = str "a=1&b=2" := by
  have hks : sortStrings (QueryMap.keys m₁) = sortStrings (QueryMap.keys m₂) :=
    sortStrings_congr ((hperm.map Prod.fst).dedup)
  have hnd₁ : (sortStrings (QueryMap.keys m₁)).Nodup :=
    (sortStrings_perm _).nodup_iff.mpr (QueryMap.keys_nodup m₁)
  refine ⟨?_, ⟨emitted (sortStrings (QueryMap.keys m₁)) m₁, ?_, ?_, ?_,
    sortedQueryString_fst_emitted m₁, emitted_sorted _ _, ?_⟩, ?_, by decide, by decide⟩
  · rw [sortedQueryString_fst_emitted, sortedQueryString_fst_emitted, ← hks,
      emitted_congr _ m₁ m₂ hstore (QueryMap.slice_perm hnd hperm)]
  · rw [emitted_fst]
    exact sortStrings_sorted _
  · rw [emitted_fst]
    exact hnd₁
  · intro k
    rw [emitted_fst, mem_sortStrings, QueryMap.mem_keys_iff]
  · intro hsep e he
    rw [emitted_of_separate _ hnd₁ m₁ hsep] at he
    obtain ⟨k, -, rfl⟩ := List.mem_map.mp he
    rfl
  · intro n₁ n₂ hn hp
    have hget : ∀ k, QueryMap.get (QueryMap.ofValues n₁) k
        = QueryMap.get (QueryMap.ofValues n₂) k := by
      intro k
      rw [QueryMap.get_ofValues, QueryMap.get_ofValues, Values.get_perm hn hp k]
    refine ⟨sortedQueryString_congr (QueryMap.separate_ofValues n₁)
      (QueryMap.separate_ofValues n₂) ?_ (fun k => by rw [hget k]),
      sortStrings (Values.keys n₁), sortStrings_sorted _,
      (sortStrings_perm _).nodup_iff.mpr (Values.nodup_keys n₁), ?_, ?_⟩
    · rw [QueryMap.keys_ofValues, QueryMap.keys_ofValues]
      exact (hp.map Prod.fst).dedup
    · intro k
      rw [mem_sortStrings, Values.mem_keys]
    · rw [sortedQueryString_fst _ (QueryMap.separate_ofValues n₁), QueryMap.keys_ofValues]
      congr 1
      apply List.flatMap_congr
      intro k _
      rw [QueryMap.get_ofValues]

/-- The two example maps, entries swapped, give one query block. -/
theorem query_block_name_order_witness :
    (sortedQueryString (some ⟨[str "2", str "1"],
        [(str "b", ⟨0, 1⟩), (str "a", ⟨1, 1⟩)]⟩)).1
      = (sortedQueryString (some ⟨[str "2", str "1"],
        [(str "a", ⟨1, 1⟩), (str "b", ⟨0, 1⟩)]⟩)).1 :=
  (query_block_name_order ⟨[str "2", str "1"], [(str "b", ⟨0, 1⟩), (str "a", ⟨1, 1⟩)]⟩
    ⟨[str "2", str "1"], [(str "a", ⟨1, 1⟩), (str "b", ⟨0, 1⟩)]⟩ (by decide) rfl
    (List.Perm.swap _ _ _)).1

/-- C6, as the code has it: `url.QueryEscape` writes a space as `+`, not as `%20`.  The
query block of the value `a b` under the name `q` is `q=a+b`; it holds the byte `+`,
which is neither unreserved nor one of `%`, `=`, `&`. -/
theorem query_block_space_is_plus :
    (sortedQueryString (some (QueryMap.ofValues [(str "q", [str "a b"])]))).1 = str "q=a+b"
    ∧ unreserved 32 = false
    ∧ QueryEscape (str " ") ≠ str "%20"
    ∧ ¬ (∀ c ∈ (sortedQueryString (some (QueryMap.ofValues [(str "q", [str "a b"])]))).1,
          unreserved c = true ∨ c = 37 ∨ c = 61 ∨ c = 38) := by
  decide

/-- C6, amended. Every name and every value of the query block goes through
`url.QueryEscape`, which keeps an unreserved byte, writes a space as `+` and any other
byte as `%` and two upper-case hexadecimal digits; so the query block consists only of
unreserved characters, `%`, `+` and the separators `=` and `&`. -/
theorem query_block_alphabet (q : Option QueryMap) :
    (∀ c ∈ (sortedQueryString q).1, unreserved c = true ∨ c = 37 ∨ c = 43 ∨ c = 61 ∨ c = 38)
    ∧ (∀ s : GoString, QueryEscape s = s.flatMap fun c =>
        if unreserved c = true then [c]
        else if c = 32 then [43]
        else [37, upperhex.getD (c.toNat / 16) 0, upperhex.getD (c.toNat % 16) 0])
    ∧ (∀ m : QueryMap, ∃ es : List (GoString × List GoString),
        es.map Prod.fst = sortStrings (QueryMap.keys m)
        ∧ (sortedQueryString (some m)).1
            = Join (es.flatMap fun e =>
                e.2.map fun v => QueryEscape e.1 ++ str "=" ++ QueryEscape v) (str "&")
        ∧ (m.Separate →
            es = (sortStrings (QueryMap.keys m)).map fun k =>
              (k, sortStrings (QueryMap.get m k))))
    ∧ (∀ m : Values, (sortedQueryString (some (QueryMap.ofValues m))).1
        = Join ((sortStrings (Values.keys m)).flatMap fun k =>
            (sortStrings (Values.get m k)).map fun v =>
              QueryEscape k ++ str "=" ++ QueryEscape v) (str "&")) := by
  refine ⟨mem_sortedQueryString q, fun s => ?_,
    fun m => ⟨emitted (sortStrings (QueryMap.keys m)) m, emitted_fst _ _,
      sortedQueryString_fst_emitted m,
      emitted_of_separate _ ((sortStrings_perm _).nodup_iff.mpr (QueryMap.keys_nodup m)) m⟩,
    fun m => sortedQueryString_ofValues m⟩
  unfold QueryEscape
  congr 1
  funext c
  unfold escapeByte
  rw [shouldEscape_eq]
  by_cases hu : unreserved c = true
  · have h32 : c ≠ 32 := by
      rintro rfl
      exact absurd hu (by decide)
    simp [hu, h32]
  · by_cases h32 : c = 32
    · subst h32
      decide
    · simp [hu, h32]

/-- C7. Payload hash: for every body that is present, the empty one included, the
payload-hash field is the lower-case hex encoding, 64 characters long, of the SHA-256 of
the body bytes (`e3b0c442...b855` for the empty body); for an absent body it is the empty
string. -/
theorem payloadHash_spec (body : List UInt8) :
    payloadHash (some body) = hexEncode (sha256.Sum256 body)
    ∧ (payloadHash (some body)).length = 64
    ∧ (∀ c ∈ payloadHash (some body), isLowerHex c = true)
    ∧ payloadHash (some [])
        = str "e3b0c44298fc1c149afbf4c8996fb92427ae41e4649b934ca495991b7852b855"
    ∧ payloadHash none = [] :=
  ⟨rfl, length_payloadHash body, hexEncode_lowerHex _, payloadHash_empty, rfl⟩

/-- C8. Empty against absent body: whenever `sign` succeeds on the other fields, the
string to sign for a present but empty body is the string to sign for an absent body
followed by the hex SHA-256 of the empty input, so the two strings differ. -/
theorem empty_body_differs_from_absent (c : Client) (timestamp : Int) (method path : GoString)
    (headers : Header) (queryParams : Option QueryMap)
    (hok : (sign c timestamp method path headers queryParams none).err = none) :
    ∃ absent empty q₀ q₁,
      stringToSign timestamp method path headers queryParams none = Except.ok (absent, q₀)
      ∧ stringToSign timestamp method path headers queryParams (some [])
          = Except.ok (empty, q₁)
      ∧ empty = absent
          ++ str "e3b0c44298fc1c149afbf4c8996fb92427ae41e4649b934ca495991b7852b855"
      ∧ empty ≠ absent := by
  have hne := (sign_err_eq_none_iff c timestamp method path headers queryParams none).mp hok
  have happ : canonical timestamp method path (Header.Get headers (str "Host"))
        (sortedQueryString queryParams).1 (payloadHash (some []))
      = canonical timestamp method path (Header.Get headers (str "Host"))
          (sortedQueryString queryParams).1 (payloadHash none)
        ++ str "e3b0c44298fc1c149afbf4c8996fb92427ae41e4649b934ca495991b7852b855" := by
    rw [payloadHash_empty]
    simp [canonical, payloadHash]
  refine ⟨_, _, (sortedQueryString queryParams).2, (sortedQueryString queryParams).2,
    ?_, ?_, happ, ?_⟩
  · rw [stringToSign_eq, if_neg hne]
  · rw [stringToSign_eq, if_neg hne]
  · intro h
    have hlen := congrArg List.length h
    rw [happ, List.length_append] at hlen
    have h64 : (str "e3b0c44298fc1c149afbf4c8996fb92427ae41e4649b934ca495991b7852b855").length
        = 64 := by decide
    omega

/-- The empty and the absent body at the end-to-end vector. -/
theorem empty_body_differs_from_absent_witness :
    ∃ absent empty q₀ q₁,
      stringToSign 1700000000 (str "GET") (str "/api/v1/regions")
          [(str "Host", [str "juicefs.com"])] none none = Except.ok (absent, q₀)
      ∧ stringToSign 1700000000 (str "GET") (str "/api/v1/regions")
          [(str "Host", [str "juicefs.com"])] none (some []) = Except.ok (empty, q₁)
      ∧ empty = absent
          ++ str "e3b0c44298fc1c149afbf4c8996fb92427ae41e4649b934ca495991b7852b855"
      ∧ empty ≠ absent :=
  empty_body_differs_from_absent ⟨[], str "AK1", str "SK1"⟩ 1700000000 (str "GET")
    (str "/api/v1/regions") [(str "Host", [str "juicefs.com"])] none (by decide)

/-- C9. Whenever `sign` succeeds, the signature is the lower-case hex encoding of the
HMAC-SHA256, keyed by the bytes of the secret key, of the string to sign; it has exactly
64 characters, each one of `0`..`9`, `a`..`f`. -/
theorem signature_is_hex_hmac (c : Client) (timestamp : Int) (method path : GoString)
    (headers : Header) (queryParams : Option QueryMap) (body : Option (List UInt8))
    (hok : (sign c timestamp method path headers queryParams body).err = none) :
    ∃ data q,
      stringToSign timestamp method path headers queryParams body = Except.ok (data, q)
      ∧ (sign c timestamp method path headers queryParams body).signature
          = hexEncode (hmacSha256 c.SecretKey data)
      ∧ (sign c timestamp method path headers queryParams body).signature.length = 64
      ∧ ∀ ch ∈ (sign c timestamp method path headers queryParams body).signature,
          isLowerHex ch = true := by
  have hne := (sign_err_eq_none_iff c timestamp method path headers queryParams body).mp hok
  rw [sign_eq, stringToSign_eq, if_neg hne, if_neg hne]
  exact ⟨_, (sortedQueryString queryParams).2, rfl, rfl, length_signature _ _,
    hexEncode_lowerHex _⟩

/-- The signature of a request with a query map and an empty body. -/
theorem signature_is_hex_hmac_witness :
    ∃ data q,
      stringToSign 1700000000 (str "GET") (str "/api/v1/regions")
          [(str "Host", [str "juicefs.com"])]
          (some (QueryMap.ofValues [(str "a", [str "2", str "1"])])) (some [])
        = Except.ok (data, q)
      ∧ (sign ⟨[], str "AK1", str "SK1"⟩ 1700000000 (str "GET") (str "/api/v1/regions")
          [(str "Host", [str "juicefs.com"])]
          (some (QueryMap.ofValues [(str "a", [str "2", str "1"])]))
          (some [])).signature = hexEncode (hmacSha256 (str "SK1") data)
      ∧ (sign ⟨[], str "AK1", str "SK1"⟩ 1700000000 (str "GET") (str "/api/v1/regions")
          [(str "Host", [str "juicefs.com"])]
          (some (QueryMap.ofValues [(str "a", [str "2", str "1"])]))
          (some [])).signature.length = 64
      ∧ ∀ ch ∈ (sign ⟨[], str "AK1", str "SK1"⟩ 1700000000 (str "GET") (str "/api/v1/regions")
          [(str "Host", [str "juicefs.com"])]
          (some (QueryMap.ofValues [(str "a", [str "2", str "1"])]))
          (some [])).signature, isLowerHex ch = true :=
  signature_is_hex_hmac ⟨[], str "AK1", str "SK1"⟩ 1700000000 (str "GET")
    (str "/api/v1/regions") [(str "Host", [str "juicefs.com"])]
    (some (QueryMap.ofValues [(str "a", [str "2", str "1"])])) (some []) (by decide)

theorem parseNat_append_singleton (s : GoString) (d : UInt8) :
    parseNat (s ++ [d]) = parseNat s * 10 + (d.toNat - 48) := by
  simp [parseNat, List.foldl_append]

theorem toNat_digit (n : Nat) (h : n < 10) : (UInt8.ofNat (48 + n)).toNat = 48 + n :=
  UInt8.toNat_ofNat_of_lt (by
    show 48 + n < 256
    omega)

theorem parseNat_decimal (fuel n : Nat) (h : n < fuel) : parseNat (decimal fuel n) = n := by
  induction fuel generalizing n with
  | zero => omega
  | succ fuel ih =>
    unfold decimal
    split_ifs with h10
    · simp [parseNat, toNat_digit n h10]
    · rw [parseNat_append_singleton, ih (n / 10) (by omega),
        toNat_digit (n % 10) (Nat.mod_lt _ (by norm_num))]
      omega

/-- A decimal numeral starts with a digit. -/
theorem decimal_head (fuel n : Nat) :
    ∃ c rest, decimal (fuel + 1) n = c :: rest ∧ 48 ≤ c.toNat := by
  induction fuel generalizing n with
  | zero =>
    unfold decimal
    split_ifs with h10
    · exact ⟨_, [], rfl, by rw [toNat_digit n h10]; omega⟩
    · exact ⟨_, [], rfl, by
        rw [toNat_digit (n % 10) (Nat.mod_lt _ (by norm_num))]; omega⟩
  | succ fuel ih =>
    unfold decimal
    split_ifs with h10
    · exact ⟨_, [], rfl, by rw [toNat_digit n h10]; omega⟩
    · obtain ⟨c, rest, hc, h48⟩ := ih (n / 10)
      rw [hc]
      exact ⟨c, rest ++ _, rfl, h48⟩

theorem parseInt_formatInt (i : Int) : parseInt (formatInt i) = i := by
  cases i with
  | ofNat n =>
    obtain ⟨c, rest, hc, h48⟩ := decimal_head n n
    have hne : c ≠ 45 := by
      rintro rfl
      exact absurd h48 (by decide)
    have hp := parseNat_decimal (n + 1) n (by omega)
    rw [hc] at hp
    simp only [formatInt, hc, parseInt, if_neg hne, hp]
    rfl
  | negSucc n =>
    have hp := parseNat_decimal (n + 2) (n + 1) (by omega)
    simp only [formatInt, parseInt, if_true, hp]
    rfl

theorem formatInt_injective {i j : Int} (h : formatInt i = formatInt j) : i = j := by
  rw [← parseInt_formatInt i, ← parseInt_formatInt j, h]

theorem canonical_injective {t₁ t₂ : Int} {m₁ m₂ p₁ p₂ h₁ h₂ q₁ q₂ x₁ x₂ : GoString}
    (h : canonical t₁ m₁ p₁ h₁ q₁ x₁ = canonical t₂ m₂ p₂ h₂ q₂ x₂) :
    (m₁ = m₂ → p₁ = p₂ → h₁ = h₂ → q₁ = q₂ → x₁ = x₂ → t₁ = t₂)
    ∧ (t₁ = t₂ → p₁ = p₂ → h₁ = h₂ → q₁ = q₂ → x₁ = x₂ → m₁ = m₂)
    ∧ (t₁ = t₂ → m₁ = m₂ → h₁ = h₂ → q₁ = q₂ → x₁ = x₂ → p₁ = p₂)
    ∧ (t₁ = t₂ → m₁ = m₂ → p₁ = p₂ → q₁ = q₂ → x₁ = x₂ → h₁ = h₂)
    ∧ (t₁ = t₂ → m₁ = m₂ → p₁ = p₂ → h₁ = h₂ → x₁ = x₂ → q₁ = q₂) := by
  refine ⟨?_, ?_, ?_, ?_, ?_⟩
  · rintro rfl rfl rfl rfl rfl
    simp only [canonical, List.append_left_inj] at h
    exact formatInt_injective h
  · rintro rfl rfl rfl rfl rfl
    simpa only [canonical, List.append_left_inj, List.append_right_inj] using h
  · rintro rfl rfl rfl rfl rfl
    simpa only [canonical, List.append_left_inj, List.append_right_inj] using h
  · rintro rfl rfl rfl rfl rfl
    simpa only [canonical, List.append_left_inj, List.append_right_inj] using h
  · rintro rfl rfl rfl rfl rfl
    simpa only [canonical, List.append_left_inj, List.append_right_inj] using h

theorem stringToSign_of_host {headers : Header} {host : GoString} {rest : List GoString}
    (hget : Values.get headers (str "Host") = host :: rest) (hne : host ≠ [])
    (timestamp : Int) (method path : GoString) (queryParams : Option QueryMap)
    (body : Option (List UInt8)) :
    stringToSign timestamp method path headers queryParams body
      = Except.ok (canonical timestamp method path host (sortedQueryString queryParams).1
          (payloadHash body), (sortedQueryString queryParams).2) := by
  have hhost : Header.Get headers (str "Host") = host := by
    rw [Header.Get_Host, hget]
  rw [stringToSign_eq, hhost, if_neg hne]

/-! ## Sensitivity of the string to sign -/

/-- C11. Sensitivity to the scalar fields: two signing inputs on which `sign` succeeds and
that differ in exactly one of the timestamp, the method (a difference in letter case
included) or the path, all other fields equal, have different strings to sign. -/
theorem stringToSign_scalar_sensitive (c : Client) (t₁ t₂ : Int) (m₁ m₂ p₁ p₂ : GoString)
    (headers : Header) (queryParams : Option QueryMap) (body : Option (List UInt8))
    (hok₁ : (sign c t₁ m₁ p₁ headers queryParams body).err = none)
    (hok₂ : (sign c t₂ m₂ p₂ headers queryParams body).err = none)
    (hdiff : (t₁ ≠ t₂ ∧ m₁ = m₂ ∧ p₁ = p₂) ∨ (t₁ = t₂ ∧ m₁ ≠ m₂ ∧ p₁ = p₂)
      ∨ (t₁ = t₂ ∧ m₁ = m₂ ∧ p₁ ≠ p₂)) :
    ∃ d₁ d₂ q₁ q₂,
      stringToSign t₁ m₁ p₁ headers queryParams body = Except.ok (d₁, q₁)
      ∧ stringToSign t₂ m₂ p₂ headers queryParams body = Except.ok (d₂, q₂)
      ∧ d₁ ≠ d₂ := by
  have hne₁ := (sign_err_eq_none_iff c t₁ m₁ p₁ headers queryParams body).mp hok₁
  have hne₂ := (sign_err_eq_none_iff c t₂ m₂ p₂ headers queryParams body).mp hok₂
  refine ⟨_, _, (sortedQueryString queryParams).2, (sortedQueryString queryParams).2,
    by rw [stringToSign_eq, if_neg hne₁], by rw [stringToSign_eq, if_neg hne₂], fun h => ?_⟩
  obtain ⟨ht, hm, hp, -, -⟩ := canonical_injective h
  rcases hdiff with ⟨hne, hm', hp'⟩ | ⟨ht', hne, hp'⟩ | ⟨ht', hm', hne⟩
  · exact hne (ht hm' hp' rfl rfl rfl)
  · exact hne (hm ht' hp' rfl rfl rfl)
  · exact hne (hp ht' hm' rfl rfl rfl)

/-- The methods `GET` and `get`, all other fields those of the end-to-end vector. -/
theorem stringToSign_scalar_sensitive_witness :
    ∃ d₁ d₂ q₁ q₂,
      stringToSign 1700000000 (str "GET") (str "/api/v1/regions")
          [(str "Host", [str "juicefs.com"])] none none = Except.ok (d₁, q₁)
      ∧ stringToSign 1700000000 (str "get") (str "/api/v1/regions")
          [(str "Host", [str "juicefs.com"])] none none = Except.ok (d₂, q₂)
      ∧ d₁ ≠ d₂ :=
  stringToSign_scalar_sensitive ⟨[], str "AK1", str "SK1"⟩ 1700000000 1700000000 (str "GET")
    (str "get") (str "/api/v1/regions") (str "/api/v1/regions")
    [(str "Host", [str "juicefs.com"])] none none (by decide) (by decide)
    (Or.inr (Or.inl ⟨rfl, by decide, rfl⟩))

/-- C12, as the code has it: only the header `Host` enters the string to sign.  Changing
the value of the header `Content-Type` of a signing input leaves the string to sign as it
was. -/
theorem stringToSign_ignores_other_headers :
    stringToSign 1700000000 (str "GET") (str "/api/v1/regions")
        [(str "Host", [str "juicefs.com"]), (str "Content-Type", [str "application/json"])]
        none none
      = stringToSign 1700000000 (str "GET") (str "/api/v1/regions")
        [(str "Host", [str "juicefs.com"]), (str "Content-Type", [str "text/plain"])]
        none none
    ∧ stringToSign 1700000000 (str "GET") (str "/api/v1/regions")
        [(str "Host", [str "juicefs.com"]), (str "Content-Type", [str "application/json"])]
        none none
      = Except.ok (str "1700000000\nGET\n/api/v1/regions\nhost:juicefs.com\n\n", none)
    ∧ str "application/json" ≠ str "text/plain" :=
  ⟨by decide, by decide, by decide⟩

/-- C12, amended. Sensitivity to the Host value: when the first value bound to `Host` is
changed to a different non-empty value, all other fields equal, the string to sign
changes; and the string to sign depends on the headers through that value only. -/
theorem stringToSign_host_sensitive (timestamp : Int) (method path : GoString)
    (h₁ h₂ : Header) (queryParams : Option QueryMap) (body : Option (List UInt8))
    (v₁ v₂ : GoString) (r₁ r₂ : List GoString)
    (hv₁ : Values.get h₁ (str "Host") = v₁ :: r₁) (hv₂ : Values.get h₂ (str "Host") = v₂ :: r₂)
    (hne₁ : v₁ ≠ []) (hne₂ : v₂ ≠ []) :
    (v₁ ≠ v₂ →
      ∃ d₁ d₂ q₁ q₂,
        stringToSign timestamp method path h₁ queryParams body = Except.ok (d₁, q₁)
        ∧ stringToSign timestamp method path h₂ queryParams body = Except.ok (d₂, q₂)
        ∧ d₁ ≠ d₂)
    ∧ (v₁ = v₂ →
        stringToSign timestamp method path h₁ queryParams body
          = stringToSign timestamp method path h₂ queryParams body) := by
  rw [stringToSign_of_host hv₁ hne₁, stringToSign_of_host hv₂ hne₂]
  constructor
  · intro hdiff
    refine ⟨_, _, (sortedQueryString queryParams).2, (sortedQueryString queryParams).2,
      rfl, rfl, fun h => ?_⟩
    exact hdiff ((canonical_injective h).2.2.2.1 rfl rfl rfl rfl rfl)
  · rintro rfl
    rfl

/-- The hosts `juicefs.com` and `example.com`, an unsigned header next to each. -/
theorem stringToSign_host_sensitive_witness :
    ∃ d₁ d₂ q₁ q₂,
      stringToSign 1700000000 (str "GET") (str "/api/v1/regions")
          [(str "Host", [str "juicefs.com"]), (str "Content-Type", [str "application/json"])]
          none none = Except.ok (d₁, q₁)
      ∧ stringToSign 1700000000 (str "GET") (str "/api/v1/regions")
          [(str "Content-Type", [str "application/json"]), (str "Host", [str "example.com"])]
          none none = Except.ok (d₂, q₂)
      ∧ d₁ ≠ d₂ :=
  (stringToSign_host_sensitive 1700000000 (str "GET") (str "/api/v1/regions")
    [(str "Host", [str "juicefs.com"]), (str "Content-Type", [str "application/json"])]
    [(str "Content-Type", [str "application/json"]), (str "Host", [str "example.com"])]
    none none (str "juicefs.com") (str "example.com") [] [] (by decide) (by decide)
    (by decide) (by decide)).1 (by decide)

/-! ## The query block read back -/

theorem byte_ext {a b : UInt8} (h : a.toNat = b.toNat) : a = b :=
  UInt8.eq_of_val_eq (Fin.ext h)

theorem hexValue_upperhex (i : Nat) (h : i < 16) : hexValue (upperhex.getD i 0) = i := by
  interval_cases i <;> decide

theorem escapeByte_eq (c : UInt8) :
    escapeByte c
      = if c = 32 then [43]
        else if unreserved c = true then [c]
        else [37, upperhex.getD (c.toNat / 16) 0, upperhex.getD (c.toNat % 16) 0] := by
  unfold escapeByte
  rw [shouldEscape_eq]
  by_cases h32 : c = 32
  · simp [h32]
  · by_cases hu : unreserved c = true <;> simp [h32, hu]

theorem escapeByte_cases (c : UInt8) :
    (c = 32 ∧ escapeByte c = [43]) ∨ (unreserved c = true ∧ escapeByte c = [c])
      ∨ escapeByte c = [37, upperhex.getD (c.toNat / 16) 0, upperhex.getD (c.toNat % 16) 0] := by
  rw [escapeByte_eq]
  by_cases h32 : c = 32
  · exact Or.inl ⟨h32, by simp [h32]⟩
  · by_cases hu : unreserved c = true
    · exact Or.inr (Or.inl ⟨hu, by simp [h32, hu]⟩)
    · exact Or.inr (Or.inr (by simp [h32, hu]))

/-- The escape of a byte can be read off the front of a string in one way only. -/
theorem escapeByte_append_inj {a b : UInt8} {r₁ r₂ : GoString}
    (h : escapeByte a ++ r₁ = escapeByte b ++ r₂) : a = b ∧ r₁ = r₂ := by
  have h43 : unreserved 43 = false := by decide
  have h37 : unreserved 37 = false := by decide
  rcases escapeByte_cases a with ⟨ha, hea⟩ | ⟨ha, hea⟩ | hea <;>
    rcases escapeByte_cases b with ⟨hb, heb⟩ | ⟨hb, heb⟩ | heb <;>
    rw [hea, heb] at h <;>
    simp only [List.cons_append, List.nil_append, List.cons.injEq] at h
  · exact ⟨ha.trans hb.symm, h.2⟩
  · rw [← h.1, h43] at hb
    exact absurd hb (by simp)
  · exact absurd h.1 (by decide)
  · rw [h.1, h43] at ha
    exact absurd ha (by simp)
  · exact h
  · rw [h.1, h37] at ha
    exact absurd ha (by simp)
  · exact absurd h.1 (by decide)
  · rw [← h.1, h37] at hb
    exact absurd hb (by simp)
  · obtain ⟨-, hhi, hlo, hr⟩ := h
    have hlta : a.toNat < 256 := UInt8.toNat_lt a
    have hltb : b.toNat < 256 := UInt8.toNat_lt b
    have hhi' := congrArg hexValue hhi
    have hlo' := congrArg hexValue hlo
    rw [hexValue_upperhex _ (by omega), hexValue_upperhex _ (by omega)] at hhi'
    rw [hexValue_upperhex _ (Nat.mod_lt _ (by norm_num)),
      hexValue_upperhex _ (Nat.mod_lt _ (by norm_num))] at hlo'
    exact ⟨byte_ext (by omega), hr⟩

theorem escapeByte_ne_nil (c : UInt8) : escapeByte c ≠ [] := by
  rw [escapeByte_eq]
  split_ifs <;> simp

theorem QueryEscape_cons (c : UInt8) (s : GoString) :
    QueryEscape (c :: s) = escapeByte c ++ QueryEscape s := by
  simp [QueryEscape]

theorem QueryEscape_injective {s t : GoString} (h : QueryEscape s = QueryEscape t) : s = t := by
  induction s generalizing t with
  | nil =>
    cases t with
    | nil => rfl
    | cons d t =>
      rw [QueryEscape_cons] at h
      have h₁ : escapeByte d = [] := (List.append_eq_nil.mp h.symm).1
      exact absurd h₁ (escapeByte_ne_nil d)
  | cons c s ih =>
    cases t with
    | nil =>
      rw [QueryEscape_cons] at h
      have h₁ : escapeByte c = [] := (List.append_eq_nil.mp h).1
      exact absurd h₁ (escapeByte_ne_nil c)
    | cons d t =>
      rw [QueryEscape_cons, QueryEscape_cons] at h
      obtain ⟨hcd, hr⟩ := escapeByte_append_inj h
      rw [hcd, ih hr]

/-- Two strings free of a separator, each followed by it, are split apart in one way. -/
theorem append_cons_inj_of_not_mem {α : Type} {x : α} {a b r₁ r₂ : List α} (ha : x ∉ a)
    (hb : x ∉ b) (h : a ++ x :: r₁ = b ++ x :: r₂) : a = b ∧ r₁ = r₂ := by
  induction a generalizing b with
  | nil =>
    cases b with
    | nil => simpa using h
    | cons y ys =>
      simp only [List.nil_append, List.cons_append, List.cons.injEq] at h
      exact absurd (List.mem_cons.mpr (Or.inl h.1)) hb
  | cons z zs ih =>
    cases b with
    | nil =>
      simp only [List.nil_append, List.cons_append, List.cons.injEq] at h
      exact absurd (List.mem_cons.mpr (Or.inl h.1.symm)) ha
    | cons y ys =>
      simp only [List.cons_append, List.cons.injEq] at h
      obtain ⟨hzy, hrest⟩ := h
      have ha' : x ∉ zs := fun hx => ha (List.mem_cons_of_mem _ hx)
      have hb' : x ∉ ys := fun hx => hb (List.mem_cons_of_mem _ hx)
      obtain ⟨h₁, h₂⟩ := ih ha' hb' hrest
      exact ⟨by rw [hzy, h₁], h₂⟩

theorem not_mem_QueryEscape_eq (s : GoString) : (61 : UInt8) ∉ QueryEscape s := by
  intro h
  rcases mem_QueryEscape s 61 h with h₁ | h₁ | h₁
  · exact absurd h₁ (by decide)
  · exact absurd h₁ (by decide)
  · exact absurd h₁ (by decide)

theorem not_mem_QueryEscape_amp (s : GoString) : (38 : UInt8) ∉ QueryEscape s := by
  intro h
  rcases mem_QueryEscape s 38 h with h₁ | h₁ | h₁
  · exact absurd h₁ (by decide)
  · exact absurd h₁ (by decide)
  · exact absurd h₁ (by decide)

theorem entry_eq (p : GoString × GoString) :
    entry p = QueryEscape p.1 ++ (61 : UInt8) :: QueryEscape p.2 := by
  have heq : str "=" = [61] := by decide
  simp [entry, heq]

theorem entry_injective {p q : GoString × GoString} (h : entry p = entry q) : p = q := by
  rw [entry_eq, entry_eq] at h
  obtain ⟨h₁, h₂⟩ := append_cons_inj_of_not_mem (not_mem_QueryEscape_eq _)
    (not_mem_QueryEscape_eq _) h
  exact Prod.ext (QueryEscape_injective h₁) (QueryEscape_injective h₂)

theorem entry_ne_nil (p : GoString × GoString) : entry p ≠ [] := by
  rw [entry_eq]
  simp

theorem not_mem_entry_amp (p : GoString × GoString) : (38 : UInt8) ∉ entry p := by
  rw [entry_eq]
  intro h
  rcases List.mem_append.mp h with h₁ | h₁
  · exact not_mem_QueryEscape_amp _ h₁
  · rcases List.mem_cons.mp h₁ with h₂ | h₂
    · exact absurd h₂ (by decide)
    · exact not_mem_QueryEscape_amp _ h₂

/-- A join by `&` of non-empty strings free of `&` is split into its parts in one way. -/
theorem Join_amp_injective {l₁ l₂ : List GoString}
    (h₁ : ∀ s ∈ l₁, s ≠ [] ∧ (38 : UInt8) ∉ s) (h₂ : ∀ s ∈ l₂, s ≠ [] ∧ (38 : UInt8) ∉ s)
    (h : Join l₁ [38] = Join l₂ [38]) : l₁ = l₂ := by
  induction l₁ generalizing l₂ with
  | nil =>
    cases l₂ with
    | nil => rfl
    | cons b r₂ =>
      have hb := (h₂ b (List.mem_cons_self _ _)).1
      cases r₂ with
      | nil => exact absurd h.symm hb
      | cons b' r₂ =>
        simp only [Join] at h
        exact absurd (List.append_eq_nil.mp (List.append_eq_nil.mp h.symm).1).1 hb
  | cons a r₁ ih =>
    have ha := h₁ a (List.mem_cons_self _ _)
    have hr₁ : ∀ s ∈ r₁, s ≠ [] ∧ (38 : UInt8) ∉ s :=
      fun s hs => h₁ s (List.mem_cons_of_mem _ hs)
    cases l₂ with
    | nil =>
      cases r₁ with
      | nil => exact absurd h ha.1
      | cons a' r₁ =>
        simp only [Join] at h
        exact absurd (List.append_eq_nil.mp (List.append_eq_nil.mp h).1).1 ha.1
    | cons b r₂ =>
      have hb := h₂ b (List.mem_cons_self _ _)
      have hr₂ : ∀ s ∈ r₂, s ≠ [] ∧ (38 : UInt8) ∉ s :=
        fun s hs => h₂ s (List.mem_cons_of_mem _ hs)
      cases r₁ with
      | nil =>
        cases r₂ with
        | nil => simpa [Join] using h
        | cons b' r₂ =>
          simp only [Join, List.append_assoc, List.singleton_append] at h
          exact absurd (h ▸ List.mem_append_right _ (List.mem_cons_self _ _)) ha.2
      | cons a' r₁ =>
        cases r₂ with
        | nil =>
          simp only [Join, List.append_assoc, List.singleton_append] at h
          exact absurd (h ▸ List.mem_append_right _ (List.mem_cons_self _ _)) hb.2
        | cons b' r₂ =>
          simp only [Join, List.append_assoc, List.singleton_append] at h
          obtain ⟨hab, hrest⟩ := append_cons_inj_of_not_mem ha.2 hb.2 h
          rw [hab, ih hr₁ hr₂ hrest]

theorem sortedQueryString_eq_sortedPairs (m : QueryMap) (hsep : m.Separate) :
    (sortedQueryString (some m)).1 = Join ((QueryMap.sortedPairs m).map entry) [38] := by
  have hamp : str "&" = [38] := by decide
  rw [sortedQueryString_fst m hsep, hamp, QueryMap.sortedPairs, List.map_flatMap]
  congr 1
  apply List.flatMap_congr
  intro k _
  rw [List.map_map]
  rfl

theorem QueryMap.sortedPairs_perm (m : QueryMap) : (QueryMap.sortedPairs m).Perm (QueryMap.pairs m) := by
  unfold QueryMap.sortedPairs QueryMap.pairs
  refine (List.Perm.flatMap_right _ (sortStrings_perm _)).trans ?_
  exact List.Perm.flatMap_left _ (fun k _ => (sortStrings_perm _).map _)

theorem strLe_refl (a : GoString) : StrLE a a := by
  rcases strLe_total a a with h | h <;> exact h

theorem QueryMap.sortedPairs_sorted (m : QueryMap) : (QueryMap.sortedPairs m).Pairwise PairLE := by
  unfold QueryMap.sortedPairs
  rw [List.pairwise_flatMap]
  constructor
  · intro k _
    rw [List.pairwise_map]
    exact (sortStrings_sorted (QueryMap.get m k)).imp (fun h => ⟨strLe_refl k, fun _ => h⟩)
  · have hnd : (sortStrings (QueryMap.keys m)).Nodup :=
      (sortStrings_perm _).nodup_iff.mpr (QueryMap.keys_nodup m)
    refine ((sortStrings_sorted (QueryMap.keys m)).and hnd).imp ?_
    rintro k₁ k₂ ⟨hle, hne⟩ p hp q hq
    obtain ⟨v₁, -, rfl⟩ := List.mem_map.mp hp
    obtain ⟨v₂, -, rfl⟩ := List.mem_map.mp hq
    exact ⟨hle, fun h => absurd h hne⟩

instance : IsAntisymm (GoString × GoString) PairLE :=
  ⟨fun p q hpq hqp => by
    have h₁ : p.1 = q.1 := strLe_antisymm hpq.1 hqp.1
    exact Prod.ext h₁ (strLe_antisymm (hpq.2 h₁) (hqp.2 h₁.symm))⟩

/-- Two maps with separate slices have the same query block exactly when they hold the
same pairs, each as often in the one as in the other. -/
theorem sortedQueryString_eq_iff (m₁ m₂ : QueryMap) (h₁ : m₁.Separate) (h₂ : m₂.Separate) :
    (sortedQueryString (some m₁)).1 = (sortedQueryString (some m₂)).1
      ↔ (QueryMap.pairs m₁).Perm (QueryMap.pairs m₂) := by
  rw [sortedQueryString_eq_sortedPairs m₁ h₁, sortedQueryString_eq_sortedPairs m₂ h₂]
  have hparts : ∀ m : QueryMap, ∀ s ∈ (QueryMap.sortedPairs m).map entry,
      s ≠ [] ∧ (38 : UInt8) ∉ s := by
    intro m s hs
    obtain ⟨p, -, rfl⟩ := List.mem_map.mp hs
    exact ⟨entry_ne_nil p, not_mem_entry_amp p⟩
  constructor
  · intro h
    have hl := Join_amp_injective (hparts m₁) (hparts m₂) h
    have hsp : QueryMap.sortedPairs m₁ = QueryMap.sortedPairs m₂ :=
      List.map_injective_iff.mpr (fun _ _ => entry_injective) hl
    exact ((QueryMap.sortedPairs_perm m₁).symm.trans (hsp ▸ List.Perm.refl _)).trans
      (QueryMap.sortedPairs_perm m₂)
  · intro h
    have hp : (QueryMap.sortedPairs m₁).Perm (QueryMap.sortedPairs m₂) :=
      ((QueryMap.sortedPairs_perm m₁).trans h).trans (QueryMap.sortedPairs_perm m₂).symm
    rw [List.eq_of_perm_of_sorted hp (QueryMap.sortedPairs_sorted m₁)
      (QueryMap.sortedPairs_sorted m₂)]

theorem flatMap_ite_eq {α β : Type} [DecidableEq α] (l : List α) (hnd : l.Nodup) (k : α)
    (A : List β) :
    (l.flatMap fun x => if x = k then A else []) = if k ∈ l then A else [] := by
  induction l with
  | nil => simp
  | cons x xs ih =>
    obtain ⟨hx, hxs⟩ := List.nodup_cons.mp hnd
    rw [List.flatMap_cons, ih hxs]
    by_cases hxk : x = k
    · subst hxk
      simp [hx]
    · have hkx : ¬ k = x := fun h => hxk h.symm
      simp [hxk, hkx]

/-- The values of one name, read off the pairs of the map. -/
theorem QueryMap.filterMap_pairs (m : QueryMap) (k : GoString) :
    (QueryMap.pairs m).filterMap (fun p => if p.1 = k then some p.2 else none)
      = QueryMap.get m k := by
  unfold QueryMap.pairs
  rw [List.filterMap_flatMap]
  have hinner : ∀ k₁ ∈ QueryMap.keys m,
      ((QueryMap.get m k₁).map fun v => (k₁, v)).filterMap
          (fun p => if p.1 = k then some p.2 else none)
        = if k₁ = k then QueryMap.get m k else [] := by
    intro k₁ _
    by_cases hk : k₁ = k
    · subst hk
      simp [List.filterMap_map, Function.comp_def]
    · simp [List.filterMap_map, Function.comp_def, hk]
  rw [List.flatMap_congr hinner, flatMap_ite_eq _ (QueryMap.keys_nodup m)]
  by_cases hk : k ∈ QueryMap.keys m
  · rw [if_pos hk]
  · rw [if_neg hk, QueryMap.get_of_absent m (fun h => hk (QueryMap.mem_keys_iff.mpr h))]

/-- Replacing one value of a name by a different one changes the query block. -/
theorem sortedQueryString_replace_ne (m m₁ : QueryMap) (hsep : m.Separate)
    (hsep₁ : m₁.Separate) (k v v₁ : GoString) (pre post : List GoString)
    (hget : QueryMap.get m k = pre ++ v :: post)
    (hget₁ : QueryMap.get m₁ k = pre ++ v₁ :: post) (hv : v₁ ≠ v) :
    (sortedQueryString (some m₁)).1 ≠ (sortedQueryString (some m)).1 := by
  intro h
  have hp := ((sortedQueryString_eq_iff _ _ hsep₁ hsep).mp h).filterMap
    (fun p => if p.1 = k then some p.2 else none)
  rw [QueryMap.filterMap_pairs, QueryMap.filterMap_pairs, hget, hget₁] at hp
  have hc := hp.count_eq v₁
  simp [List.count_append, List.count_cons, hv, hv.symm] at hc

theorem base64Index_encodeStd (i : Nat) (h : i < 64) :
    base64Index (encodeStd.getD i 0) = some i := by
  interval_cases i <;> decide

theorem encodeStd_ne_pad (i : Nat) (h : i < 64) : encodeStd.getD i 0 ≠ 61 := by
  interval_cases i <;> decide

theorem ofNat_toNat (b : UInt8) : UInt8.ofNat b.toNat = b :=
  byte_ext (UInt8.toNat_ofNat_of_lt (UInt8.toNat_lt b))

theorem ofNat_eq_of_toNat {n : Nat} {b : UInt8} (h : n = b.toNat) : UInt8.ofNat n = b := by
  rw [h, ofNat_toNat]

theorem base64Decode_quad (a b c : UInt8) (rest bs : List UInt8)
    (h : base64Decode rest = some bs) :
    base64Decode (encodeStd.getD (a.toNat / 4) 0
        :: encodeStd.getD (a.toNat % 4 * 16 + b.toNat / 16) 0
        :: encodeStd.getD (b.toNat % 16 * 4 + c.toNat / 64) 0
        :: encodeStd.getD (c.toNat % 64) 0 :: rest)
      = some (a :: b :: c :: bs) := by
  have ha : a.toNat < 256 := UInt8.toNat_lt a
  have hb : b.toNat < 256 := UInt8.toNat_lt b
  have hc : c.toNat < 256 := UInt8.toNat_lt c
  have hpad : ¬ (rest = [] ∧ encodeStd.getD (c.toNat % 64) 0 = 61) :=
    fun h => encodeStd_ne_pad _ (by omega) h.2
  have h₁ : UInt8.ofNat (a.toNat / 4 * 4 + (a.toNat % 4 * 16 + b.toNat / 16) / 16) = a :=
    ofNat_eq_of_toNat (by omega)
  have h₂ : UInt8.ofNat ((a.toNat % 4 * 16 + b.toNat / 16) % 16 * 16
      + (b.toNat % 16 * 4 + c.toNat / 64) / 4) = b := ofNat_eq_of_toNat (by omega)
  have h₃ : UInt8.ofNat ((b.toNat % 16 * 4 + c.toNat / 64) % 4 * 64 + c.toNat % 64) = c :=
    ofNat_eq_of_toNat (by omega)
  rw [base64Decode, base64Index_encodeStd _ (show a.toNat / 4 < 64 by omega),
    base64Index_encodeStd _ (show a.toNat % 4 * 16 + b.toNat / 16 < 64 by omega),
    base64Index_encodeStd _ (show b.toNat % 16 * 4 + c.toNat / 64 < 64 by omega),
    base64Index_encodeStd _ (show c.toNat % 64 < 64 by omega), h]
  simp only [if_neg hpad, h₁, h₂, h₃]

/-- Decoding undoes `base64.StdEncoding.EncodeToString`. -/
theorem base64Decode_base64Encode (bs : List UInt8) :
    base64Decode (base64Encode bs) = some bs := by
  induction bs using base64Encode.induct with
  | case1 a b c rest ih => exact base64Decode_quad a b c _ _ ih
  | case2 a b =>
    have ha : a.toNat < 256 := UInt8.toNat_lt a
    have hb : b.toNat < 256 := UInt8.toNat_lt b
    have hpad : encodeStd.getD (b.toNat % 16 * 4) 0 ≠ 61 := encodeStd_ne_pad _ (by omega)
    have h₁ : UInt8.ofNat (a.toNat / 4 * 4 + (a.toNat % 4 * 16 + b.toNat / 16) / 16) = a :=
      ofNat_eq_of_toNat (by omega)
    have h₂ : UInt8.ofNat ((a.toNat % 4 * 16 + b.toNat / 16) % 16 * 16
        + (b.toNat % 16 * 4) / 4) = b := ofNat_eq_of_toNat (by omega)
    rw [base64Encode, base64Decode, base64Index_encodeStd _ (show a.toNat / 4 < 64 by omega),
      base64Index_encodeStd _ (show a.toNat % 4 * 16 + b.toNat / 16 < 64 by omega),
      base64Index_encodeStd _ (show b.toNat % 16 * 4 < 64 by omega)]
    simp only [and_self, if_true, if_neg hpad, h₁, h₂]
  | case3 a =>
    have ha : a.toNat < 256 := UInt8.toNat_lt a
    have h₁ : UInt8.ofNat (a.toNat / 4 * 4 + (a.toNat % 4 * 16) / 16) = a :=
      ofNat_eq_of_toNat (by omega)
    rw [base64Encode, base64Decode, base64Index_encodeStd _ (show a.toNat / 4 < 64 by omega),
      base64Index_encodeStd _ (show a.toNat % 4 * 16 < 64 by omega)]
    simp only [and_self, if_true, h₁]
  | case4 => rfl

/-! ## JSON strings read back -/

theorem unquoteBody_copy {b : UInt8} (h₁ : b ≠ 34) (h₂ : b ≠ 92) (h₃ : 32 ≤ b.toNat)
    (t : List UInt8) :
    unquoteBody (b :: t) = (unquoteBody t).map fun r => (b :: r.1, r.2) := by
  have h₄ : ¬ b.toNat < 32 := by omega
  rw [unquoteBody.eq_def]
  simp only [if_neg h₁, if_neg h₂, if_neg h₄]

theorem unquoteBody_escape {e c : UInt8} (he : e ≠ 117) (hc : unescape e = some c)
    (t : List UInt8) :
    unquoteBody (92 :: e :: t) = (unquoteBody t).map fun r => (c :: r.1, r.2) := by
  have h₁ : ¬ (92 : UInt8) = 34 := by decide
  rw [unquoteBody.eq_def]
  simp only [if_neg h₁, if_true, if_neg he, hc]

theorem unquoteBody_u {h₁ h₂ h₃ h₄ : UInt8} (hh₁ : isHexDigit h₁ = true)
    (hh₂ : isHexDigit h₂ = true) (hh₃ : isHexDigit h₃ = true) (hh₄ : isHexDigit h₄ = true)
    (hs : hexValue h₁ * 4096 + hexValue h₂ * 256 + hexValue h₃ * 16 + hexValue h₄ < 55296)
    (t : List UInt8) :
    unquoteBody (92 :: 117 :: h₁ :: h₂ :: h₃ :: h₄ :: t)
      = (unquoteBody t).map fun r =>
          (EncodeRune (hexValue h₁ * 4096 + hexValue h₂ * 256 + hexValue h₃ * 16 + hexValue h₄)
            ++ r.1, r.2) := by
  have h₁ : ¬ (92 : UInt8) = 34 := by decide
  rw [unquoteBody.eq_def]
  simp only [if_neg h₁, if_true, hh₁, hh₂, hh₃, hh₄, hs, true_and, true_or, and_self]

theorem hexValue_hextable (i : Nat) (h : i < 16) : hexValue (hextable.getD i 0) = i := by
  interval_cases i <;> decide

theorem isHexDigit_hextable (i : Nat) (h : i < 16) : isHexDigit (hextable.getD i 0) = true := by
  interval_cases i <;> decide

theorem EncodeRune_ascii (b : UInt8) (h : b.toNat < 128) : EncodeRune b.toNat = [b] := by
  rw [EncodeRune, if_pos h, ofNat_toNat]

/-- The escape `encoding/json` writes for an ASCII byte is read back as that byte. -/
theorem unquoteBody_escapeASCII (b : UInt8) (hb : b.toNat < 128) (t : List UInt8) :
    unquoteBody (escapeASCII b ++ t) = (unquoteBody t).map fun r => (b :: r.1, r.2) := by
  unfold escapeASCII
  by_cases h₁ : b = 92 ∨ b = 34
  · rw [if_pos h₁]
    rcases h₁ with rfl | rfl
    · exact unquoteBody_escape (by decide) (by decide) t
    · exact unquoteBody_escape (by decide) (by decide) t
  rw [if_neg h₁]
  by_cases h₂ : b = 8
  · subst h₂
    exact unquoteBody_escape (e := 98) (by decide) (by decide) t
  rw [if_neg h₂]
  by_cases h₃ : b = 12
  · subst h₃
    exact unquoteBody_escape (e := 102) (by decide) (by decide) t
  rw [if_neg h₃]
  by_cases h₄ : b = 10
  · subst h₄
    exact unquoteBody_escape (e := 110) (by decide) (by decide) t
  rw [if_neg h₄]
  by_cases h₅ : b = 13
  · subst h₅
    exact unquoteBody_escape (e := 114) (by decide) (by decide) t
  rw [if_neg h₅]
  by_cases h₆ : b = 9
  · subst h₆
    exact unquoteBody_escape (e := 116) (by decide) (by decide) t
  rw [if_neg h₆]
  have hpre : str "\\u00" = [92, 117, 48, 48] := by decide
  have hv : hexValue 48 * 4096 + hexValue 48 * 256
      + hexValue (hextable.getD (b.toNat / 16) 0) * 16
      + hexValue (hextable.getD (b.toNat % 16) 0) = b.toNat := by
    rw [hexValue_hextable _ (by omega), hexValue_hextable _ (Nat.mod_lt _ (by norm_num))]
    have h0 : hexValue 48 = 0 := by decide
    rw [h0]
    omega
  rw [hpre]
  show unquoteBody (92 :: 117 :: 48 :: 48 :: hextable.getD (b.toNat / 16) 0
    :: hextable.getD (b.toNat % 16) 0 :: t) = _
  rw [unquoteBody_u (by decide) (by decide) (isHexDigit_hextable _ (by omega))
    (isHexDigit_hextable _ (Nat.mod_lt _ (by norm_num))) (by rw [hv]; omega), hv,
    EncodeRune_ascii b hb]
  rfl

/-- The shape of a well-formed encoding that starts with a byte from 128 on. -/
theorem DecodeRune_multibyte {b : UInt8} {rest : List UInt8} (hb : 128 ≤ b.toNat)
    (hok : ¬ ((DecodeRune (b :: rest)).1 = RuneError ∧ (DecodeRune (b :: rest)).2 = 1)) :
    (∃ s1 r, rest = s1 :: r ∧ 128 ≤ s1.toNat ∧ (DecodeRune (b :: rest)).2 = 2
        ∧ (DecodeRune (b :: rest)).1 < 2048)
    ∨ (∃ s1 s2 r, rest = s1 :: s2 :: r ∧ 128 ≤ s1.toNat ∧ s1.toNat ≤ 191 ∧ 128 ≤ s2.toNat
        ∧ s2.toNat ≤ 191 ∧ 224 ≤ b.toNat ∧ b.toNat < 240 ∧ (DecodeRune (b :: rest)).2 = 3
        ∧ (DecodeRune (b :: rest)).1
            = b.toNat % 16 * 4096 + s1.toNat % 64 * 64 + s2.toNat % 64)
    ∨ (∃ s1 s2 s3 r, rest = s1 :: s2 :: s3 :: r ∧ 128 ≤ s1.toNat ∧ 128 ≤ s2.toNat
        ∧ 128 ≤ s3.toNat ∧ (DecodeRune (b :: rest)).2 = 4
        ∧ 65536 ≤ (DecodeRune (b :: rest)).1) := by
  have h128 : ¬ b.toNat < 128 := by omega
  have hlo : ∀ lo : Nat, (if b.toNat = 224 then 160 else if b.toNat = 240 then 144 else 128) = lo
      → 128 ≤ lo ∧ (b.toNat = 240 → 144 ≤ lo) := by
    intro lo h
    split_ifs at h <;> omega
  have hhi : ∀ hi : Nat, (if b.toNat = 237 then 159 else if b.toNat = 244 then 143 else 191) = hi
      → hi ≤ 191 := by
    intro hi h
    split_ifs at h <;> omega
  rcases rest with _ | ⟨s1, _ | ⟨s2, _ | ⟨s3, r⟩⟩⟩
  · simp only [DecodeRune, if_neg h128] at hok
    split_ifs at hok <;> (exfalso; apply hok; constructor <;> rfl)
  all_goals
    simp only [DecodeRune, if_neg h128] at hok ⊢
    generalize hlo' : (if b.toNat = 224 then 160 else if b.toNat = 240 then 144 else 128) = lo
      at hok ⊢
    generalize hhi' : (if b.toNat = 237 then 159 else if b.toNat = 244 then 143 else 191) = hi
      at hok ⊢
    have hlo₁ := hlo lo hlo'
    have hhi₁ := hhi hi hhi'
    clear hlo' hhi' hlo hhi
    split_ifs at hok ⊢ <;>
      first
        | (exfalso; apply hok; refine And.symm ⟨?_, ?_⟩ <;> rfl)
        | (refine Or.inl ⟨_, _, rfl, by omega, rfl, ?_⟩
           dsimp only
           omega)
        | (refine Or.inr (Or.inl ⟨_, _, _, rfl, by omega, by omega, by omega, by omega, by omega,
            by omega, rfl, rfl⟩))
        | (refine Or.inr (Or.inr ⟨_, _, _, _, rfl, by omega, by omega, by omega, rfl, ?_⟩)
           dsimp only
           omega)

theorem unquoteBody_quote (t : List UInt8) : unquoteBody (34 :: t) = some ([], t) := by
  rw [unquoteBody.eq_def]
  simp only [if_true]

/-- Bytes from 128 on are read back as they are. -/
theorem unquoteBody_copy_high (p t : List UInt8) (hp : ∀ x ∈ p, 128 ≤ x.toNat) :
    unquoteBody (p ++ t) = (unquoteBody t).map fun r => (p ++ r.1, r.2) := by
  induction p with
  | nil => simp
  | cons x p ih =>
    have hx : 128 ≤ x.toNat := hp x (List.mem_cons_self _ _)
    have h₁ : x ≠ 34 := by
      rintro rfl
      exact absurd hx (by decide)
    have h₂ : x ≠ 92 := by
      rintro rfl
      exact absurd hx (by decide)
    rw [List.cons_append, unquoteBody_copy h₁ h₂ (by omega),
      ih (fun y hy => hp y (List.mem_cons_of_mem _ hy)), Option.map_map]
    rfl

/-- A well-formed encoding that starts with a byte from 128 on has at least two bytes,
all of them from 128 on. -/
theorem DecodeRune_size {b : UInt8} {rest : List UInt8} (hb : 128 ≤ b.toNat)
    (hok : ¬ ((DecodeRune (b :: rest)).1 = RuneError ∧ (DecodeRune (b :: rest)).2 = 1)) :
    1 ≤ (DecodeRune (b :: rest)).2
    ∧ ∀ x ∈ (b :: rest).take (DecodeRune (b :: rest)).2, 128 ≤ x.toNat := by
  rcases DecodeRune_multibyte hb hok with ⟨s1, r, rfl, h1, hn, -⟩
    | ⟨s1, s2, r, rfl, h1, -, h2, -, -, -, hn, -⟩ | ⟨s1, s2, s3, r, rfl, h1, h2, h3, hn, -⟩
  all_goals
    rw [hn]
    refine ⟨by omega, fun x hx => ?_⟩
    simp only [List.take_succ_cons, List.take_zero, List.mem_cons, List.not_mem_nil,
      or_false] at hx
    rcases hx with rfl | rfl | rfl | rfl | rfl <;> assumption

/-- The encodings of U+2028 and U+2029 are the three bytes `EncodeRune` gives. -/
theorem DecodeRune_separator {b : UInt8} {rest : List UInt8} (hb : 128 ≤ b.toNat)
    (hok : ¬ ((DecodeRune (b :: rest)).1 = RuneError ∧ (DecodeRune (b :: rest)).2 = 1))
    (hc : (DecodeRune (b :: rest)).1 = 8232 ∨ (DecodeRune (b :: rest)).1 = 8233) :
    (b :: rest).take (DecodeRune (b :: rest)).2 = EncodeRune (DecodeRune (b :: rest)).1 := by
  have h28 : EncodeRune 8232 = [226, 128, 168] := by decide
  have h29 : EncodeRune 8233 = [226, 128, 169] := by decide
  rcases DecodeRune_multibyte hb hok with ⟨s1, r, rfl, h1, hn, hlt⟩
    | ⟨s1, s2, r, rfl, h1, h1', h2, h2', hb1, hb2, hn, hval⟩
    | ⟨s1, s2, s3, r, rfl, h1, h2, h3, hn, hge⟩
  · omega
  · rw [hn]
    have hb' : b.toNat < 256 := UInt8.toNat_lt b
    rcases hc with hc | hc
    · rw [hc, h28]
      rw [hval] at hc
      rw [byte_ext (a := b) (b := 226) (by show b.toNat = 226; omega),
        byte_ext (a := s1) (b := 128) (by show s1.toNat = 128; omega),
        byte_ext (a := s2) (b := 168) (by show s2.toNat = 168; omega)]
      rfl
    · rw [hc, h29]
      rw [hval] at hc
      rw [byte_ext (a := b) (b := 226) (by show b.toNat = 226; omega),
        byte_ext (a := s1) (b := 128) (by show s1.toNat = 128; omega),
        byte_ext (a := s2) (b := 169) (by show s2.toNat = 169; omega)]
      rfl
  · omega

theorem DecodeRune_ascii {b : UInt8} (rest : List UInt8) (hb : b.toNat < 128) :
    DecodeRune (b :: rest) = (b.toNat, 1) := by
  rw [DecodeRune.eq_def]
  simp only [if_pos hb]

/-- The text `json.Marshal` writes for a well-formed UTF-8 string is read back as that
string. -/
theorem unquoteBody_appendStringBody (fuel : Nat) (s t : List UInt8) (hlen : s.length ≤ fuel)
    (hv : validBody fuel s = true) :
    unquoteBody (appendStringBody fuel s ++ 34 :: t) = some (s, t) := by
  induction fuel generalizing s with
  | zero =>
    have hs : s = [] := List.length_eq_zero.mp (by omega)
    subst hs
    exact unquoteBody_quote t
  | succ fuel ih =>
    cases s with
    | nil => exact unquoteBody_quote t
    | cons b rest =>
      by_cases hb : b.toNat < 128
      · have hv' : validBody fuel rest = true := by
          have h := hv
          simp only [validBody, DecodeRune_ascii rest hb, List.drop_succ_cons,
            List.drop_zero] at h
          split_ifs at h
          exact h
        have hrec := ih rest (by simpa using hlen) hv'
        by_cases hs : htmlSafe b = true
        · have hs' := hs
          simp only [htmlSafe, decide_eq_true_eq] at hs'
          simp only [appendStringBody, if_pos hb, hs, if_true, List.cons_append]
          rw [unquoteBody_copy hs'.2.2.1 hs'.2.2.2.2.2.2 hs'.1, hrec]
          rfl
        · simp only [appendStringBody, if_pos hb, hs]
          rw [if_neg (by simp), List.append_assoc, unquoteBody_escapeASCII b hb, hrec]
          rfl
      · have hb' : 128 ≤ b.toNat := by omega
        have hok : ¬ ((DecodeRune (b :: rest)).1 = RuneError ∧ (DecodeRune (b :: rest)).2 = 1) := by
          intro h
          simp only [validBody, h, and_self, if_true] at hv
          exact absurd hv (by simp)
        have hv' : validBody fuel ((b :: rest).drop (DecodeRune (b :: rest)).2) = true := by
          simpa only [validBody, if_neg hok] using hv
        obtain ⟨hn, hhigh⟩ := DecodeRune_size hb' hok
        have hrec := ih ((b :: rest).drop (DecodeRune (b :: rest)).2) (by
          rw [List.length_drop]
          simp only [List.length_cons] at hlen ⊢
          omega) hv'
        by_cases hc : (DecodeRune (b :: rest)).1 = 8232 ∨ (DecodeRune (b :: rest)).1 = 8233
        · have hpre : str "\\u202" = [92, 117, 50, 48, 50] := by decide
          have hval : hexValue 50 * 4096 + hexValue 48 * 256 + hexValue 50 * 16
              + hexValue (hextable.getD ((DecodeRune (b :: rest)).1 % 16) 0)
              = (DecodeRune (b :: rest)).1 := by
            rw [hexValue_hextable _ (Nat.mod_lt _ (by norm_num))]
            have h0 : hexValue 48 = 0 := by decide
            have h2 : hexValue 50 = 2 := by decide
            rw [h0, h2]
            omega
          simp only [appendStringBody, if_neg hb, if_neg hok, if_pos hc, hpre, List.append_assoc,
            List.cons_append, List.nil_append]
          rw [unquoteBody_u (by decide) (by decide) (by decide)
            (isHexDigit_hextable _ (Nat.mod_lt _ (by norm_num))) (by rw [hval]; omega), hval,
            hrec, ← DecodeRune_separator hb' hok hc]
          simp only [Option.map_some', List.take_append_drop]
        · simp only [appendStringBody, if_neg hb, if_neg hok, if_neg hc, List.append_assoc]
          rw [unquoteBody_copy_high _ _ hhigh, hrec]
          simp only [Option.map_some', List.take_append_drop]

theorem unquoteBody_jsonString (s t : List UInt8) (hv : ValidString s = true) :
    unquoteBody (appendStringBody s.length s ++ 34 :: t) = some (s, t) :=
  unquoteBody_appendStringBody s.length s t (Nat.le_refl _) hv

theorem isDigit_digit (n : Nat) (h : n < 10) : isDigit (UInt8.ofNat (48 + n)) = true := by
  simp only [isDigit, toNat_digit n h, decide_eq_true_eq]
  omega

theorem isDigit_decimal (fuel n : Nat) : ∀ c ∈ decimal fuel n, isDigit c = true := by
  induction fuel generalizing n with
  | zero => intro c hc; simp [decimal] at hc
  | succ fuel ih =>
    intro c hc
    unfold decimal at hc
    split_ifs at hc with h10
    · rw [List.mem_singleton.mp hc]
      exact isDigit_digit n h10
    · rcases List.mem_append.mp hc with h | h
      · exact ih _ c h
      · rw [List.mem_singleton.mp h]
        exact isDigit_digit _ (Nat.mod_lt _ (by norm_num))

theorem takeWhile_append_stop {p : UInt8 → Bool} (ds t : List UInt8) (hds : ∀ c ∈ ds, p c = true)
    (ht : ∀ c rest, t = c :: rest → p c = false) :
    (ds ++ t).takeWhile p = ds ∧ (ds ++ t).dropWhile p = t := by
  induction ds with
  | nil =>
    cases t with
    | nil => exact ⟨rfl, rfl⟩
    | cons c rest =>
      have hc := ht c rest rfl
      simp [List.takeWhile, List.dropWhile, hc]
  | cons d ds ih =>
    have hd := hds d (List.mem_cons_self _ _)
    obtain ⟨h₁, h₂⟩ := ih (fun c hc => hds c (List.mem_cons_of_mem _ hc))
    simp [List.takeWhile, List.dropWhile, hd, h₁, h₂]

/-- The decimal numeral `fmt` writes, followed by a text that starts with no digit, is read
back as the integer it writes. -/
theorem decodeNumber_formatInt (i : Int) (t : List UInt8)
    (ht : ∀ c rest, t = c :: rest → isDigit c = false) :
    decodeNumber (formatInt i ++ t) = some (i, t) := by
  cases i with
  | ofNat n =>
    obtain ⟨c, rest, hc, h48⟩ := decimal_head n n
    have hne : c ≠ 45 := by
      rintro rfl
      exact absurd h48 (by decide)
    obtain ⟨h₁, h₂⟩ := takeWhile_append_stop (p := isDigit) (decimal (n + 1) n) t
      (isDigit_decimal _ _) ht
    have hhead : (formatInt (Int.ofNat n) ++ t).head? ≠ some 45 := by
      simp only [formatInt, hc, List.cons_append, List.head?_cons]
      intro h
      exact hne (Option.some.inj h)
    have hnil : decimal (n + 1) n ≠ [] := by
      rw [hc]
      simp
    rw [decodeNumber]
    simp only [if_neg hhead]
    simp only [formatInt, h₁, h₂, if_neg hnil, parseNat_decimal (n + 1) n (by omega)]
    rfl
  | negSucc n =>
    obtain ⟨c, rest, hc, h48⟩ := decimal_head (n + 1) (n + 1)
    obtain ⟨h₁, h₂⟩ := takeWhile_append_stop (p := isDigit) (decimal (n + 2) (n + 1)) t
      (isDigit_decimal _ _) ht
    have hnil : decimal (n + 2) (n + 1) ≠ [] := by
      rw [hc]
      simp
    rw [decodeNumber]
    simp only [formatInt, List.cons_append, List.head?_cons, if_true, List.tail_cons, h₁, h₂,
      if_neg hnil, parseNat_decimal (n + 2) (n + 1) (by omega)]
    rfl

theorem decodeValue_string (s t : List UInt8) (hv : ValidString s = true) :
    decodeValue (34 :: (appendStringBody s.length s ++ 34 :: t))
      = some (JSONValue.string s, t) := by
  rw [decodeValue, if_pos rfl, unquoteBody_jsonString s t hv]
  rfl

theorem formatInt_head (i : Int) : ∃ c rest, formatInt i = c :: rest ∧ c ≠ 34 := by
  cases i with
  | ofNat n =>
    obtain ⟨c, rest, hc, h48⟩ := decimal_head n n
    refine ⟨c, rest, hc, ?_⟩
    rintro rfl
    exact absurd h48 (by decide)
  | negSucc n => exact ⟨45, _, rfl, by decide⟩

theorem decodeValue_number (i : Int) (t : List UInt8)
    (ht : ∀ c rest, t = c :: rest → isDigit c = false) :
    decodeValue (formatInt i ++ t) = some (JSONValue.number i, t) := by
  obtain ⟨c, rest, hc, hne⟩ := formatInt_head i
  have h := decodeNumber_formatInt i t ht
  rw [hc] at h ⊢
  rw [List.cons_append] at h ⊢
  rw [decodeValue, if_neg hne, h]
  rfl

/-- One member `"name":value` of an object, followed by a comma. -/
theorem decodeMembers_cons (fuel : Nat) (name vtext t : List UInt8) (v : JSONValue)
    (hname : appendStringBody name.length name = name) (hvalid : ValidString name = true)
    (hv : decodeValue (vtext ++ 44 :: t) = some (v, 44 :: t)) :
    decodeMembers (fuel + 1) (34 :: (name ++ 34 :: 58 :: (vtext ++ 44 :: t)))
      = (decodeMembers fuel t).map fun ms => (name, v) :: ms := by
  have hq := unquoteBody_jsonString name (58 :: (vtext ++ 44 :: t)) hvalid
  rw [hname] at hq
  have h₁ : ¬ ((44 : UInt8) = 125 ∧ t = []) := fun h => absurd h.1 (by decide)
  rw [decodeMembers, if_pos rfl, hq]
  simp only [if_true, hv, if_neg h₁]

/-- The last member of an object, followed by the closing brace. -/
theorem decodeMembers_last (fuel : Nat) (name vtext : List UInt8) (v : JSONValue)
    (hname : appendStringBody name.length name = name) (hvalid : ValidString name = true)
    (hv : decodeValue (vtext ++ [125]) = some (v, [125])) :
    decodeMembers (fuel + 1) (34 :: (name ++ 34 :: 58 :: (vtext ++ [125])))
      = some [(name, v)] := by
  have hq := unquoteBody_jsonString name (58 :: (vtext ++ [125])) hvalid
  rw [hname] at hq
  rw [decodeMembers, if_pos rfl, hq]
  simp only [if_true, hv, and_self]

theorem marshalAuth_eq (accessKey : GoString) (timestamp : Int) (signature : GoString) :
    marshalAuth accessKey timestamp signature
      = 123 :: 34 :: (str "access_key" ++ 34 :: 58 :: ((34 :: (appendStringBody accessKey.length
          accessKey ++ [34])) ++ 44 :: 34 :: (str "signature" ++ 34 :: 58 ::
          ((34 :: (appendStringBody signature.length signature ++ [34])) ++ 44 :: 34 ::
          (str "timestamp" ++ 34 :: 58 :: (formatInt timestamp ++ 44 :: 34 ::
          (str "version" ++ 34 :: 58 :: (formatInt 1 ++ [125])))))))) := by
  have h₁ : str "\x7b\"access_key\":" = 123 :: 34 :: (str "access_key" ++ [34, 58]) := by decide
  have h₂ : str ",\"signature\":" = 44 :: 34 :: (str "signature" ++ [34, 58]) := by decide
  have h₃ : str ",\"timestamp\":" = 44 :: 34 :: (str "timestamp" ++ [34, 58]) := by decide
  have h₄ : str ",\"version\":1\x7d" = 44 :: 34 :: (str "version" ++ 34 :: 58 :: (formatInt 1 ++ [125])) := by
    decide
  rw [marshalAuth, h₁, h₂, h₃, h₄, jsonString, jsonString]
  simp only [List.cons_append, List.append_assoc, List.nil_append, List.singleton_append]

theorem decodeValue_string_append (s t : List UInt8) (hv : ValidString s = true) :
    decodeValue ((34 :: (appendStringBody s.length s ++ [34])) ++ t)
      = some (JSONValue.string s, t) := by
  have h := decodeValue_string s t hv
  simpa only [List.cons_append, List.append_assoc, List.singleton_append] using h

theorem isDigit_comma (t : List UInt8) (c : UInt8) (rest : List UInt8)
    (h : (44 : UInt8) :: t = c :: rest) : isDigit c = false := by
  rw [← (List.cons.inj h).1]
  decide

theorem isDigit_brace (c : UInt8) (rest : List UInt8) (h : [(125 : UInt8)] = c :: rest) :
    isDigit c = false := by
  rw [← (List.cons.inj h).1]
  decide

/-- Decoding the JSON text of the map `auth` gives back its four fields, for an access key
and a signature that are well-formed UTF-8. -/
theorem jsonDecodeObject_marshalAuth (accessKey : GoString) (timestamp : Int)
    (signature : GoString) (hak : ValidString accessKey = true)
    (hsig : ValidString signature = true) :
    jsonDecodeObject (marshalAuth accessKey timestamp signature)
      = some [(str "access_key", JSONValue.string accessKey),
          (str "signature", JSONValue.string signature),
          (str "timestamp", JSONValue.number timestamp),
          (str "version", JSONValue.number 1)] := by
  rw [marshalAuth_eq, jsonDecodeObject, if_pos rfl]
  rw [if_neg (by
    intro h
    have h₁ := congrArg List.length h
    simp only [List.length_cons, List.length_append, List.length_nil] at h₁
    omega)]
  generalize hlen : List.length _ = n
  obtain ⟨k, rfl⟩ : ∃ k, n = k + 4 := ⟨n - 4, by
    simp only [List.length_cons, List.length_append, List.length_nil] at hlen
    omega⟩
  rw [decodeMembers_cons (k + 3) (str "access_key") _ _ _ (by decide) (by decide)
      (decodeValue_string_append accessKey _ hak),
    decodeMembers_cons (k + 2) (str "signature") _ _ _ (by decide) (by decide)
      (decodeValue_string_append signature _ hsig),
    decodeMembers_cons (k + 1) (str "timestamp") _ _ _ (by decide) (by decide)
      (decodeValue_number timestamp _ (isDigit_comma _)),
    decodeMembers_last k (str "version") _ _ (by decide) (by decide)
      (decodeValue_number 1 _ isDigit_brace)]
  rfl

/-- What `request` hands to the HTTP client: nothing, or the one request it built after a
successful call of `sign`, and then its results are those of the client. -/
theorem request_sent (c : Client) (env : Env) (method path : GoString)
    (queryParams : Option QueryMap) (data : Option (Except GoString (List UInt8))) :
    (request c env method path queryParams data).sent = []
    ∨ ∃ url : URL,
        env.NewRequest method (path ++ str "?" ++ QueryMap.Encode queryParams) = Except.ok url
        ∧ (sign c env.now method url.Path (signedHeader url.Host) queryParams
            (payloadBody data)).err = none
        ∧ (request c env method path queryParams data).signed
            = some ⟨env.now, method, url.Path, signedHeader url.Host, queryParams,
                payloadBody data⟩
        ∧ (request c env method path queryParams data).sent
            = [⟨if method = [] then str "GET" else method, url,
                Header.Set (signedHeader url.Host) (str "Authorization")
                  (authToken c env.now (sign c env.now method url.Path (signedHeader url.Host)
                    queryParams (payloadBody data)).signature),
                (payloadBody data).getD []⟩]
        ∧ (request c env method path queryParams data).outcome
            = match env.Do ⟨if method = [] then str "GET" else method, url,
                Header.Set (signedHeader url.Host) (str "Authorization")
                  (authToken c env.now (sign c env.now method url.Path (signedHeader url.Host)
                    queryParams (payloadBody data)).signature),
                (payloadBody data).getD []⟩ with
              | Except.error err => Outcome.returned 0 none (some err)
              | Except.ok resp =>
                match resp.Body with
                | Except.error err => Outcome.returned 0 none (some err)
                | Except.ok respBody => Outcome.returned resp.StatusCode (some respBody) none := by
  unfold request
  rcases data with _ | (e | b)
  · simp only []
    split
    · exact Or.inl rfl
    · rename_i url hurl
      split
      · exact Or.inl rfl
      · split
        · exact Or.inl rfl
        · rename_i herr
          refine Or.inr ⟨url, hurl, herr, ?_, ?_, ?_⟩
          · split
            · rfl
            · split <;> rfl
          · split
            · rfl
            · split <;> rfl
          · simp only [signedHeader, authToken, payloadBody]
            generalize env.Do _ = r
            cases r with
            | error err => rfl
            | ok resp =>
              simp only []
              generalize resp.Body = respBody
              cases respBody <;> rfl
  · exact Or.inl rfl
  · simp only []
    split
    · exact Or.inl rfl
    · rename_i url hurl
      split
      · exact Or.inl rfl
      · split
        · exact Or.inl rfl
        · rename_i herr
          refine Or.inr ⟨url, hurl, herr, ?_, ?_, ?_⟩
          · split
            · rfl
            · split <;> rfl
          · split
            · rfl
            · split <;> rfl
          · simp only [signedHeader, authToken, payloadBody]
            generalize env.Do _ = r
            cases r with
            | error err => rfl
            | ok resp =>
              simp only []
              generalize resp.Body = respBody
              cases respBody <;> rfl

/-- When `request` calls `sign`, it is with the clock's timestamp, the method, the parsed
path, the headers `Content-Type` and `Host`, the query map and the marshalled payload; if
that call fails, `request` returns its error and hands nothing to the HTTP client. -/
theorem request_signed (c : Client) (env : Env) (method path : GoString)
    (queryParams : Option QueryMap) (data : Option (Except GoString (List UInt8)))
    (input : SigningInput)
    (h : (request c env method path queryParams data).signed = some input) :
    ∃ url : URL,
      env.NewRequest method (path ++ str "?" ++ QueryMap.Encode queryParams) = Except.ok url
      ∧ input = ⟨env.now, method, url.Path, signedHeader url.Host, queryParams,
          payloadBody data⟩
      ∧ ∀ err, (sign c env.now method url.Path (signedHeader url.Host) queryParams
            (payloadBody data)).err = some err →
          (request c env method path queryParams data).outcome
              = Outcome.returned 0 none (some err)
          ∧ (request c env method path queryParams data).sent = [] := by
  unfold request at h ⊢
  rcases data with _ | (e | b)
  · simp only [] at h ⊢
    split at h
    · exact absurd h (by simp)
    · rename_i url hurl
      simp only [hurl]
      split at h
      · exact absurd h (by simp)
      · rename_i hlen
        rw [if_neg hlen]
        refine ⟨url, rfl, ?_, ?_⟩
        · split at h
          · exact (Option.some.inj h).symm
          · split at h
            · exact (Option.some.inj h).symm
            · split at h <;> exact (Option.some.inj h).symm
        · intro err herr
          simp only [signedHeader, payloadBody] at herr
          simp only [herr, and_self]
  · exact absurd h (by simp)
  · simp only [] at h ⊢
    split at h
    · exact absurd h (by simp)
    · rename_i url hurl
      simp only [hurl]
      split at h
      · exact absurd h (by simp)
      · rename_i hlen
        rw [if_neg hlen]
        refine ⟨url, rfl, ?_, ?_⟩
        · split at h
          · exact (Option.some.inj h).symm
          · split at h
            · exact (Option.some.inj h).symm
            · split at h <;> exact (Option.some.inj h).symm
        · intro err herr
          simp only [signedHeader, payloadBody] at herr
          simp only [herr, and_self]

/-- A payload that cannot be marshalled and a request that cannot be built end the call
with the error, before anything is printed, signed or sent. -/
theorem request_early_error (c : Client) (env : Env) (method path : GoString)
    (queryParams : Option QueryMap) (data : Option (Except GoString (List UInt8))) :
    (∀ err, data = some (Except.error err) →
      request c env method path queryParams data
        = ⟨Outcome.returned 0 none (some err), [], none, [], queryParams⟩)
    ∧ (∀ err, (∀ e, data ≠ some (Except.error e)) →
        env.NewRequest method (path ++ str "?" ++ QueryMap.Encode queryParams) = Except.error err →
        request c env method path queryParams data
          = ⟨Outcome.returned 0 none (some err), [], none, [], queryParams⟩) := by
  constructor
  · rintro err rfl
    rfl
  · intro err hdata hurl
    unfold request
    rcases data with _ | (e | b)
    · simp only [hurl]
    · exact absurd rfl (hdata e)
    · simp only [hurl]

theorem signedHeader_eq (host : GoString) :
    signedHeader host
      = [(str "Content-Type", [str "application/json"]), (str "Host", [host])] := by
  have h₁ : CanonicalMIMEHeaderKey (str "Content-Type") = str "Content-Type" := by decide
  have h₂ : CanonicalMIMEHeaderKey (str "Host") = str "Host" := by decide
  have h₃ : ¬ str "Content-Type" = str "Host" := by decide
  simp only [signedHeader, Header.Set, h₁, h₂, Values.assign, if_neg h₃]

theorem authorizedHeader_eq (host token : GoString) :
    Header.Set (signedHeader host) (str "Authorization") token
      = [(str "Content-Type", [str "application/json"]), (str "Host", [host]),
          (str "Authorization", [token])] := by
  have h₁ : CanonicalMIMEHeaderKey (str "Authorization") = str "Authorization" := by decide
  have h₂ : ¬ str "Content-Type" = str "Authorization" := by decide
  have h₃ : ¬ str "Host" = str "Authorization" := by decide
  rw [signedHeader_eq]
  simp only [Header.Set, h₁, Values.assign, if_neg h₂, if_neg h₃]

theorem get_authorizedHeader (host token : GoString) :
    Values.get (Header.Set (signedHeader host) (str "Authorization") token) (str "Content-Type")
        = [str "application/json"]
    ∧ Values.get (Header.Set (signedHeader host) (str "Authorization") token)
        (str "Authorization") = [token] := by
  have h₂ : ¬ str "Content-Type" = str "Authorization" := by decide
  have h₃ : ¬ str "Host" = str "Authorization" := by decide
  rw [authorizedHeader_eq]
  simp only [Values.get, if_true, if_neg h₂, if_neg h₃, and_self]

theorem validBody_ascii (fuel : Nat) (s : List UInt8) (hlen : s.length ≤ fuel)
    (hs : ∀ c ∈ s, c.toNat < 128) : validBody fuel s = true := by
  induction fuel generalizing s with
  | zero =>
    have h : s = [] := List.length_eq_zero.mp (by omega)
    subst h
    rfl
  | succ fuel ih =>
    cases s with
    | nil => rfl
    | cons b rest =>
      have hb : b.toNat < 128 := hs b (List.mem_cons_self _ _)
      have hne : ¬ (b.toNat = RuneError ∧ True) := by
        intro h
        have h₁ : b.toNat = 65533 := h.1
        omega
      simp only [validBody, DecodeRune_ascii rest hb, List.drop_succ_cons, List.drop_zero]
      rw [if_neg (by simpa using hne)]
      exact ih rest (by simpa using hlen) (fun c hc => hs c (List.mem_cons_of_mem _ hc))

/-- A signature, being hexadecimal, is well-formed UTF-8. -/
theorem ValidString_hexEncode (bs : List UInt8) : ValidString (hexEncode bs) = true := by
  apply validBody_ascii _ _ (Nat.le_refl _)
  intro c hc
  have h := hexEncode_lowerHex bs c hc
  simp only [isLowerHex, decide_eq_true_eq] at h
  omega

theorem ValidString_signature (c : Client) (timestamp : Int) (method path : GoString)
    (headers : Header) (queryParams : Option QueryMap) (body : Option (List UInt8)) :
    ValidString (sign c timestamp method path headers queryParams body).signature = true := by
  rw [sign_eq]
  split_ifs
  · rfl
  · exact ValidString_hexEncode _

/-- The token is read back as the four fields it was made of. -/
theorem decodeToken_authToken (c : Client) (timestamp : Int) (signature : GoString)
    (hak : ValidString c.AccessKey = true) (hsig : ValidString signature = true) :
    decodeToken (authToken c timestamp signature)
      = some [(str "access_key", JSONValue.string c.AccessKey),
          (str "signature", JSONValue.string signature),
          (str "timestamp", JSONValue.number timestamp),
          (str "version", JSONValue.number 1)] := by
  rw [decodeToken, authToken, base64Decode_base64Encode]
  exact jsonDecodeObject_marshalAuth _ _ _ hak hsig

/-! ## The authenticated request -/

/-- C15, as the code has it: `json.Marshal` writes a byte that is not part of well-formed
UTF-8 as the replacement character.  For the access key made of the single byte `0xFF`
the field `access_key` of the decoded token is U+FFFD (the bytes `EF BF BD`), not the
access key, and the access key made of the byte `0xFE` gives the very same request. -/
theorem authorization_token_loses_invalid_access_key :
    ((request ⟨[], [255], str "0123456789abcdefghijKLMNOPQRST"⟩ exampleEnv (str "GET")
        (str "https://juicefs.com/api/v1/regions") none none).sent.map fun req =>
      (Values.get req.Header (str "Authorization")).map fun token =>
        (decodeToken token).map fun fields => fields.lookup (str "access_key"))
      = [[some (some (JSONValue.string [239, 191, 189]))]]
    ∧ JSONValue.string [239, 191, 189] ≠ JSONValue.string [255]
    ∧ (request ⟨[], [255], str "0123456789abcdefghijKLMNOPQRST"⟩ exampleEnv (str "GET")
        (str "https://juicefs.com/api/v1/regions") none none).sent
      = (request ⟨[], [254], str "0123456789abcdefghijKLMNOPQRST"⟩ exampleEnv (str "GET")
        (str "https://juicefs.com/api/v1/regions") none none).sent :=
  ⟨by decide!, by decide, by decide!⟩

/-- C15, amended. Round-trip token: for every request handed to the HTTP client by a
client whose access key is well-formed UTF-8, the value of the header `Authorization` is
the standard padded base64 encoding of the JSON object `json.Marshal` makes of the map
`auth`, and base64-decoding then JSON-decoding it yields exactly the four fields
`access_key`, the client's access key, `signature`, the value `sign` returned,
`timestamp`, the timestamp passed to `sign`, and `version`, 1. -/
theorem authorization_token_round_trip (c : Client) (env : Env) (method path : GoString)
    (queryParams : Option QueryMap) (data : Option (Except GoString (List UInt8)))
    (hak : ValidString c.AccessKey = true) :
    ∀ req ∈ (request c env method path queryParams data).sent,
      ∃ (input : SigningInput) (token : GoString),
        (request c env method path queryParams data).signed = some input
        ∧ Values.get req.Header (str "Authorization") = [token]
        ∧ token = base64Encode (marshalAuth c.AccessKey input.timestamp
            (sign c input.timestamp input.method input.path input.headers input.queryParams
              input.body).signature)
        ∧ decodeToken token
            = some [(str "access_key", JSONValue.string c.AccessKey),
                (str "signature", JSONValue.string (sign c input.timestamp input.method
                  input.path input.headers input.queryParams input.body).signature),
                (str "timestamp", JSONValue.number input.timestamp),
                (str "version", JSONValue.number 1)] := by
  intro req hreq
  rcases request_sent c env method path queryParams data with hnil | ⟨url, -, -, hsigned,
    hsent, -⟩
  · rw [hnil] at hreq
    exact absurd hreq (List.not_mem_nil _)
  · rw [hsent] at hreq
    rw [List.mem_singleton.mp hreq]
    exact ⟨_, _, hsigned, (get_authorizedHeader _ _).2, rfl,
      decodeToken_authToken c _ _ hak (ValidString_signature _ _ _ _ _ _ _)⟩

/-- The token of the request for the regions, read back. -/
theorem authorization_token_round_trip_witness :
    (request exampleClient exampleEnv (str "GET") (str "https://juicefs.com/api/v1/regions")
      none none).sent.length = 1
    ∧ ∀ req ∈ (request exampleClient exampleEnv (str "GET")
          (str "https://juicefs.com/api/v1/regions") none none).sent,
        ∃ (input : SigningInput) (token : GoString),
          (request exampleClient exampleEnv (str "GET")
            (str "https://juicefs.com/api/v1/regions") none none).signed = some input
          ∧ Values.get req.Header (str "Authorization") = [token]
          ∧ token = base64Encode (marshalAuth exampleClient.AccessKey input.timestamp
              (sign exampleClient input.timestamp input.method input.path input.headers
                input.queryParams input.body).signature)
          ∧ decodeToken token
              = some [(str "access_key", JSONValue.string exampleClient.AccessKey),
                  (str "signature", JSONValue.string (sign exampleClient input.timestamp
                    input.method input.path input.headers input.queryParams
                    input.body).signature),
                  (str "timestamp", JSONValue.number input.timestamp),
                  (str "version", JSONValue.number 1)] :=
  ⟨by decide!, authorization_token_round_trip exampleClient exampleEnv (str "GET")
    (str "https://juicefs.com/api/v1/regions") none none (by decide)⟩

/-- C16. Every request that `request` hands to the HTTP client, in particular every one
that carries a payload, has the header `Content-Type` with the single value
`application/json`; its body is the marshalled payload. -/
theorem content_type_is_json (c : Client) (env : Env) (method path : GoString)
    (queryParams : Option QueryMap) (data : Option (Except GoString (List UInt8))) :
    (∀ req ∈ (request c env method path queryParams data).sent,
      Values.get req.Header (str "Content-Type") = [str "application/json"])
    ∧ ∀ payload, data = some (Except.ok payload) →
        ∀ req ∈ (request c env method path queryParams data).sent,
          Values.get req.Header (str "Content-Type") = [str "application/json"]
          ∧ req.Body = payload := by
  have hall : ∀ req ∈ (request c env method path queryParams data).sent,
      Values.get req.Header (str "Content-Type") = [str "application/json"]
      ∧ req.Body = (payloadBody data).getD [] := by
    intro req hreq
    rcases request_sent c env method path queryParams data with hnil | ⟨url, -, -, -, hsent, -⟩
    · rw [hnil] at hreq
      exact absurd hreq (List.not_mem_nil _)
    · rw [hsent] at hreq
      rw [List.mem_singleton.mp hreq]
      exact ⟨(get_authorizedHeader _ _).1, rfl⟩
  refine ⟨fun req hreq => (hall req hreq).1, ?_⟩
  rintro payload rfl req hreq
  exact hall req hreq

/-- A `POST` with the payload `{"name":"v"}`: one request is sent, with the header. -/
theorem content_type_is_json_witness :
    (request exampleClient exampleEnv (str "POST") (str "https://juicefs.com/api/v1/regions")
      none (some (Except.ok (str "\x7b\"name\":\"v\"\x7d")))).sent.length = 1
    ∧ ∀ req ∈ (request exampleClient exampleEnv (str "POST")
          (str "https://juicefs.com/api/v1/regions") none
          (some (Except.ok (str "\x7b\"name\":\"v\"\x7d")))).sent,
        Values.get req.Header (str "Content-Type") = [str "application/json"]
        ∧ req.Body = str "\x7b\"name\":\"v\"\x7d" :=
  ⟨by decide!, (content_type_is_json exampleClient exampleEnv (str "POST")
    (str "https://juicefs.com/api/v1/regions") none
    (some (Except.ok (str "\x7b\"name\":\"v\"\x7d")))).2 _ rfl⟩

/-- C17. The executor does not interpret status codes: whenever the HTTP client answers the
request and the reading of the response body succeeds, `request` returns the status code
of the response, whatever it is, and the bytes of its body, with a nil error. -/
theorem request_returns_response (c : Client) (env : Env) (method path : GoString)
    (queryParams : Option QueryMap) (data : Option (Except GoString (List UInt8)))
    (req : Request) (resp : Response) (respBody : List UInt8)
    (hsent : req ∈ (request c env method path queryParams data).sent)
    (hdo : env.Do req = Except.ok resp) (hread : resp.Body = Except.ok respBody) :
    (request c env method path queryParams data).outcome
      = Outcome.returned resp.StatusCode (some respBody) none := by
  rcases request_sent c env method path queryParams data with hnil | ⟨url, -, -, -, hsent',
    hout⟩
  · rw [hnil] at hsent
    exact absurd hsent (List.not_mem_nil _)
  · rw [hsent'] at hsent
    rw [← List.mem_singleton.mp hsent, hdo] at hout
    simp only [hread] at hout
    exact hout

/-- A server that answers 503: `request` returns the 503 and the body, no error. -/
theorem request_returns_response_witness :
    (request exampleClient
      ⟨1700000000, exampleEnv.NewRequest,
        fun _ => Except.ok ⟨503, Except.ok (str "unavailable")⟩⟩
      (str "GET") (str "https://juicefs.com/api/v1/regions") none none).outcome
      = Outcome.returned 503 (some (str "unavailable")) none := by
  have hne : (request exampleClient
      ⟨1700000000, exampleEnv.NewRequest,
        fun _ => Except.ok ⟨503, Except.ok (str "unavailable")⟩⟩
      (str "GET") (str "https://juicefs.com/api/v1/regions") none none).sent ≠ [] := by
    decide!
  obtain ⟨req, rest, hreq⟩ := List.exists_cons_of_ne_nil hne
  exact request_returns_response exampleClient _ (str "GET")
    (str "https://juicefs.com/api/v1/regions") none none req
    ⟨503, Except.ok (str "unavailable")⟩ (str "unavailable")
    (by rw [hreq]; exact List.mem_cons_self _ _) rfl rfl

/-- C18. Errors are surfaced, not retried: when the marshalling of the payload, the
construction of the request or the call of `sign` fails, `request` returns that error
with the status code 0 and a nil body and hands nothing to the HTTP client; and in every
execution the HTTP client is called at most once. -/
theorem request_surfaces_errors (c : Client) (env : Env) (method path : GoString)
    (queryParams : Option QueryMap) (data : Option (Except GoString (List UInt8))) :
    (∀ err, data = some (Except.error err) →
      (request c env method path queryParams data).outcome = Outcome.returned 0 none (some err)
      ∧ (request c env method path queryParams data).sent = [])
    ∧ (∀ err, (∀ e, data ≠ some (Except.error e)) →
        env.NewRequest method (path ++ str "?" ++ QueryMap.Encode queryParams) = Except.error err →
        (request c env method path queryParams data).outcome
            = Outcome.returned 0 none (some err)
        ∧ (request c env method path queryParams data).sent = [])
    ∧ (∀ input err, (request c env method path queryParams data).signed = some input →
        (sign c input.timestamp input.method input.path input.headers input.queryParams
          input.body).err = some err →
        (request c env method path queryParams data).outcome
            = Outcome.returned 0 none (some err)
        ∧ (request c env method path queryParams data).sent = [])
    ∧ (request c env method path queryParams data).sent.length ≤ 1 := by
  refine ⟨fun err h => ?_, fun err hdata hurl => ?_, fun input err hsigned herr => ?_, ?_⟩
  · rw [(request_early_error c env method path queryParams data).1 err h]
    exact ⟨rfl, rfl⟩
  · rw [(request_early_error c env method path queryParams data).2 err hdata hurl]
    exact ⟨rfl, rfl⟩
  · obtain ⟨url, -, rfl, hfail⟩ := request_signed c env method path queryParams data input
      hsigned
    exact hfail err herr
  · rcases request_sent c env method path queryParams data with hnil | ⟨url, -, -, -, hsent, -⟩
    · rw [hnil]
      exact Nat.zero_le _
    · rw [hsent]
      exact Nat.le_refl _

/-- A payload that cannot be marshalled, and a request without a host: each error is
returned and nothing is sent. -/
theorem request_surfaces_errors_witness :
    ((request exampleClient exampleEnv (str "POST") (str "https://juicefs.com/api/v1/regions")
        none (some (Except.error (str "json: unsupported type")))).outcome
        = Outcome.returned 0 none (some (str "json: unsupported type"))
      ∧ (request exampleClient exampleEnv (str "POST")
          (str "https://juicefs.com/api/v1/regions") none
          (some (Except.error (str "json: unsupported type")))).sent = [])
    ∧ ((request exampleClient
          ⟨1700000000, fun _ _ => Except.ok ⟨str "/api/v1/regions", [], []⟩, exampleEnv.Do⟩
          (str "GET") (str "/api/v1/regions") none none).outcome
        = Outcome.returned 0 none (some (str "header Host is required"))
      ∧ (request exampleClient
          ⟨1700000000, fun _ _ => Except.ok ⟨str "/api/v1/regions", [], []⟩, exampleEnv.Do⟩
          (str "GET") (str "/api/v1/regions") none none).sent = []) :=
  ⟨(request_surfaces_errors exampleClient exampleEnv (str "POST")
      (str "https://juicefs.com/api/v1/regions") none
      (some (Except.error (str "json: unsupported type")))).1 _ rfl,
    (request_surfaces_errors exampleClient
      ⟨1700000000, fun _ _ => Except.ok ⟨str "/api/v1/regions", [], []⟩, exampleEnv.Do⟩
      (str "GET") (str "/api/v1/regions") none none).2.2.1
      ⟨1700000000, str "GET", str "/api/v1/regions", signedHeader [], none, none⟩ _
      (by decide) (by decide)⟩

/-- C19, at a short key: the preview `SecretKey[:10]...SecretKey[len-10:]` that `request`
prints shows a secret key of 10 to 20 bytes in full.  For the key `0123456789` the first
printed line is `secret_key: 0123456789...0123456789`, for the key
`0123456789abcdefghij` it is `secret_key: 0123456789...abcdefghij`. -/
theorem request_prints_short_secret_key_in_full :
    (request ⟨[], str "AK1", str "0123456789"⟩ exampleEnv (str "GET")
        (str "https://juicefs.com/api/v1/regions") none none).printed.head?
      = some (str "secret_key: 0123456789...0123456789\n")
    ∧ (request ⟨[], str "AK1", str "0123456789abcdefghij"⟩ exampleEnv (str "GET")
        (str "https://juicefs.com/api/v1/regions") none none).printed.head?
      = some (str "secret_key: 0123456789...abcdefghij\n") :=
  ⟨by decide!, by decide!⟩

/-- The first line `request` prints, for a secret key of 10 bytes or more: ten bytes from
the start and ten from the end.  Up to 20 bytes these cover the key. -/
theorem request_printed_head (c : Client) (env : Env) (method path : GoString)
    (queryParams : Option QueryMap) (data : Option (Except GoString (List UInt8)))
    (line : GoString)
    (h : (request c env method path queryParams data).printed.head? = some line) :
    line = str "secret_key: " ++ c.SecretKey.take 10 ++ str "..."
        ++ c.SecretKey.drop (c.SecretKey.length - 10) ++ str "\n"
    ∧ (c.SecretKey.length ≤ 20 →
        c.SecretKey.take 10
          ++ (c.SecretKey.drop (c.SecretKey.length - 10)).drop (20 - c.SecretKey.length)
          = c.SecretKey) := by
  have hlen : 10 ≤ c.SecretKey.length := by
    by_contra hlt
    unfold request at h
    rcases data with _ | (e | b)
    · simp only [] at h
      split at h
      · exact absurd h (by simp)
      · rw [if_pos (by omega)] at h
        exact absurd h (by simp)
    · exact absurd h (by simp)
    · simp only [] at h
      split at h
      · exact absurd h (by simp)
      · rw [if_pos (by omega)] at h
        exact absurd h (by simp)
  constructor
  · unfold request at h
    rcases data with _ | (e | b)
    · simp only [] at h
      split at h
      · exact absurd h (by simp)
      · rw [if_neg (by omega)] at h
        split at h
        · exact (Option.some.inj h).symm
        · split at h
          · exact (Option.some.inj h).symm
          · split at h <;> exact (Option.some.inj h).symm
    · exact absurd h (by simp)
    · simp only [] at h
      split at h
      · exact absurd h (by simp)
      · rw [if_neg (by omega)] at h
        split at h
        · exact (Option.some.inj h).symm
        · split at h
          · exact (Option.some.inj h).symm
          · split at h <;> exact (Option.some.inj h).symm
  · intro h20
    rw [List.drop_drop]
    have h10 : c.SecretKey.length - 10 + (20 - c.SecretKey.length) = 10 := by omega
    rw [h10, List.take_append_drop]

/-- C20. Absence of payload means no body: with a nil payload `sign` is called with an
absent body, so the payload-hash field of the string to sign is empty; with a payload the
body passed to `sign` is the JSON encoding of the payload, which is also the body of the
request handed to the HTTP client. -/
theorem request_body_to_sign (c : Client) (env : Env) (method path : GoString)
    (queryParams : Option QueryMap) :
    (∀ input, (request c env method path queryParams none).signed = some input →
      input.body = none ∧ payloadHash input.body = [])
    ∧ ∀ payload input,
        (request c env method path queryParams (some (Except.ok payload))).signed = some input →
        input.body = some payload
        ∧ ∀ req ∈ (request c env method path queryParams (some (Except.ok payload))).sent,
            req.Body = payload := by
  constructor
  · intro input h
    obtain ⟨url, -, rfl, -⟩ := request_signed c env method path queryParams none input h
    exact ⟨rfl, rfl⟩
  · intro payload input h
    obtain ⟨url, -, rfl, -⟩ := request_signed c env method path queryParams _ input h
    refine ⟨rfl, fun req hreq => ?_⟩
    rcases request_sent c env method path queryParams (some (Except.ok payload)) with
      hnil | ⟨url₁, -, -, -, hsent, -⟩
    · rw [hnil] at hreq
      exact absurd hreq (List.not_mem_nil _)
    · rw [hsent] at hreq
      rw [List.mem_singleton.mp hreq]
      rfl

/-- A `GET` without payload and a `POST` with the payload `{"name":"v"}`: the bodies
`sign` is called with. -/
theorem request_body_to_sign_witness :
    ((request exampleClient exampleEnv (str "GET") (str "https://juicefs.com/api/v1/regions")
        none none).signed.map fun input => input.body) = some none
    ∧ ((request exampleClient exampleEnv (str "POST")
        (str "https://juicefs.com/api/v1/regions") none
        (some (Except.ok (str "\x7b\"name\":\"v\"\x7d")))).signed.map fun input => input.body)
      = some (some (str "\x7b\"name\":\"v\"\x7d")) := by
  have h₁ : (request exampleClient exampleEnv (str "GET")
      (str "https://juicefs.com/api/v1/regions") none none).signed
      = some ⟨1700000000, str "GET", str "/api/v1/regions", signedHeader (str "juicefs.com"),
          none, none⟩ := by decide
  have h₂ : (request exampleClient exampleEnv (str "POST")
      (str "https://juicefs.com/api/v1/regions") none
      (some (Except.ok (str "\x7b\"name\":\"v\"\x7d")))).signed
      = some ⟨1700000000, str "POST", str "/api/v1/regions", signedHeader (str "juicefs.com"),
          none, some (str "\x7b\"name\":\"v\"\x7d")⟩ := by decide
  have h := request_body_to_sign exampleClient exampleEnv (str "GET")
    (str "https://juicefs.com/api/v1/regions") none
  have h' := request_body_to_sign exampleClient exampleEnv (str "POST")
    (str "https://juicefs.com/api/v1/regions") none
  refine ⟨?_, ?_⟩
  · rw [h₁, Option.map_some', (h.1 _ h₁).1]
  · rw [h₂, Option.map_some', (h'.2 _ _ h₂).1]

/-! ## `http.NewRequest` on a path without authority -/

theorem getScheme_slash (t : GoString) : getScheme (47 :: t) = Except.ok ([], 47 :: t) := by
  unfold getScheme getSchemeLoop
  rw [if_neg (by decide), if_neg (by decide), if_neg (by decide)]

theorem splitQuery_slash (t : GoString) (ht : t.head? ≠ some 47) :
    ∃ t₁, (splitQuery (47 :: t)).1 = 47 :: t₁ ∧ t₁.head? ≠ some 47 := by
  unfold splitQuery
  split_ifs with h
  · cases t with
    | nil => simp at h
    | cons c t =>
      refine ⟨(c :: t).dropLast, by simp [List.dropLast], ?_⟩
      cases t with
      | nil => simp
      | cons d t => simpa [List.dropLast] using ht
  · refine ⟨t.takeWhile (fun c => c != 63), by simp [Cut, List.takeWhile], ?_⟩
    cases t with
    | nil => simp
    | cons c t =>
      simp only [List.takeWhile]
      split
      · simpa using ht
      · simp

theorem parseHierarchy_slash (t : GoString) (ht : t.head? ≠ some 47) (path host : GoString)
    (h : parseHierarchy [] (47 :: t) = Except.ok (path, host)) : host = [] := by
  have hpre : (str "//").isPrefixOf (47 :: t) = false := by
    cases t with
    | nil => rfl
    | cons c t =>
      have hc : c ≠ 47 := by simpa using ht
      have hs : str "//" = [47, 47] := by decide
      rw [hs]
      simp [List.isPrefixOf, Ne.symm hc]
  unfold parseHierarchy at h
  simp only [List.head?_cons, ne_eq, not_true_eq_false, false_and, if_false, hpre,
    Bool.false_eq_true, and_false] at h
  split at h
  · exact Except.noConfusion h
  · simp only [Except.ok.injEq, Prod.mk.injEq] at h
    exact h.2.symm

theorem ToLower_nil : ToLower [] = [] := rfl

theorem parse_slash (t : GoString) (ht : t.head? ≠ some 47) (u : URL)
    (h : parse (47 :: t) = Except.ok u) : u.Host = [] := by
  unfold parse at h
  split_ifs at h with h₁ h₂
  · have hs : str "*" = [42] := by decide
    rw [hs] at h₂
    simp at h₂
  · rw [getScheme_slash] at h
    obtain ⟨t₁, ht₁, hhead⟩ := splitQuery_slash t ht
    simp only [ToLower_nil, ht₁] at h
    split at h
    · exact Except.noConfusion h
    · rename_i path host heq
      simp only [Except.ok.injEq] at h
      subst h
      exact parseHierarchy_slash t₁ hhead path host heq

theorem Parse_host (rawURL : GoString) (u : URL) (h : Parse rawURL = Except.ok u) :
    parse (Cut rawURL 35).1 = Except.ok u := by
  unfold Parse at h
  split at h
  · exact Except.noConfusion h
  · rename_i u₁ heq
    split_ifs at h
    · rw [heq, h]
    · split at h
      · exact Except.noConfusion h
      · rw [heq, h]

theorem removeEmptyPort_nil : removeEmptyPort [] = [] := by decide

/-- The request `http.NewRequest` builds from a URL string that begins with `/` but not
with `//` has an empty host. -/
theorem NewRequest_host_of_slash (method : GoString) (t : GoString) (ht : t.head? ≠ some 47)
    (u : URL) (h : NewRequest method (47 :: t) = Except.ok u) : u.Host = [] := by
  unfold NewRequest at h
  generalize (if method = [] then str "GET" else method) = m at h
  split_ifs at h
  split at h
  · exact Except.noConfusion h
  · rename_i u₁ heq
    simp only [Except.ok.injEq] at h
    subst h
    have hp := Parse_host _ _ heq
    have hcut : (Cut (47 :: t) 35).1 = 47 :: t.takeWhile (fun c => c != 35) := by
      simp [Cut, List.takeWhile]
    rw [hcut] at hp
    have hhead : (t.takeWhile (fun c => c != 35)).head? ≠ some 47 := by
      cases t with
      | nil => simp
      | cons c t =>
        simp only [List.takeWhile]
        split
        · simpa using ht
        · simp
    simp only [parse_slash _ hhead u₁ hp, removeEmptyPort_nil]

theorem serverRelative_append (path rest : GoString) (h : serverRelative path = true)
    (hrest : rest.head? ≠ some 47) :
    ∃ t, path ++ rest = 47 :: t ∧ t.head? ≠ some 47 := by
  cases path with
  | nil => simp [serverRelative] at h
  | cons c p =>
    simp only [serverRelative, List.head?_cons, Option.some.injEq, List.tail_cons, ne_eq,
      Bool.decide_and, Bool.and_eq_true, decide_eq_true_eq, decide_not, Bool.not_eq_true',
      decide_eq_false_iff_not] at h
    obtain ⟨rfl, hp⟩ := h
    refine ⟨p ++ rest, rfl, ?_⟩
    cases p with
    | nil => simpa using hrest
    | cons d p => simpa using hp

/-! ## The raw query of the request -/

theorem getSchemeLoop_rest (enc : GoString) :
    ∀ (s₁ pre : GoString), (63 : UInt8) ∉ pre → (63 : UInt8) ∉ s₁ →
      ∀ scheme rest,
        getSchemeLoop (pre ++ s₁ ++ 63 :: enc) pre.length (s₁ ++ 63 :: enc)
            = Except.ok (scheme, rest) →
        ∃ p, rest = p ++ 63 :: enc ∧ (63 : UInt8) ∉ p := by
  intro s₁
  induction s₁ with
  | nil =>
    intro pre hpre _ scheme rest h
    simp only [List.nil_append, List.append_nil] at h
    unfold getSchemeLoop at h
    rw [if_neg (by decide), if_neg (by decide), if_neg (by decide)] at h
    simp only [Except.ok.injEq, Prod.mk.injEq] at h
    exact ⟨pre, h.2.symm, hpre⟩
  | cons c s₁ ih =>
    intro pre hpre hs scheme rest h
    have hc : c ≠ 63 := fun hc => hs (hc ▸ List.mem_cons_self _ _)
    have hs₁ : (63 : UInt8) ∉ s₁ := fun hm => hs (List.mem_cons_of_mem _ hm)
    have hraw : pre ++ c :: s₁ ++ 63 :: enc = (pre ++ [c]) ++ s₁ ++ 63 :: enc := by simp
    have hpre₁ : (63 : UInt8) ∉ pre ++ [c] := by
      simp only [List.mem_append, List.mem_singleton, not_or]
      exact ⟨hpre, Ne.symm hc⟩
    have hrec : ∀ scheme rest,
        getSchemeLoop (pre ++ c :: s₁ ++ 63 :: enc) (pre.length + 1) (s₁ ++ 63 :: enc)
            = Except.ok (scheme, rest) →
        ∃ p, rest = p ++ 63 :: enc ∧ (63 : UInt8) ∉ p := by
      intro scheme rest h
      rw [hraw] at h
      have := ih (pre ++ [c]) hpre₁ hs₁ scheme rest (by simpa using h)
      exact this
    have hwhole : ∃ p, pre ++ c :: s₁ ++ 63 :: enc = p ++ 63 :: enc ∧ (63 : UInt8) ∉ p := by
      refine ⟨pre ++ c :: s₁, by simp, ?_⟩
      simp only [List.mem_append, List.mem_cons, not_or]
      exact ⟨hpre, Ne.symm hc, hs₁⟩
    rw [List.cons_append] at h
    unfold getSchemeLoop at h
    split_ifs at h
    · exact hrec _ _ h
    · simp only [Except.ok.injEq, Prod.mk.injEq] at h
      rw [← h.2]
      exact hwhole
    · exact hrec _ _ h
    · simp only [Except.ok.injEq, Prod.mk.injEq] at h
      refine ⟨s₁, ?_, hs₁⟩
      rw [← h.2]
      simp [List.drop_append]
    · simp only [Except.ok.injEq, Prod.mk.injEq] at h
      rw [← h.2]
      exact hwhole

theorem getScheme_rest (p enc : GoString) (hp : (63 : UInt8) ∉ p) (scheme rest : GoString)
    (h : getScheme (p ++ 63 :: enc) = Except.ok (scheme, rest)) :
    ∃ p₁, rest = p₁ ++ 63 :: enc ∧ (63 : UInt8) ∉ p₁ := by
  unfold getScheme at h
  exact getSchemeLoop_rest enc p [] (by simp) hp scheme rest (by simpa using h)

theorem dropWhile_ne_append (p enc : GoString) (c : UInt8) (hp : c ∉ p) :
    (p ++ c :: enc).dropWhile (fun x => x != c) = c :: enc := by
  induction p with
  | nil => simp [List.dropWhile]
  | cons d p ih =>
    have hd : d ≠ c := fun h => hp (h ▸ List.mem_cons_self _ _)
    have hb : (d != c) = true := by simpa using hd
    rw [List.cons_append, List.dropWhile_cons]
    simp only [hb, if_true]
    exact ih (fun hm => hp (List.mem_cons_of_mem _ hm))

theorem takeWhile_ne_append (p enc : GoString) (c : UInt8) (hp : c ∉ p) :
    (p ++ c :: enc).takeWhile (fun x => x != c) = p := by
  induction p with
  | nil => simp [List.takeWhile]
  | cons d p ih =>
    have hd : d ≠ c := fun h => hp (h ▸ List.mem_cons_self _ _)
    have hb : (d != c) = true := by simpa using hd
    rw [List.cons_append, List.takeWhile_cons]
    simp only [hb, if_true]
    rw [ih (fun hm => hp (List.mem_cons_of_mem _ hm))]

theorem takeWhile_ne_self (s : GoString) (c : UInt8) (hs : c ∉ s) :
    s.takeWhile (fun x => x != c) = s := by
  rw [List.takeWhile_eq_self_iff]
  intro x hx
  simp only [bne_iff_ne, ne_eq]
  exact fun h => hs (h ▸ hx)

theorem dropWhile_ne_self (s : GoString) (c : UInt8) (hs : c ∉ s) :
    s.dropWhile (fun x => x != c) = [] := by
  rw [List.dropWhile_eq_nil_iff]
  intro x hx
  simp only [bne_iff_ne, ne_eq]
  exact fun h => hs (h ▸ hx)

theorem splitQuery_snd (p enc : GoString) (hp : (63 : UInt8) ∉ p) (henc : (63 : UInt8) ∉ enc) :
    (splitQuery (p ++ 63 :: enc)).2 = enc := by
  unfold splitQuery
  split_ifs with h
  · cases enc with
    | nil => rfl
    | cons e enc =>
      exfalso
      have hlast : (p ++ 63 :: e :: enc).getLast? = (e :: enc).getLast? := by
        rw [show p ++ 63 :: e :: enc = (p ++ [63]) ++ (e :: enc) by simp]
        rw [List.getLast?_append_of_ne_nil _ (List.cons_ne_nil _ _)]
      rw [hlast] at h
      exact henc (List.mem_of_getLast?_eq_some h.1)
  · simp only [Cut, dropWhile_ne_append p enc 63 hp, List.tail_cons]

theorem parse_rawQuery (p enc : GoString) (hp : (63 : UInt8) ∉ p) (henc : (63 : UInt8) ∉ enc)
    (u : URL) (h : parse (p ++ 63 :: enc) = Except.ok u) : u.RawQuery = enc := by
  unfold parse at h
  split_ifs at h with h₁ h₂
  · exfalso
    have hs : str "*" = [42] := by decide
    rw [hs] at h₂
    cases p with
    | nil => simp at h₂
    | cons c p => simp at h₂
  · split at h
    · exact Except.noConfusion h
    · rename_i scheme rest hsch
      obtain ⟨p₁, rfl, hp₁⟩ := getScheme_rest p enc hp scheme rest hsch
      split at h
      · exact Except.noConfusion h
      · simp only [Except.ok.injEq] at h
        subst h
        exact splitQuery_snd p₁ enc hp₁ henc

/-- The raw query of the request `http.NewRequest` builds from `path?query` is `query`,
when there is no `?` and no `#` in the path and in the query. -/
theorem NewRequest_rawQuery (method path enc : GoString)
    (hp : (63 : UInt8) ∉ path) (hp₁ : (35 : UInt8) ∉ path)
    (henc : (63 : UInt8) ∉ enc) (henc₁ : (35 : UInt8) ∉ enc)
    (u : URL) (h : NewRequest method (path ++ str "?" ++ enc) = Except.ok u) :
    u.RawQuery = enc := by
  have hq : str "?" = [63] := by decide
  rw [hq, List.append_assoc, List.singleton_append] at h
  unfold NewRequest at h
  generalize (if method = [] then str "GET" else method) = m at h
  split_ifs at h
  split at h
  · exact Except.noConfusion h
  · rename_i u₁ heq
    simp only [Except.ok.injEq] at h
    subst h
    have hcut : (Cut (path ++ 63 :: enc) 35).1 = path ++ 63 :: enc := by
      apply takeWhile_ne_self
      simp only [List.mem_append, List.mem_cons, not_or]
      exact ⟨hp₁, by decide, henc₁⟩
    unfold Parse at heq
    rw [hcut] at heq
    split at heq
    · exact Except.noConfusion heq
    · rename_i u₂ hparse
      have hu : u₁ = u₂ := by
        split_ifs at heq
        · simpa using heq.symm
        · split at heq
          · exact Except.noConfusion heq
          · simpa using heq.symm
      rw [hu]
      exact parse_rawQuery path enc hp henc u₂ hparse

/-! ## `request` after `http.NewRequest` -/

theorem Header.Get_signedHeader (host : GoString) :
    Header.Get (signedHeader host) (str "Host") = host := by
  have h : ¬ str "Content-Type" = str "Host" := by decide
  rw [Header.Get_Host, signedHeader_eq]
  simp only [Values.get, if_neg h, if_true]

/-- A call of `request` whose payload marshals and whose URL `http.NewRequest` accepts:
it stops with a panic when the secret key has fewer than 10 bytes; otherwise it calls
`sign`, returns the error of `sign` when the host of the URL is empty, and hands one
request with the token to the HTTP client when it is not. -/
theorem request_of_url (c : Client) (env : Env) (method path : GoString)
    (queryParams : Option QueryMap) (data : Option (Except GoString (List UInt8))) (url : URL)
    (hdata : ∀ e, data ≠ some (Except.error e))
    (hurl : env.NewRequest method (path ++ str "?" ++ QueryMap.Encode queryParams)
      = Except.ok url) :
    (c.SecretKey.length < 10 →
      request c env method path queryParams data
        = ⟨Outcome.panicked, [], none, [], queryParams⟩)
    ∧ (10 ≤ c.SecretKey.length → url.Host = [] →
        (request c env method path queryParams data).outcome
            = Outcome.returned 0 none (some (str "header Host is required"))
        ∧ (request c env method path queryParams data).signed
            = some ⟨env.now, method, url.Path, signedHeader url.Host, queryParams,
                payloadBody data⟩
        ∧ (request c env method path queryParams data).sent = [])
    ∧ (10 ≤ c.SecretKey.length → url.Host ≠ [] →
        (sign c env.now method url.Path (signedHeader url.Host) queryParams
            (payloadBody data)).err = none
        ∧ (request c env method path queryParams data).signed
            = some ⟨env.now, method, url.Path, signedHeader url.Host, queryParams,
                payloadBody data⟩
        ∧ (request c env method path queryParams data).sent
            = [⟨if method = [] then str "GET" else method, url,
                Header.Set (signedHeader url.Host) (str "Authorization")
                  (authToken c env.now (sign c env.now method url.Path (signedHeader url.Host)
                    queryParams (payloadBody data)).signature),
                (payloadBody data).getD []⟩]) := by
  have hsign := sign_eq c env.now method url.Path (signedHeader url.Host) queryParams
    (payloadBody data)
  rw [Header.Get_signedHeader] at hsign
  refine ⟨fun hkey => ?_, fun hkey hhost => ?_, fun hkey hhost => ?_⟩
  · unfold request
    rcases data with _ | (e | b)
    · simp only [hurl, if_pos hkey]
    · exact absurd rfl (hdata e)
    · simp only [hurl, if_pos hkey]
  · rw [if_pos hhost] at hsign
    have hlen : ¬ c.SecretKey.length < 10 := by omega
    unfold request
    rcases data with _ | (e | b)
    · simp only [signedHeader, payloadBody] at hsign
      simp only [hurl, if_neg hlen, hsign, signedHeader, payloadBody, and_self]
    · exact absurd rfl (hdata e)
    · simp only [signedHeader, payloadBody] at hsign
      simp only [hurl, if_neg hlen, hsign, signedHeader, payloadBody, and_self]
  · rw [if_neg hhost] at hsign
    have hlen : ¬ c.SecretKey.length < 10 := by omega
    have herr : (sign c env.now method url.Path (signedHeader url.Host) queryParams
        (payloadBody data)).err = none := by rw [hsign]
    refine ⟨herr, ?_⟩
    unfold request
    rcases data with _ | (e | b)
    · simp only [signedHeader, payloadBody] at herr
      simp only [hurl, if_neg hlen, herr, signedHeader, payloadBody, authToken]
      generalize env.Do _ = r
      cases r with
      | error err => exact ⟨rfl, rfl⟩
      | ok resp =>
        simp only []
        generalize resp.Body = respBody
        cases respBody <;> exact ⟨rfl, rfl⟩
    · exact absurd rfl (hdata e)
    · simp only [signedHeader, payloadBody] at herr
      simp only [hurl, if_neg hlen, herr, signedHeader, payloadBody, authToken]
      generalize env.Do _ = r
      cases r with
      | error err => exact ⟨rfl, rfl⟩
      | ok resp =>
        simp only []
        generalize resp.Body = respBody
        cases respBody <;> exact ⟨rfl, rfl⟩

theorem goEnv_NewRequest_ok {now : Int} {message : RequestError → GoString}
    {Do : Request → Except GoString Response} {method rawURL : GoString} {u : URL}
    (h : NewRequest method rawURL = Except.ok u) :
    (goEnv now message Do).NewRequest method rawURL = Except.ok u := by
  simp only [goEnv, h]

theorem goEnv_NewRequest_error {now : Int} {message : RequestError → GoString}
    {Do : Request → Except GoString Response} {method rawURL : GoString} {e : RequestError}
    (h : NewRequest method rawURL = Except.error e) :
    (goEnv now message Do).NewRequest method rawURL = Except.error (message e) := by
  simp only [goEnv, h]

theorem request_sent_nil_of_data_error (c : Client) (env : Env) (method path : GoString)
    (queryParams : Option QueryMap) (e : GoString) :
    request c env method path queryParams (some (Except.error e))
      = ⟨Outcome.returned 0 none (some e), [], none, [], queryParams⟩ := rfl

/-! ## Paths and URLs -/

/-- C21, as the code has it: the call `request("GET", "/api/v1/regions", nil, nil)` on a
client with a secret key of 30 bytes.  `http.NewRequest` accepts the URL
`/api/v1/regions?` and resolves it to an empty host; `sign` then fails with
`header Host is required` and nothing is handed to the HTTP client. -/
theorem request_refuses_server_relative_path :
    serverRelative (str "/api/v1/regions") = true
    ∧ 10 ≤ exampleClient.SecretKey.length
    ∧ NewRequest (str "GET") (str "/api/v1/regions" ++ str "?" ++ QueryMap.Encode none)
        = Except.ok ⟨str "/api/v1/regions", [], []⟩
    ∧ (request exampleClient exampleGoEnv (str "GET") (str "/api/v1/regions") none none).outcome
        = Outcome.returned 0 none (some (str "header Host is required"))
    ∧ (request exampleClient exampleGoEnv (str "GET") (str "/api/v1/regions") none none).sent
        = [] :=
  ⟨by decide, by decide, by decide, by decide, by decide⟩

/-- C21, amended. A server-relative path is refused and a URL with a host is accepted.
On a client whose secret key has at least 10 bytes, a call of `request` whose path is
server-relative (it begins with `/` but not with `//`) hands nothing to the HTTP client
and returns an error, which is the missing-Host error `header Host is required` of the
canonicalization step when the payload marshals and `http.NewRequest` accepts the URL.
A call whose payload marshals and whose URL `http.NewRequest` resolves to a non-empty
host passes the canonicalization step, and the one request it hands to the HTTP client
carries the token in its header `Authorization`. -/
theorem request_needs_host (c : Client) (now : Int) (message : RequestError → GoString)
    (Do : Request → Except GoString Response) (method path : GoString)
    (queryParams : Option QueryMap) (data : Option (Except GoString (List UInt8)))
    (hkey : 10 ≤ c.SecretKey.length) :
    (serverRelative path = true →
      (request c (goEnv now message Do) method path queryParams data).sent = []
      ∧ (∃ err, (request c (goEnv now message Do) method path queryParams data).outcome
          = Outcome.returned 0 none (some err))
      ∧ ((∀ e, data ≠ some (Except.error e)) →
          ∀ u, NewRequest method (path ++ str "?" ++ QueryMap.Encode queryParams) = Except.ok u →
            (request c (goEnv now message Do) method path queryParams data).outcome
              = Outcome.returned 0 none (some (str "header Host is required"))))
    ∧ ((∀ e, data ≠ some (Except.error e)) →
        ∀ u, NewRequest method (path ++ str "?" ++ QueryMap.Encode queryParams) = Except.ok u →
          u.Host ≠ [] →
          (sign c now method u.Path (signedHeader u.Host) queryParams (payloadBody data)).err
              = none
          ∧ ∃ req, (request c (goEnv now message Do) method path queryParams data).sent = [req]
              ∧ Values.get req.Header (str "Authorization")
                = [authToken c now (sign c now method u.Path (signedHeader u.Host) queryParams
                    (payloadBody data)).signature]) := by
  constructor
  · intro hrel
    have hq : (str "?" ++ QueryMap.Encode queryParams).head? ≠ some 47 := by
      have hs : str "?" = [63] := by decide
      rw [hs]
      simp
    obtain ⟨t, ht, hhead⟩ := serverRelative_append path _ hrel hq
    rw [← List.append_assoc] at ht
    have hhost : ∀ u, NewRequest method (path ++ str "?" ++ QueryMap.Encode queryParams)
        = Except.ok u → u.Host = [] := by
      intro u hu
      rw [ht] at hu
      exact NewRequest_host_of_slash method t hhead u hu
    by_cases hdata : ∀ e, data ≠ some (Except.error e)
    · cases hnew : NewRequest method (path ++ str "?" ++ QueryMap.Encode queryParams) with
      | error e =>
        have h := (request_early_error c (goEnv now message Do) method path queryParams
          data).2 (message e) hdata (goEnv_NewRequest_error hnew)
        rw [h]
        exact ⟨rfl, ⟨_, rfl⟩, fun _ u hu => Except.noConfusion hu⟩
      | ok u =>
        obtain ⟨hout, -, hsent⟩ := (request_of_url c (goEnv now message Do) method path
          queryParams data u hdata (goEnv_NewRequest_ok hnew)).2.1 hkey (hhost u hnew)
        refine ⟨hsent, ⟨_, hout⟩, fun _ u₁ hu₁ => hout⟩
    · have hex : ∃ e, data = some (Except.error e) := by
        by_contra hne
        exact hdata (fun e he => hne ⟨e, he⟩)
      obtain ⟨e, rfl⟩ := hex
      rw [request_sent_nil_of_data_error]
      exact ⟨rfl, ⟨_, rfl⟩, fun h => absurd rfl (h e)⟩
  · intro hdata u hu hhost
    obtain ⟨herr, -, hsent⟩ := (request_of_url c (goEnv now message Do) method path
      queryParams data u hdata (goEnv_NewRequest_ok hu)).2.2 hkey hhost
    exact ⟨herr, _, hsent, (get_authorizedHeader _ _).2⟩

/-- The call `request("GET", "https://juicefs.com/api/v1/regions", nil, nil)` of
`GetRegions` on a client with the default endpoint: the host is `juicefs.com`, `sign`
succeeds and one request is sent. -/
theorem request_needs_host_witness :
    (sign exampleClient 1700000000 (str "GET") (str "/api/v1/regions")
        (signedHeader (str "juicefs.com")) none (payloadBody none)).err = none
    ∧ ∃ req, (request exampleClient (goEnv 1700000000 exampleMessage
          (fun _ => Except.ok ⟨200, Except.ok (str "[]")⟩)) (str "GET")
          (str "https://juicefs.com/api/v1/regions") none none).sent = [req]
        ∧ Values.get req.Header (str "Authorization")
          = [authToken exampleClient 1700000000
              (sign exampleClient 1700000000 (str "GET") (str "/api/v1/regions")
                (signedHeader (str "juicefs.com")) none (payloadBody none)).signature] :=
  (request_needs_host exampleClient 1700000000 exampleMessage
    (fun _ => Except.ok ⟨200, Except.ok (str "[]")⟩) (str "GET")
    (str "https://juicefs.com/api/v1/regions") none none (by decide)).2
    (fun e he => Option.noConfusion he) ⟨str "/api/v1/regions", str "juicefs.com", []⟩
    (by decide) (by decide)

/-! ## The client of the provider -/

/-- C22. Endpoint default: when the configuration is read without error, `Configure`
builds a client whose `Endpoint` is `https://juicefs.com/api/v1` if the configured
endpoint is null and is the configured string if the endpoint is set to one; its
`AccessKey` and `SecretKey` are the configured values unchanged.  The client stored in
the response, when one is stored, is that client. -/
theorem configure_endpoint_default (env : Env) (Unmarshal : List UInt8 → Option GoString)
    (data : juicefsCloudProviderModel) :
    ∃ c : Client, (Configure env Unmarshal false data).client = some c
      ∧ (data.Endpoint = StringValue.null → c.Endpoint = str "https://juicefs.com/api/v1")
      ∧ (∀ s, data.Endpoint = StringValue.known s → c.Endpoint = s)
      ∧ c.AccessKey = data.AccessKey.ValueString
      ∧ c.SecretKey = data.SecretKey.ValueString
      ∧ (∀ s, data.AccessKey = StringValue.known s → c.AccessKey = s)
      ∧ (∀ s, data.SecretKey = StringValue.known s → c.SecretKey = s)
      ∧ (∀ c₁, (Configure env Unmarshal false data).DataSourceData = some c₁ → c₁ = c)
      ∧ (∀ c₁, (Configure env Unmarshal false data).ResourceData = some c₁ → c₁ = c) := by
  refine ⟨⟨if !data.Endpoint.IsNull then data.Endpoint.ValueString
      else str "https://juicefs.com/api/v1", data.AccessKey.ValueString,
      data.SecretKey.ValueString⟩, ?_, ?_, ?_, rfl, rfl, ?_, ?_, ?_, ?_⟩
  · simp only [Configure, Bool.false_eq_true, if_false]
    split <;> rfl
  · intro h
    simp only [h, StringValue.IsNull, Bool.not_true, Bool.false_eq_true, if_false]
  · intro s h
    simp only [h, StringValue.IsNull, StringValue.ValueString, Bool.not_false, if_true]
  · intro s h
    simp only [h, StringValue.ValueString]
  · intro s h
    simp only [h, StringValue.ValueString]
  · intro c₁ h
    simp only [Configure, Bool.false_eq_true, if_false] at h
    split at h
    · exact absurd h (by simp)
    · exact absurd h (by simp)
    · exact (Option.some.inj h).symm
  · intro c₁ h
    simp only [Configure, Bool.false_eq_true, if_false] at h
    split at h
    · exact absurd h (by simp)
    · exact absurd h (by simp)
    · exact (Option.some.inj h).symm

/-! ## The preview of the secret key -/

/-- C23, as the code has it: on a client whose secret key has fewer than 10 bytes, a
call of `request` whose payload marshals and whose URL `http.NewRequest` accepts stops
with a run-time panic at the slice `SecretKey[:10]`: it prints nothing, does not call
`sign` and hands nothing to the HTTP client. -/
theorem request_panics_on_short_secret_key (c : Client) (env : Env) (method path : GoString)
    (queryParams : Option QueryMap) (data : Option (Except GoString (List UInt8))) (url : URL)
    (hkey : c.SecretKey.length < 10)
    (hdata : ∀ e, data ≠ some (Except.error e))
    (hurl : env.NewRequest method (path ++ str "?" ++ QueryMap.Encode queryParams)
      = Except.ok url) :
    (request c env method path queryParams data).outcome = Outcome.panicked
    ∧ (request c env method path queryParams data).printed = []
    ∧ (request c env method path queryParams data).signed = none
    ∧ (request c env method path queryParams data).sent = [] := by
  rw [(request_of_url c env method path queryParams data url hdata hurl).1 hkey]
  exact ⟨rfl, rfl, rfl, rfl⟩

/-- The client of the end-to-end scenario, access key `AK1` and secret key `SK1`, on the
call `request("GET", "https://juicefs.com/api/v1/regions", nil, nil)` of `GetRegions`. -/
theorem request_panics_on_short_secret_key_witness :
    (request ⟨str "https://juicefs.com/api/v1", str "AK1", str "SK1"⟩ exampleGoEnv (str "GET")
        (str "https://juicefs.com/api/v1/regions") none none).outcome = Outcome.panicked
    ∧ (request ⟨str "https://juicefs.com/api/v1", str "AK1", str "SK1"⟩ exampleGoEnv (str "GET")
        (str "https://juicefs.com/api/v1/regions") none none).printed = []
    ∧ (request ⟨str "https://juicefs.com/api/v1", str "AK1", str "SK1"⟩ exampleGoEnv (str "GET")
        (str "https://juicefs.com/api/v1/regions") none none).signed = none
    ∧ (request ⟨str "https://juicefs.com/api/v1", str "AK1", str "SK1"⟩ exampleGoEnv (str "GET")
        (str "https://juicefs.com/api/v1/regions") none none).sent = [] :=
  request_panics_on_short_secret_key ⟨str "https://juicefs.com/api/v1", str "AK1", str "SK1"⟩
    exampleGoEnv (str "GET") (str "https://juicefs.com/api/v1/regions") none none
    ⟨str "/api/v1/regions", str "juicefs.com", []⟩ (by decide)
    (fun e he => Option.noConfusion he) (by decide)

/-! ## The fields read back from the string to sign -/

theorem newline_not_mem_formatInt (t : Int) : (10 : UInt8) ∉ formatInt t := by
  intro h
  have hd : isDigit (10 : UInt8) = false := by decide
  cases t with
  | ofNat n =>
    have := isDigit_decimal _ _ _ h
    rw [hd] at this
    exact Bool.noConfusion this
  | negSucc n =>
    simp only [formatInt, List.mem_cons] at h
    rcases h with h | h
    · exact absurd h (by decide)
    · have := isDigit_decimal _ _ _ h
      rw [hd] at this
      exact Bool.noConfusion this

theorem newline_not_mem_sortedQueryString (q : Option QueryMap) :
    (10 : UInt8) ∉ (sortedQueryString q).1 := by
  intro h
  rcases mem_sortedQueryString q 10 h with h | h | h | h | h
  · exact absurd h (by decide)
  all_goals exact absurd h (by decide)

theorem canonical_eq_lines (t : Int) (m p h q x : GoString) :
    canonical t m p h q x
      = formatInt t ++ 10 :: (m ++ 10 :: (p ++ 10 :: ((str "host:" ++ h) ++ 10 :: (q ++ 10 :: x)))) := by
  have hnl : str "\n" = [10] := by decide
  simp only [canonical, hnl, List.append_assoc, List.singleton_append, List.cons_append,
    List.nil_append]

/-- The six fields can be read back from the string to sign when the method, the path
and the Host value hold no newline. -/
theorem canonical_fields {t₁ t₂ : Int} {m₁ m₂ p₁ p₂ h₁ h₂ q₁ q₂ x₁ x₂ : GoString}
    (hm₁ : (10 : UInt8) ∉ m₁) (hm₂ : (10 : UInt8) ∉ m₂)
    (hp₁ : (10 : UInt8) ∉ p₁) (hp₂ : (10 : UInt8) ∉ p₂)
    (hh₁ : (10 : UInt8) ∉ h₁) (hh₂ : (10 : UInt8) ∉ h₂)
    (hq₁ : (10 : UInt8) ∉ q₁) (hq₂ : (10 : UInt8) ∉ q₂)
    (h : canonical t₁ m₁ p₁ h₁ q₁ x₁ = canonical t₂ m₂ p₂ h₂ q₂ x₂) :
    t₁ = t₂ ∧ m₁ = m₂ ∧ p₁ = p₂ ∧ h₁ = h₂ ∧ q₁ = q₂ ∧ x₁ = x₂ := by
  rw [canonical_eq_lines, canonical_eq_lines] at h
  have hhost : ∀ h : GoString, (10 : UInt8) ∉ h → (10 : UInt8) ∉ str "host:" ++ h := by
    intro h hh hmem
    rcases List.mem_append.mp hmem with h' | h'
    · exact absurd h' (by decide)
    · exact hh h'
  obtain ⟨ht, h⟩ := append_cons_inj_of_not_mem (newline_not_mem_formatInt t₁)
    (newline_not_mem_formatInt t₂) h
  obtain ⟨hm, h⟩ := append_cons_inj_of_not_mem hm₁ hm₂ h
  obtain ⟨hp, h⟩ := append_cons_inj_of_not_mem hp₁ hp₂ h
  obtain ⟨hh, h⟩ := append_cons_inj_of_not_mem (hhost h₁ hh₁) (hhost h₂ hh₂) h
  obtain ⟨hq, hx⟩ := append_cons_inj_of_not_mem hq₁ hq₂ h
  exact ⟨formatInt_injective ht, hm, hp, List.append_cancel_left hh, hq, hx⟩

/-- C24. No signature confusion for newline-free fields: two signing inputs on which
`sign` succeeds, whose methods, paths and Host values hold no newline and whose strings
to sign are equal, have the same timestamp, the same method, the same path, the same Host
value, the same query block and the same payload hash. -/
theorem stringToSign_no_confusion (c₁ c₂ : Client) (t₁ t₂ : Int) (m₁ m₂ p₁ p₂ : GoString)
    (h₁ h₂ : Header) (q₁ q₂ : Option QueryMap) (b₁ b₂ : Option (List UInt8))
    (hok₁ : (sign c₁ t₁ m₁ p₁ h₁ q₁ b₁).err = none)
    (hok₂ : (sign c₂ t₂ m₂ p₂ h₂ q₂ b₂).err = none)
    (hm₁ : (10 : UInt8) ∉ m₁) (hm₂ : (10 : UInt8) ∉ m₂)
    (hp₁ : (10 : UInt8) ∉ p₁) (hp₂ : (10 : UInt8) ∉ p₂)
    (hh₁ : (10 : UInt8) ∉ Header.Get h₁ (str "Host"))
    (hh₂ : (10 : UInt8) ∉ Header.Get h₂ (str "Host"))
    (heq : (stringToSign t₁ m₁ p₁ h₁ q₁ b₁).map Prod.fst
      = (stringToSign t₂ m₂ p₂ h₂ q₂ b₂).map Prod.fst) :
    t₁ = t₂ ∧ m₁ = m₂ ∧ p₁ = p₂
      ∧ Header.Get h₁ (str "Host") = Header.Get h₂ (str "Host")
      ∧ (sortedQueryString q₁).1 = (sortedQueryString q₂).1
      ∧ payloadHash b₁ = payloadHash b₂ := by
  have hne₁ := (sign_err_eq_none_iff c₁ t₁ m₁ p₁ h₁ q₁ b₁).mp hok₁
  have hne₂ := (sign_err_eq_none_iff c₂ t₂ m₂ p₂ h₂ q₂ b₂).mp hok₂
  rw [stringToSign_eq, stringToSign_eq, if_neg hne₁, if_neg hne₂] at heq
  have h : canonical t₁ m₁ p₁ (Header.Get h₁ (str "Host")) (sortedQueryString q₁).1
      (payloadHash b₁)
      = canonical t₂ m₂ p₂ (Header.Get h₂ (str "Host")) (sortedQueryString q₂).1
        (payloadHash b₂) := by
    simpa [Except.map] using heq
  exact canonical_fields hm₁ hm₂ hp₁ hp₂ hh₁ hh₂ (newline_not_mem_sortedQueryString q₁)
    (newline_not_mem_sortedQueryString q₂) h

/-- Two inputs with the same fields and query maps that list the same pairs in a
different order: the strings to sign are equal, and so are the six fields. -/
theorem stringToSign_no_confusion_witness :
    (1700000000 : Int) = 1700000000 ∧ str "GET" = str "GET"
      ∧ str "/api/v1/regions" = str "/api/v1/regions"
      ∧ Header.Get [(str "Host", [str "juicefs.com"])] (str "Host")
        = Header.Get [(str "Host", [str "juicefs.com"]),
            (str "Content-Type", [str "application/json"])] (str "Host")
      ∧ (sortedQueryString (some (QueryMap.ofValues [(str "b", [str "2"]), (str "a", [str "1"])]))).1
        = (sortedQueryString (some (QueryMap.ofValues [(str "a", [str "1"]), (str "b", [str "2"])]))).1
      ∧ payloadHash none = payloadHash none :=
  stringToSign_no_confusion ⟨[], str "AK1", str "SK1"⟩ ⟨[], str "AK2", str "SK2"⟩
    1700000000 1700000000 (str "GET") (str "GET") (str "/api/v1/regions")
    (str "/api/v1/regions") [(str "Host", [str "juicefs.com"])]
    [(str "Host", [str "juicefs.com"]), (str "Content-Type", [str "application/json"])]
    (some (QueryMap.ofValues [(str "b", [str "2"]), (str "a", [str "1"])]))
    (some (QueryMap.ofValues [(str "a", [str "1"]), (str "b", [str "2"])])) none none
    (by decide) (by decide) (by decide) (by decide) (by decide) (by decide) (by decide)
    (by decide) (by decide)

/-! ## `url.Values.Encode` -/

theorem Join_cons_append (a e : GoString) (rest : List GoString) (sep : GoString) :
    Join ((a ++ sep ++ e) :: rest) sep = a ++ sep ++ Join (e :: rest) sep := by
  cases rest with
  | nil => rfl
  | cons b rest => simp only [Join, List.append_assoc]

theorem foldl_separator (es : List GoString) (hne : ∀ e ∈ es, e ≠ []) :
    ∀ buf : GoString, buf ≠ [] →
      es.foldl (fun buf e => (if buf.length > 0 then buf ++ [38] else buf) ++ e) buf
        = Join (buf :: es) [38] := by
  induction es with
  | nil => intro buf _; rfl
  | cons e es ih =>
    intro buf hbuf
    have hlen : buf.length > 0 := List.length_pos.mpr hbuf
    rw [List.foldl_cons, if_pos hlen, ih (fun x hx => hne x (List.mem_cons_of_mem _ hx)),
      Join_cons_append]
    · rfl
    · simp [hbuf]

theorem foldl_separator_nil (es : List GoString) (hne : ∀ e ∈ es, e ≠ []) :
    es.foldl (fun buf e => (if buf.length > 0 then buf ++ [38] else buf) ++ e) []
      = Join es [38] := by
  cases es with
  | nil => rfl
  | cons e es =>
    rw [List.foldl_cons]
    simp only [List.length_nil, gt_iff_lt, lt_self_iff_false, if_false, List.nil_append]
    exact foldl_separator es (fun x hx => hne x (List.mem_cons_of_mem _ hx)) e
      (hne e (List.mem_cons_self _ _))

theorem mem_entries_ne_nil (k : GoString) (vs : List GoString) : ∀ e ∈ entries k vs, e ≠ [] := by
  intro e he
  simp only [entries, List.mem_map] at he
  obtain ⟨v, -, rfl⟩ := he
  exact entry_ne_nil (k, v)

/-- The text `Encode` writes: the entries `name=value`, names ascending and the values of
each name in the order the map holds them, joined by `&`. -/
theorem QueryMap.Encode_eq (m : QueryMap) :
    QueryMap.Encode (some m)
      = Join ((sortStrings (QueryMap.keys m)).flatMap fun k => entries k (QueryMap.get m k))
          (str "&") := by
  have hamp : str "&" = [38] := by decide
  have hinner : ∀ (k : GoString) (vs : List GoString) (buf : GoString),
      vs.foldl (fun buf value => (if buf.length > 0 then buf ++ str "&" else buf)
          ++ QueryEscape k ++ str "=" ++ QueryEscape value) buf
        = (entries k vs).foldl
            (fun buf e => (if buf.length > 0 then buf ++ [38] else buf) ++ e) buf := by
    intro k vs
    induction vs with
    | nil => intro buf; rfl
    | cons v vs ih =>
      intro buf
      simp only [entries, List.map_cons, List.foldl_cons] at ih ⊢
      rw [ih]
      simp only [hamp, List.append_assoc]
  have houter : ∀ (ks : List GoString) (buf : GoString),
      ks.foldl (fun buf k => (QueryMap.get m k).foldl
          (fun buf value => (if buf.length > 0 then buf ++ str "&" else buf)
            ++ QueryEscape k ++ str "=" ++ QueryEscape value) buf) buf
        = (ks.flatMap fun k => entries k (QueryMap.get m k)).foldl
            (fun buf e => (if buf.length > 0 then buf ++ [38] else buf) ++ e) buf := by
    intro ks
    induction ks with
    | nil => intro buf; rfl
    | cons k ks ih =>
      intro buf
      rw [List.foldl_cons, ih, hinner, List.flatMap_cons, List.foldl_append]
  rw [QueryMap.Encode, houter, hamp, foldl_separator_nil]
  intro e he
  simp only [List.mem_flatMap] at he
  obtain ⟨k, -, hk⟩ := he
  exact mem_entries_ne_nil k _ e hk

/-- The query block of `sign` is the text of `Encode` when the values of every name are
in ascending order already. -/
theorem sortedQueryString_eq_Encode (q : Option QueryMap)
    (hsorted : ∀ m, q = some m → ∀ k, (QueryMap.get m k).Sorted StrLE) :
    (sortedQueryString q).1 = QueryMap.Encode q := by
  cases q with
  | none => rfl
  | some m =>
    rw [(sortedQueryString_of_sorted m (hsorted m rfl)).1, QueryMap.Encode_eq]

/-! ## The query on the wire -/

theorem not_mem_Encode_of_sorted (q : Option QueryMap)
    (hsorted : ∀ m, q = some m → ∀ k, (QueryMap.get m k).Sorted StrLE) :
    (63 : UInt8) ∉ QueryMap.Encode q ∧ (35 : UInt8) ∉ QueryMap.Encode q := by
  rw [← sortedQueryString_eq_Encode q hsorted]
  constructor
  · intro h
    rcases mem_sortedQueryString q _ h with h | h | h | h | h
    all_goals exact absurd h (by decide)
  · intro h
    rcases mem_sortedQueryString q _ h with h | h | h | h | h
    all_goals exact absurd h (by decide)

/-- C25. Signed query equals wire query: for a query map in which the values of every
name are in ascending order already, the query block of `sign` is the text
`queryParams.Encode()` that `request` writes after the `?` of the URL (the entries
`QueryEscape(name)=QueryEscape(value)`, names ascending, joined by `&`), and it is the
raw query of the request `http.NewRequest` builds from that URL when the path holds no
`?` and no `#`; for an absent and for an empty map both are the empty string. -/
theorem signed_query_is_wire_query (q : Option QueryMap)
    (hsorted : ∀ m, q = some m → ∀ k, (QueryMap.get m k).Sorted StrLE) :
    (sortedQueryString q).1 = QueryMap.Encode q
    ∧ (∀ m, q = some m →
        QueryMap.Encode q
          = Join ((sortStrings (QueryMap.keys m)).flatMap fun k => entries k (QueryMap.get m k))
              (str "&"))
    ∧ (q = none ∨ (∃ m, q = some m ∧ m.slices = []) →
        (sortedQueryString q).1 = [] ∧ QueryMap.Encode q = [])
    ∧ (∀ method path u, (63 : UInt8) ∉ path → (35 : UInt8) ∉ path →
        NewRequest method (path ++ str "?" ++ QueryMap.Encode q) = Except.ok u →
        u.RawQuery = (sortedQueryString q).1) := by
  refine ⟨sortedQueryString_eq_Encode q hsorted, ?_, ?_, ?_⟩
  · rintro m rfl
    exact QueryMap.Encode_eq m
  · rintro (rfl | ⟨m, rfl, hm⟩)
    · exact ⟨rfl, rfl⟩
    · have hk : QueryMap.keys m = [] := by rw [QueryMap.keys, hm]; rfl
      constructor
      · simp only [sortedQueryString, hk]
        rfl
      · simp only [QueryMap.Encode, hk]
        rfl
  · intro method path u hp hp₁ hu
    rw [sortedQueryString_eq_Encode q hsorted]
    exact NewRequest_rawQuery method path _ hp hp₁ (not_mem_Encode_of_sorted q hsorted).1
      (not_mem_Encode_of_sorted q hsorted).2 u hu

/-- The map `b: [2], a: [1, 2]` on the URL `https://juicefs.com/api/v1/volumes`: the
query block and the raw query of the request are both `a=1&a=2&b=2`. -/
theorem signed_query_is_wire_query_witness :
    (sortedQueryString (some (QueryMap.ofValues
        [(str "b", [str "2"]), (str "a", [str "1", str "2"])]))).1 = str "a=1&a=2&b=2"
    ∧ NewRequest (str "GET") (str "https://juicefs.com/api/v1/volumes" ++ str "?"
          ++ QueryMap.Encode (some (QueryMap.ofValues
            [(str "b", [str "2"]), (str "a", [str "1", str "2"])])))
      = Except.ok ⟨str "/api/v1/volumes", str "juicefs.com", str "a=1&a=2&b=2"⟩
    ∧ (⟨str "/api/v1/volumes", str "juicefs.com", str "a=1&a=2&b=2"⟩ : URL).RawQuery
      = (sortedQueryString (some (QueryMap.ofValues
          [(str "b", [str "2"]), (str "a", [str "1", str "2"])]))).1 :=
  ⟨by decide, by decide,
    (signed_query_is_wire_query (some (QueryMap.ofValues
        [(str "b", [str "2"]), (str "a", [str "1", str "2"])]))
      (fun m hm k => by
        cases hm
        rw [QueryMap.get_ofValues]
        simp only [Values.get]
        split_ifs <;> decide)).2.2.2 (str "GET") (str "https://juicefs.com/api/v1/volumes")
      ⟨str "/api/v1/volumes", str "juicefs.com", str "a=1&a=2&b=2"⟩ (by decide) (by decide)
      (by decide)⟩

end juicefs
